import Mathlib

/-!
Verification development for the slc authoritative game server
(src/src/server/game.ts, src/src/server/server.ts, src/src/shared/model.ts).

The engine is embedded shallowly: coordinates and timestamps are exact
rational numbers, JavaScript Maps become association lists that keep
insertion order, the per-player array of partition Sets becomes an
association list from cell index to an insertion-ordered duplicate-free
list of indices, and the tick/sub-tick loops become structural recursions.
Randomness (spawn points and directions) and wall-clock reads (Date.now)
are oracle inputs of the corresponding operations.

Rationals are represented by integer numerator / positive natural
denominator pairs (the type Q below) with exact, unnormalized arithmetic,
so that concrete runs of the engine reduce inside the kernel; the val
lemmas identify Q's operations and comparisons with the corresponding
operations on ℚ, so every statement about Q is a statement about exact
rational arithmetic.
-/

namespace SLC

/-- Exact rational number: integer numerator over positive natural
denominator, not necessarily reduced. -/
structure Q where
  num : ℤ
  den : ℕ
  pos : 0 < den

namespace Q

instance : DecidableEq Q := fun a b =>
  decidable_of_iff (a.num = b.num ∧ a.den = b.den) <| by
    constructor
    · rintro ⟨h1, h2⟩
      cases a; cases b
      cases h1; cases h2
      rfl
    · rintro rfl
      exact ⟨rfl, rfl⟩

protected def add (a b : Q) : Q :=
  ⟨a.num * b.den + b.num * a.den, a.den * b.den, Nat.mul_pos a.pos b.pos⟩

protected def mul (a b : Q) : Q :=
  ⟨a.num * b.num, a.den * b.den, Nat.mul_pos a.pos b.pos⟩

protected def neg (a : Q) : Q := ⟨-a.num, a.den, a.pos⟩

instance : Add Q := ⟨Q.add⟩
instance : Mul Q := ⟨Q.mul⟩
instance : Neg Q := ⟨Q.neg⟩

protected def sub (a b : Q) : Q := a + -b

instance : Sub Q := ⟨Q.sub⟩

/-- Division by a rational with positive numerator (the engine only ever
divides by positive constants). -/
protected def divc (a c : Q) (h : 0 < c.num) : Q :=
  ⟨a.num * c.den, a.den * c.num.toNat, Nat.mul_pos a.pos (by omega)⟩

/-- Value comparison a ≤ b (cross-multiplied; denominators are positive). -/
protected def Le (a b : Q) : Prop := a.num * b.den ≤ b.num * a.den

/-- Value comparison a < b. -/
protected def Lt (a b : Q) : Prop := a.num * b.den < b.num * a.den

/-- Value equality a = b (the JavaScript === on numbers). -/
protected def Eqv (a b : Q) : Prop := a.num * b.den = b.num * a.den

instance (a b : Q) : Decidable (Q.Le a b) := by unfold Q.Le; infer_instance

instance (a b : Q) : Decidable (Q.Lt a b) := by unfold Q.Lt; infer_instance

instance (a b : Q) : Decidable (Q.Eqv a b) := by unfold Q.Eqv; infer_instance

/-- Math.min on exact rationals. -/
protected def qmin (a b : Q) : Q := if Q.Le a b then a else b

/-- Math.max on exact rationals. -/
protected def qmax (a b : Q) : Q := if Q.Le a b then b else a

/-- Math.floor, as an integer (ℤ division rounds towards -∞). -/
protected def floor (a : Q) : ℤ := a.num / (a.den : ℤ)

/-- Embedding of the integers. -/
def ofInt (n : ℤ) : Q := ⟨n, 1, one_pos⟩

/-- The rational value represented by a Q. -/
def val (a : Q) : ℚ := (a.num : ℚ) / (a.den : ℚ)

theorem den_ne (a : Q) : ((a.den : ℚ)) ≠ 0 := by
  exact_mod_cast ne_of_gt (by exact_mod_cast a.pos : (0 : ℚ) < a.den)

theorem val_add (a b : Q) : val (a + b) = val a + val b := by
  show val (Q.add a b) = _
  unfold val Q.add
  rw [div_add_div _ _ (den_ne a) (den_ne b),
    div_eq_div_iff (by push_cast; exact mul_ne_zero (den_ne a) (den_ne b))
      (mul_ne_zero (den_ne a) (den_ne b))]
  push_cast
  ring

theorem val_mul (a b : Q) : val (a * b) = val a * val b := by
  show val (Q.mul a b) = _
  unfold val Q.mul
  rw [div_mul_div_comm]
  push_cast
  ring_nf

theorem val_neg (a : Q) : val (-a) = -val a := by
  show val (Q.neg a) = _
  unfold val Q.neg
  push_cast
  ring

theorem val_sub (a b : Q) : val (a - b) = val a - val b := by
  show val (Q.sub a b) = _
  unfold Q.sub
  rw [show a + -b = Q.add a (Q.neg b) from rfl,
    show Q.add a (Q.neg b) = a + (-b) from rfl, val_add, val_neg]
  ring

theorem le_iff (a b : Q) : Q.Le a b ↔ val a ≤ val b := by
  unfold Q.Le val
  rw [div_le_div_iff (by exact_mod_cast a.pos) (by exact_mod_cast b.pos)]
  constructor <;> intro h <;> exact_mod_cast h

theorem lt_iff (a b : Q) : Q.Lt a b ↔ val a < val b := by
  unfold Q.Lt val
  rw [div_lt_div_iff (by exact_mod_cast a.pos) (by exact_mod_cast b.pos)]
  constructor <;> intro h <;> exact_mod_cast h

theorem eqv_iff (a b : Q) : Q.Eqv a b ↔ val a = val b := by
  unfold Q.Eqv val
  rw [div_eq_div_iff (den_ne a) (den_ne b)]
  constructor <;> intro h <;> exact_mod_cast h

theorem val_ofInt (n : ℤ) : val (ofInt n) = (n : ℚ) := by
  unfold val ofInt
  simp

theorem floor_eq (a : Q) : Q.floor a = ⌊val a⌋ := by
  unfold Q.floor val
  rw [Rat.floor_intCast_div_natCast]

theorem val_qmin (a b : Q) : val (Q.qmin a b) = min (val a) (val b) := by
  unfold Q.qmin
  split
  · rw [min_eq_left ((le_iff a b).mp (by assumption))]
  · rename_i h
    rw [min_eq_right]
    have : ¬ val a ≤ val b := fun hc => h ((le_iff a b).mpr hc)
    exact le_of_lt (not_le.mp this)

theorem val_qmax (a b : Q) : val (Q.qmax a b) = max (val a) (val b) := by
  unfold Q.qmax
  split
  · rw [max_eq_right ((le_iff a b).mp (by assumption))]
  · rename_i h
    rw [max_eq_left]
    have : ¬ val a ≤ val b := fun hc => h ((le_iff a b).mpr hc)
    exact le_of_lt (not_le.mp this)

theorem val_divc (a c : Q) (h : 0 < c.num) : val (Q.divc a c h) = val a / val c := by
  unfold Q.divc val
  have hc : ((c.num : ℚ)) ≠ 0 := by
    exact_mod_cast ne_of_gt (by exact_mod_cast h : (0 : ℚ) < c.num)
  have h1 := den_ne a
  have h2 := den_ne c
  have h3 : ((c.num.toNat : ℕ) : ℚ) = (c.num : ℚ) := by
    rw [← Int.cast_natCast]
    exact congrArg _ (Int.toNat_of_nonneg h.le)
  push_cast
  rw [h3]
  field_simp

end Q

/-- Point: a pair of exact rational coordinates, mirroring the [x, y]
arrays of src/src/shared/model.ts. -/
structure Pt where
  x : Q
  y : Q
deriving DecidableEq

/-- Segment: an ordered pair of points; p2 is the live end of a head
segment. -/
structure Seg where
  p1 : Pt
  p2 : Pt
deriving DecidableEq

/-- Direction enum from src/src/shared/model.ts. -/
inductive Direction where
  | up
  | right
  | down
  | left
deriving DecidableEq

/-- oppositeDirection from src/src/shared/model.ts (the null case of the
source is never exercised by the server code modelled here). -/
def oppositeDirection : Direction → Direction
  | .up => .down
  | .right => .left
  | .down => .up
  | .left => .right

/-- directionToVector from src/src/shared/model.ts. -/
def directionToVector : Direction → Q × Q
  | .up => (.ofInt 0, .ofInt 1)
  | .right => (.ofInt 1, .ofInt 0)
  | .down => (.ofInt 0, .ofInt (-1))
  | .left => (.ofInt (-1), .ofInt 0)

/-- DirectionInput from src/src/shared/model.ts. -/
structure DirectionInput where
  direction : Direction
  receivedTimestamp : Q
deriving DecidableEq

/-! Engine constants of the Game class in src/src/server/game.ts. -/

/-- numPartitions = 10 (partitions per axis). -/
def numPartitions : ℤ := 10

/-- moveSpeed = 0.3. -/
def moveSpeed : Q := ⟨3, 10, by decide⟩

/-- tickRate = 20. -/
def tickRate : Q := ⟨20, 1, by decide⟩

/-- subTickRate = 10, as a natural number for loop bounds. -/
def subTickRateN : ℕ := 10

/-- subTickRate = 10, as a rational for arithmetic. -/
def subTickRateQ : Q := ⟨10, 1, by decide⟩

/-- aspectRatio = 1.5 (the horizontal half-extent of the field). -/
def aspect : Q := ⟨3, 2, by decide⟩

/-- lineWidth = 0.002. -/
def lineWidth : Q := ⟨1, 500, by decide⟩

/-- minSpawnDistanceFromEdge = 0.1. -/
def minSpawnDistanceFromEdge : Q := ⟨1, 10, by decide⟩

/-- Duration of one sub-tick in milliseconds:
1000 / (tickRate * subTickRate). -/
def subTickMs : Q := Q.divc (.ofInt 1000) (tickRate * subTickRateQ) (by decide)

/-- Horizontal size of one partition cell: 2 * aspectRatio / numPartitions. -/
def partSizeX : Q := Q.divc (Q.ofInt 2 * aspect) ⟨10, 1, by decide⟩ (by decide)

/-- Vertical size of one partition cell: 2.0 / numPartitions. -/
def partSizeY : Q := Q.divc (.ofInt 2) ⟨10, 1, by decide⟩ (by decide)

/-- Closed list of integers from a to b (empty when b < a), modelling a
JavaScript for loop running an integer variable from a to b inclusive. -/
def intRange (a b : ℤ) : List ℤ :=
  (List.range (b + 1 - a).toNat).map fun n => a + n

/-- pointToPartition from src/src/server/game.ts. -/
def pointToPartition (p : Pt) : ℤ :=
  let px := Q.floor (Q.divc (p.x + aspect) partSizeX (by decide))
  let py := Q.floor (Q.divc (p.y + .ofInt 1) partSizeY (by decide))
  py * numPartitions + px

/-- segmentToPartitions from src/src/server/game.ts: the list of cell
indices touched by the lineWidth-inflated segment, in the push order of the
source's nested loops.  Non-axis-aligned segments yield the empty list,
exactly as in the source. -/
def segmentToPartitions (s : Seg) : List ℤ :=
  let x1 := Q.divc (s.p1.x + aspect) partSizeX (by decide)
  let y1 := Q.divc (s.p1.y + .ofInt 1) partSizeY (by decide)
  let x2 := Q.divc (s.p2.x + aspect) partSizeX (by decide)
  let y2 := Q.divc (s.p2.y + .ofInt 1) partSizeY (by decide)
  if Q.Eqv x1 x2 then
    let w := Q.divc lineWidth partSizeX (by decide)
    (intRange (Q.floor (Q.qmin y1 y2)) (Q.floor (Q.qmax y1 y2))).flatMap fun y =>
      (intRange (Q.floor (Q.qmin x1 x2 - w)) (Q.floor (Q.qmax x1 x2 + w))).map fun x =>
        y * numPartitions + x
  else if Q.Eqv y1 y2 then
    let w := Q.divc lineWidth partSizeY (by decide)
    (intRange (Q.floor (Q.qmin x1 x2)) (Q.floor (Q.qmax x1 x2))).flatMap fun x =>
      (intRange (Q.floor (Q.qmin y1 y2 - w)) (Q.floor (Q.qmax y1 y2 + w))).map fun y =>
        y * numPartitions + x
  else []

/-- The lineWidth-inflated bounding box of a segment, as computed inline in
lineToLineCollision: a segment whose endpoints share an x-coordinate counts
as vertical and is inflated horizontally, otherwise it is inflated
vertically. -/
def bboxOf (s : Seg) : Pt × Pt :=
  if Q.Eqv s.p1.x s.p2.x then
    (⟨Q.qmin s.p1.x s.p2.x - lineWidth, Q.qmin s.p1.y s.p2.y⟩,
     ⟨Q.qmax s.p1.x s.p2.x + lineWidth, Q.qmax s.p1.y s.p2.y⟩)
  else
    (⟨Q.qmin s.p1.x s.p2.x, Q.qmin s.p1.y s.p2.y - lineWidth⟩,
     ⟨Q.qmax s.p1.x s.p2.x, Q.qmax s.p1.y s.p2.y + lineWidth⟩)

/-- lineToLineCollision from src/src/server/game.ts: fat-AABB overlap test
followed by the clamped collision start and end points; none models the
[null, null] result. -/
def lineToLineCollision (l1 l2 : Seg) : Option (Pt × Pt) :=
  let b1 := bboxOf l1
  let b2 := bboxOf l2
  if Q.Le b1.1.x b2.2.x ∧ Q.Le b2.1.x b1.2.x ∧
     Q.Le b1.1.y b2.2.y ∧ Q.Le b2.1.y b1.2.y then
    some
      (⟨if Q.Eqv l1.p1.x l1.p2.x then l1.p2.x
        else if Q.Lt l1.p1.x l1.p2.x then b2.1.x else b2.2.x,
        if Q.Eqv l1.p1.x l1.p2.x then
          (if Q.Lt l1.p1.y l1.p2.y then b2.1.y else b2.2.y)
        else l1.p2.y⟩,
       ⟨if Q.Eqv l1.p1.x l1.p2.x then l1.p2.x
        else if Q.Lt l1.p1.x l1.p2.x then b2.2.x else b2.1.x,
        if Q.Eqv l1.p1.x l1.p2.x then
          (if Q.Lt l1.p1.y l1.p2.y then b2.2.y else b2.1.y)
        else l1.p2.y⟩)
  else none

/-! State: Player and Game. JavaScript Maps (players, lastSentSegmentIndices)
and the array of Sets (fieldPartitions) are modelled by insertion-ordered
association lists with the exact update semantics of Map.set and Set.add. -/

/-- Player record of src/src/server/game.ts (the socket handle is identified
with the player id; colorFromHex string parsing is outside the engine, so the
colour is carried as a rational triple). -/
structure Player where
  id : String
  name : String
  color : Q × Q × Q
  score : ℕ
  direction : Direction
  pendingDirectionInputs : List DirectionInput
  segments : List Seg
  fieldPartitions : List (ℤ × List ℕ)
  dead : Bool
  lastSentSegmentIndices : List (String × ℤ)
  pendingRedraw : Bool
deriving DecidableEq

/-- Game record of src/src/server/game.ts; players keeps Map insertion
order. -/
structure Game where
  players : List Player
  playing : Bool
  prevAlive : List String
  lastTickEndTimestamp : Q
deriving DecidableEq

/-- Lookup in a watermark map (Map.get). -/
def wmGet? (m : List (String × ℤ)) (k : String) : Option ℤ :=
  (m.find? fun e => e.1 = k).map fun e => e.2

/-- Map.set: update the existing entry in place, else append. -/
def wmSet (m : List (String × ℤ)) (k : String) (v : ℤ) : List (String × ℤ) :=
  if m.any fun e => e.1 = k then
    m.map fun e => if e.1 = k then (k, v) else e
  else m ++ [(k, v)]

/-- Contents of one partition cell (empty when never touched, matching the
initially empty Sets). -/
def partGet (fp : List (ℤ × List ℕ)) (c : ℤ) : List ℕ :=
  ((fp.find? fun e => e.1 = c).map fun e => e.2).getD []

/-- Set.add on the Set stored at cell c: append the index unless already
present, keeping insertion order. -/
def partAdd (fp : List (ℤ × List ℕ)) (c : ℤ) (i : ℕ) : List (ℤ × List ℕ) :=
  if fp.any fun e => e.1 = c then
    fp.map fun e => if e.1 = c then (c, if i ∈ e.2 then e.2 else e.2 ++ [i]) else e
  else fp ++ [(c, [i])]

/-- players.get(id), as a find on the insertion-ordered list. -/
def playerById (g : Game) (id : String) : Option Player :=
  g.players.find? fun p => p.id = id

/-- The watermark reset loop shared by startRound and redraw: set the entry
of every listed id to 0. -/
def zeroAll (ids : List String) (m : List (String × ℤ)) : List (String × ℤ) :=
  ids.foldl (fun m i => wmSet m i 0) m

/-- Outbound events of the engine (socket.emit / server.emit payloads that
the claims talk about). -/
inductive Ev where
  | starting
  | roundOver
  | removeEv (id : String)
  | modifyEv (id name : String) (color : Q × Q × Q) (score : ℕ)
  | stateEv (target : String) (payload : List (String × List Seg))
deriving DecidableEq

/-! Engine operations, translated function by function from
src/src/server/game.ts. -/

/-- addSegment from src/src/server/game.ts: reject turns onto the current
axis, otherwise set the new direction and push a zero-length segment whose
start is the current head end shifted by lineWidth along the new axis and
against the old travel direction.  The source indexes segments[length - 1];
for an (unreachable) live player with no segments the model returns the
player unchanged. -/
def addSegment (p : Player) (d : Direction) : Player :=
  if p.dead then p
  else
    let lastDir := directionToVector p.direction
    if (d = .right ∧ Q.Eqv lastDir.2 (.ofInt 0)) ∨
       (d = .up ∧ Q.Eqv lastDir.1 (.ofInt 0)) ∨
       (d = .down ∧ Q.Eqv lastDir.1 (.ofInt 0)) ∨
       (d = .left ∧ Q.Eqv lastDir.2 (.ofInt 0)) then p
    else
      match p.segments.getLast? with
      | none => p
      | some lastSeg =>
        let e := lastSeg.p2
        let np : Pt :=
          match d with
          | .left => ⟨e.x - lineWidth, e.y - lastDir.2 * lineWidth⟩
          | .right => ⟨e.x + lineWidth, e.y - lastDir.2 * lineWidth⟩
          | .up => ⟨e.x - lastDir.1 * lineWidth, e.y + lineWidth⟩
          | .down => ⟨e.x - lastDir.1 * lineWidth, e.y - lineWidth⟩
        { p with direction := d, segments := p.segments ++ [⟨np, np⟩] }

/-- The findIndex predicate of processSubTick: the input timestamp lies in
the sub-tick window and the direction is neither the current direction nor
its opposite. -/
def admissible (d : Direction) (b e : Q) (inp : DirectionInput) : Bool :=
  decide (Q.Le b inp.receivedTimestamp ∧ Q.Lt inp.receivedTimestamp e ∧
    inp.direction ≠ oppositeDirection d ∧ inp.direction ≠ d)

/-- Input admission step of processSubTick: take the first admissible queued
input, perform addSegment with its direction and drop it together with every
earlier entry; otherwise leave the player untouched. -/
def admitTurn (b e : Q) (p : Player) : Player :=
  match p.pendingDirectionInputs.findIdx? (admissible p.direction b e) with
  | some i =>
    let d := (((p.pendingDirectionInputs.get? i).map fun inp => inp.direction).getD p.direction)
    { addSegment p d with
        pendingDirectionInputs := p.pendingDirectionInputs.drop (i + 1) }
  | none => p

/-- Out-of-field test of extendLastSegment. -/
def outOfField (q : Pt) : Prop :=
  Q.Lt q.x (-aspect) ∨ Q.Lt aspect q.x ∨ Q.Lt q.y (.ofInt (-1)) ∨ Q.Lt (.ofInt 1) q.y

instance (q : Pt) : Decidable (outOfField q) := by
  unfold outOfField
  infer_instance

/-- Inner collision loop over one cell's segment-index set: skip own head
and the segment just turned out of, otherwise run lineToLineCollision of the
current travel slice against the stored segment; the first hit snaps the
slice end to the collision start, marks death and stops scanning this set
(the source's break). -/
def scanIdxs (oldEnd : Pt) (slf : Bool) (headIdx : ℕ) (segs : List Seg) :
    List ℕ → Pt × Bool → Pt × Bool
  | [], st => st
  | i :: rest, st =>
    if slf ∧ (headIdx : ℤ) - (i : ℤ) < 2 then
      scanIdxs oldEnd slf headIdx segs rest st
    else
      match lineToLineCollision ⟨oldEnd, st.1⟩
          (segs.getD i ⟨⟨.ofInt 0, .ofInt 0⟩, ⟨.ofInt 0, .ofInt 0⟩⟩) with
      | some (cs, _) => (cs, true)
      | none => scanIdxs oldEnd slf headIdx segs rest st

/-- Middle collision loop of extendLastSegment over all players for one
cell; the scanning player's own partitions and segments come from the
in-progress state (the source reads its own mutated objects through
this.players). -/
def scanPlayers (ps : List Player) (p : Player) (fp : List (ℤ × List ℕ))
    (cell : ℤ) (oldEnd : Pt) (headIdx : ℕ) (st : Pt × Bool) : Pt × Bool :=
  ps.foldl
    (fun st q =>
      let slf := q.id = p.id
      scanIdxs oldEnd slf headIdx (if slf then p.segments else q.segments)
        (if slf then partGet fp cell else partGet q.fieldPartitions cell) st)
    st

/-- Outer loop of extendLastSegment over the travel slice's cells: insert
the head index into the cell, then scan the cell for collisions.  The state
carries the evolving partition table, the (possibly snapped) slice end and
the death flag. -/
def scanCells (ps : List Player) (p : Player) (oldEnd : Pt) (headIdx : ℕ) :
    List ℤ → List (ℤ × List ℕ) × Pt × Bool → List (ℤ × List ℕ) × Pt × Bool
  | [], st => st
  | cell :: rest, (fp, st) =>
    let fp' := partAdd fp cell headIdx
    scanCells ps p oldEnd headIdx rest (fp', scanPlayers ps p fp' cell oldEnd headIdx st)

/-- extendLastSegment from src/src/server/game.ts: move the head end along
the current direction; if it leaves the field mark the player dead and stop
(before any partition update); otherwise insert the head index into every
touched cell and test collisions, snapping the head to the first collision
start per cell set. -/
def extendLastSegment (ps : List Player) (dur : Q) (p : Player) : Player :=
  if p.dead then p
  else
    match p.segments.getLast? with
    | none => p
    | some lastSeg =>
      let v := directionToVector p.direction
      let sl := Q.divc (dur * moveSpeed) (.ofInt 1000) (by decide)
      let oldEnd := lastSeg.p2
      let newEnd : Pt := ⟨oldEnd.x + v.1 * sl, oldEnd.y + v.2 * sl⟩
      if outOfField newEnd then
        { p with segments := p.segments.dropLast ++ [⟨lastSeg.p1, newEnd⟩],
                 dead := true }
      else
        let headIdx := p.segments.length - 1
        let res := scanCells ps p oldEnd headIdx
          (segmentToPartitions ⟨oldEnd, newEnd⟩)
          (p.fieldPartitions, newEnd, false)
        { p with segments := p.segments.dropLast ++ [⟨lastSeg.p1, res.2.1⟩],
                 fieldPartitions := res.1,
                 dead := res.2.2 }

/-- One player step of processSubTick for a live player: input admission
followed by the extension of the head by one sub-tick of travel. -/
def subTickPlayer (ps : List Player) (b e : Q) (p : Player) : Player :=
  extendLastSegment ps subTickMs (admitTurn b e p)

/-- Player loop of processSubTick, position by position; each processed
player is written back before the next one is visited, as with the in-place
mutation of the source. -/
def subTickGo (b e : Q) : ℕ → ℕ → Game → List String → Game × List String
  | 0, _, g, alive => (g, alive)
  | n + 1, i, g, alive =>
    match g.players.get? i with
    | none => (g, alive)
    | some p =>
      if p.dead then subTickGo b e n (i + 1) g alive
      else
        let alive' := alive ++ [p.id]
        let p1 := admitTurn b e p
        let g1 : Game := { g with players := g.players.set i p1 }
        let p2 := extendLastSegment g1.players subTickMs p1
        let g2 : Game := { g1 with players := g1.players.set i p2 }
        subTickGo b e n (i + 1) g2 alive'

/-- processSubTick from src/src/server/game.ts: returns the ids of the
players that were alive when the sub-tick visited them. -/
def processSubTick (g : Game) (j : ℕ) : Game × List String :=
  let b := g.lastTickEndTimestamp + Q.ofInt (j : ℤ) * subTickMs
  subTickGo b (b + subTickMs) g.players.length 0 g []

/-- Score increment and modify_player broadcast for the round winners
(this.players.get(id)! with an absent id would throw in the source; the
model skips such ids). -/
def awardWinners : Game → List String → Game × List Ev
  | g, [] => (g, [])
  | g, id :: rest =>
    match playerById g id with
    | none => awardWinners g rest
    | some p =>
      let g1 : Game :=
        { g with players := g.players.map fun q =>
            if q.id = id then { q with score := q.score + 1 } else q }
      let r := awardWinners g1 rest
      (r.1, .modifyEv id p.name p.color (p.score + 1) :: r.2)

/-- Sub-tick loop of gameLoop: run sub-ticks in order; as soon as one
returns at most one alive id, stop the round, award the winners
(the sole alive id, else prevAlive), record prevAlive and break.  Returns
the final state, the emitted events and the winner list (empty when the
round did not end). -/
def tickLoop : ℕ → ℕ → Game → Game × List Ev × List String
  | 0, _, g => (g, [], [])
  | f + 1, j, g =>
    let r := processSubTick g j
    if r.2.length ≤ 1 then
      let winners := if r.2.length = 1 then r.2 else r.1.prevAlive
      let a := awardWinners { r.1 with playing := false } winners
      ({ a.1 with prevAlive := r.2 }, a.2, winners)
    else tickLoop f (j + 1) { r.1 with prevAlive := r.2 }

/-- Fallible winner accounting, faithful to the source's
this.players.get(id)!.score++: an absent winner id makes the lookup return
undefined and the increment throw a TypeError, aborting the tick — modelled
as none.  awardWinners above is the total skip-variant used by the
always-terminating state transition; awardWinnersE refines it with the
error path. -/
def awardWinnersE : Game → List String → Option (Game × List Ev)
  | g, [] => some (g, [])
  | g, id :: rest =>
    match playerById g id with
    | none => none
    | some p =>
      let g1 : Game :=
        { g with players := g.players.map fun q =>
            if q.id = id then { q with score := q.score + 1 } else q }
      match awardWinnersE g1 rest with
      | none => none
      | some r => some (r.1, .modifyEv id p.name p.color (p.score + 1) :: r.2)

/-- The sub-tick loop of gameLoop with the fallible winner accounting: the
round-end branch crashes (none) exactly when incrementing some winner's
score throws, which happens when a winner id is no longer present. -/
def tickLoopE : ℕ → ℕ → Game → Option (Game × List Ev × List String)
  | 0, _, g => some (g, [], [])
  | f + 1, j, g =>
    let r := processSubTick g j
    if r.2.length ≤ 1 then
      let winners := if r.2.length = 1 then r.2 else r.1.prevAlive
      match awardWinnersE { r.1 with playing := false } winners with
      | none => none
      | some a => some ({ a.1 with prevAlive := r.2 }, a.2, winners)
    else tickLoopE f (j + 1) { r.1 with prevAlive := r.2 }

/-- Clamping of Array.prototype.slice's start argument. -/
def jsStart (len : ℕ) (w : ℤ) : ℕ :=
  if w < 0 then (len + w).toNat else min w.toNat len

/-- segments.slice(lastSentSegmentIndex): a missing watermark behaves like
slice(undefined), i.e. the full list. -/
def sliceFor (segs : List Seg) (w? : Option ℤ) : List Seg :=
  match w? with
  | none => segs
  | some w => segs.drop (jsStart segs.length w)

/-- One step of the sendGameState fold over the subject players: read the
receiver's watermark for the subject, append the slice, advance the
watermark to length - 1 when strictly below. -/
def sendStep (acc : List (String × List Seg) × List (String × ℤ))
    (q : Player) : List (String × List Seg) × List (String × ℤ) :=
  let w? := wmGet? acc.2 q.id
  let m' := match w? with
    | some w =>
      if w < (q.segments.length : ℤ) - 1 then
        wmSet acc.2 q.id ((q.segments.length : ℤ) - 1)
      else acc.2
    | none => acc.2
  (acc.1 ++ [(q.id, sliceFor q.segments w?)], m')

/-- The watermark advance rule of sendGameState for one subject player, as
a function of the stored watermark. -/
def advanceWm (q : Player) : Option ℤ → Option ℤ
  | some w => some (if w < (q.segments.length : ℤ) - 1
                    then (q.segments.length : ℤ) - 1 else w)
  | none => none

/-- sendGameState from src/src/server/game.ts for one receiving player:
build the per-player missingSegments slices, advancing the receiver's
watermark to length - 1 whenever it is strictly below, and emit a single
game_state event (a missing watermark is read as undefined: full slice, no
advance). -/
def sendGameState (ps : List Player) (r : Player) : Player × Ev :=
  let acc := ps.foldl
    (fun (acc : List (String × List Seg) × List (String × ℤ)) q =>
      let w? := wmGet? acc.2 q.id
      let m' := match w? with
        | some w =>
          if w < (q.segments.length : ℤ) - 1 then
            wmSet acc.2 q.id ((q.segments.length : ℤ) - 1)
          else acc.2
        | none => acc.2
      (acc.1 ++ [(q.id, sliceFor q.segments w?)], m'))
    ([], r.lastSentSegmentIndices)
  ({ r with lastSentSegmentIndices := acc.2 }, .stateEv r.id acc.1)

/-- Send loop at the end of a playing tick: clear pendingRedraw and send the
state to every player in order. -/
def sendGo : ℕ → ℕ → Game → List Ev → Game × List Ev
  | 0, _, g, evs => (g, evs)
  | n + 1, i, g, evs =>
    match g.players.get? i with
    | none => (g, evs)
    | some p =>
      let p0 := { p with pendingRedraw := false }
      let g0 : Game := { g with players := g.players.set i p0 }
      let r := sendGameState g0.players p0
      sendGo n (i + 1) { g0 with players := g0.players.set i r.1 } (evs ++ [r.2])

/-- Idle-tick loop of gameLoop: flush pending redraws only. -/
def idleGo : ℕ → ℕ → Game → List Ev → Game × List Ev
  | 0, _, g, evs => (g, evs)
  | n + 1, i, g, evs =>
    match g.players.get? i with
    | none => (g, evs)
    | some p =>
      if p.pendingRedraw then
        let p0 := { p with pendingRedraw := false }
        let g0 : Game := { g with players := g.players.set i p0 }
        let r := sendGameState g0.players p0
        idleGo n (i + 1) { g0 with players := g0.players.set i r.1 } (evs ++ [r.2])
      else idleGo n (i + 1) g evs

/-- gameLoop from src/src/server/game.ts, with the Date.now() read at the
end of a playing tick supplied as the now argument.  The idle branch returns
early and does not touch lastTickEndTimestamp, as in the source. -/
def gameLoop (g : Game) (now : Q) : Game × List Ev :=
  if g.playing = false then
    idleGo g.players.length 0 g []
  else
    let t := tickLoop subTickRateN 0 g
    let s := sendGo t.1.players.length 0 t.1 []
    ({ s.1 with lastTickEndTimestamp := now }, t.2.1 ++ s.2)

/-- startRound from src/src/server/game.ts, with the random spawn point and
direction of each player supplied by the oracle spawn.  Requires an idle
game with at least two players; respawns every player with a fresh
one-cell partition table and a degenerate seed segment, zeroes every
watermark, emits starting, records prevAlive and starts playing. -/
def startRound (g : Game) (spawn : String → Pt × Direction) : Game × List Ev :=
  if g.playing = true ∨ g.players.length < 2 then (g, [])
  else
    let ids := g.players.map fun p => p.id
    let players' := g.players.map fun p =>
      let pd := spawn p.id
      { p with
          segments := [⟨pd.1, pd.1⟩],
          fieldPartitions := partAdd [] (pointToPartition pd.1) 0,
          pendingDirectionInputs := [],
          direction := pd.2,
          dead := false,
          lastSentSegmentIndices := zeroAll ids p.lastSentSegmentIndices }
    ({ g with players := players', prevAlive := ids, playing := true },
     [.starting])

/-- redraw from src/src/server/game.ts: reset every watermark of the client
for every currently present player to 0 and mark pendingRedraw. -/
def redraw (g : Game) (id : String) : Game :=
  if (playerById g id).isNone then g
  else
    { g with players := g.players.map fun p =>
        if p.id = id then
          { p with
              lastSentSegmentIndices :=
                zeroAll (g.players.map fun q => q.id) p.lastSentSegmentIndices,
              pendingRedraw := true }
        else p }

/-- The per-player update applied by redraw for client id, with the id list
of the present players captured. -/
def redrawF (ids : List String) (id : String) (p : Player) : Player :=
  if p.id = id then
    { p with lastSentSegmentIndices := zeroAll ids p.lastSentSegmentIndices,
             pendingRedraw := true }
  else p

/-- Join handshake of addPlayer: for every player, emit modify_player and a
full-segment game_state to the joining socket, and set the joiner's
watermark for that player to length - 1. -/
def handshake (g : Game) (id : String) : Game × List Ev :=
  let acc := g.players.foldl
    (fun (acc : List Ev × List (String × ℤ)) q =>
      (acc.1 ++ [.modifyEv q.id q.name q.color q.score,
                 .stateEv id [(q.id, q.segments)]],
       wmSet acc.2 q.id ((q.segments.length : ℤ) - 1)))
    ([], (((playerById g id).map fun p => p.lastSentSegmentIndices).getD []))
  ({ g with players := g.players.map fun p =>
      if p.id = id then { p with lastSentSegmentIndices := acc.2 } else p },
   acc.1)

/-- addPlayer from src/src/server/game.ts: create a fresh (dead, empty)
player and announce it, or on a repeated join rebind the socket and reset
the client through redraw; in both cases run the handshake. -/
def addPlayer (g : Game) (id name : String) (color : Q × Q × Q) : Game × List Ev :=
  if (playerById g id).isNone then
    let newP : Player :=
      { id := id, name := name, color := color, score := 0,
        direction := .up, pendingDirectionInputs := [], segments := [],
        fieldPartitions := [], dead := true,
        lastSentSegmentIndices := [], pendingRedraw := false }
    let g1 : Game := { g with players := g.players ++ [newP] }
    let h := handshake g1 id
    (h.1, .modifyEv id name color 0 :: h.2)
  else
    handshake (redraw g id) id

/-- removePlayer from src/src/server/game.ts: delete the player and
broadcast remove. -/
def removePlayer (g : Game) (id : String) : Game × List Ev :=
  if (playerById g id).isNone then (g, [])
  else
    ({ g with players := g.players.filter fun p => ¬p.id = id },
     [.removeEv id])

/-- processInput from src/src/server/game.ts: ignore inputs for unknown or
dead players or outside a round, otherwise enqueue the direction with the
server receive time. -/
def processInput (g : Game) (id : String) (d : Direction) (now : Q) : Game :=
  match playerById g id with
  | none => g
  | some p =>
    if g.playing = false then g
    else if p.dead then g
    else
      { g with players := g.players.map fun q =>
          if q.id = id then
            { q with pendingDirectionInputs :=
                q.pendingDirectionInputs ++ [⟨d, now⟩] }
          else q }

/-! Operations available to the environment: one tick of the scheduler and
the inbound events of the client port, with wall-clock reads and random
draws as oracle arguments. -/

/-- Environment operations on the engine. -/
inductive Op where
  | tick (now : Q)
  | input (id : String) (d : Direction) (now : Q)
  | redrawReq (id : String)
  | start (spawn : String → Pt × Direction)
  | join (id name : String) (color : Q × Q × Q)
  | leave (id : String)

/-- Apply one operation, returning the new state and the emitted events. -/
def applyOp (g : Game) : Op → Game × List Ev
  | .tick now => gameLoop g now
  | .input id d now => (processInput g id d now, [])
  | .redrawReq id => (redraw g id, [])
  | .start spawn => startRound g spawn
  | .join id name color => addPlayer g id name color
  | .leave id => removePlayer g id

/-- Range constraint of the Math.random spawn draw in startRound. -/
def spawnOK (pd : Pt × Direction) : Prop :=
  Q.Le (-aspect + minSpawnDistanceFromEdge) pd.1.x ∧
  Q.Lt pd.1.x (aspect - minSpawnDistanceFromEdge) ∧
  Q.Le (Q.ofInt (-1) + minSpawnDistanceFromEdge) pd.1.y ∧
  Q.Lt pd.1.y (Q.ofInt 1 - minSpawnDistanceFromEdge)

/-- Environment validity of an operation: server-side clock reads never lie
before the last recorded tick end, and spawns respect the random ranges. -/
def OpValid (g : Game) : Op → Prop
  | .tick now => Q.Le g.lastTickEndTimestamp now
  | .input _ _ now => Q.Le g.lastTickEndTimestamp now
  | .start spawn => ∀ id, spawnOK (spawn id)
  | _ => True

/-- One environment step. -/
def Step (g g' : Game) : Prop :=
  ∃ op, OpValid g op ∧ g' = (applyOp g op).1

/-- The freshly constructed engine: no players, idle, clock at 0. -/
def initGame : Game :=
  { players := [], playing := false, prevAlive := [],
    lastTickEndTimestamp := .ofInt 0 }

/-- Reachability of an engine state from the freshly constructed engine. -/
def Reachable (g : Game) : Prop :=
  Relation.ReflTransGen Step initGame g

/-! Session layer of src/src/server/server.ts, as far as the disconnect
handling goes. -/

/-- Session record of the SessionManager. -/
structure Session where
  sessionID : String
  userID : String
  username : String
  color : Q × Q × Q
  pendingDeletion : Bool
deriving DecidableEq

/-- markForDeletion of the SessionManager. -/
def markForDeletion (ss : List Session) (sid : String) : List Session :=
  ss.map fun s => if s.sessionID = sid then { s with pendingDeletion := true } else s

/-- heartbeat handler: clear the pendingDeletion flag of the session. -/
def heartbeatClear (ss : List Session) (sid : String) : List Session :=
  ss.map fun s => if s.sessionID = sid then { s with pendingDeletion := false } else s

/-- The scheduled deletion callback firing after SESSION_TIMEOUT: delete
the session only if pendingDeletion is still set. -/
def sessionTimeoutFire (ss : List Session) (sid : String) : List Session :=
  match ss.find? fun s => s.sessionID = sid with
  | none => ss
  | some s =>
    if s.pendingDeletion then ss.filter fun s' => ¬s'.sessionID = sid else ss

/-- The socket disconnect handler of src/src/server/server.ts: mark the
session for deletion, schedule the session deletion (a later
sessionTimeoutFire), and call game.removePlayer for the session's user id
immediately. -/
def onDisconnect (g : Game) (ss : List Session) (sid : String) :
    (Game × List Session) × List Ev :=
  match ss.find? fun s => s.sessionID = sid with
  | none => ((g, ss), [])
  | some s =>
    let r := removePlayer g s.userID
    ((r.1, markForDeletion ss sid), r.2)

/-! Predicates used to state the geometric claims.  Coordinate equalities
are value equalities of the exact rationals (Q.Eqv). -/

/-- A segment is axis-aligned when its endpoints share a coordinate. -/
def axisAligned (s : Seg) : Prop :=
  Q.Eqv s.p1.x s.p2.x ∨ Q.Eqv s.p1.y s.p2.y

/-- Strictly vertical segment. -/
def segVert (s : Seg) : Prop :=
  Q.Eqv s.p1.x s.p2.x ∧ ¬Q.Eqv s.p1.y s.p2.y

/-- Strictly horizontal segment. -/
def segHoriz (s : Seg) : Prop :=
  Q.Eqv s.p1.y s.p2.y ∧ ¬Q.Eqv s.p1.x s.p2.x

/-- Whether a direction moves along the vertical axis. -/
def dirVert : Direction → Bool
  | .up => true
  | .down => true
  | .right => false
  | .left => false

/-- A segment compatible with travel in direction d: travel along the
vertical axis keeps the x coordinates equal, and conversely. -/
def alignedDir (d : Direction) (s : Seg) : Prop :=
  if dirVert d then Q.Eqv s.p1.x s.p2.x else Q.Eqv s.p1.y s.p2.y

/-- Consecutive segments share an endpoint (invariant I2 as claimed). -/
def pairShared (a b : Seg) : Prop := Q.Eqv a.p2.x b.p1.x ∧ Q.Eqv a.p2.y b.p1.y

/-- Consecutive segments as the code actually produces them: the start of
the later segment is the end of the earlier one shifted by exactly
lineWidth in each coordinate (the corner nub of addSegment). -/
def pairNub (a b : Seg) : Prop :=
  (Q.Eqv (b.p1.x - a.p2.x) lineWidth ∨ Q.Eqv (b.p1.x - a.p2.x) (-lineWidth)) ∧
  (Q.Eqv (b.p1.y - a.p2.y) lineWidth ∨ Q.Eqv (b.p1.y - a.p2.y) (-lineWidth))

/-- Consecutive segments do not lie on one axis when both are axis-aligned
and non-degenerate. -/
def pairPerp (a b : Seg) : Prop :=
  ¬(segVert a ∧ segVert b) ∧ ¬(segHoriz a ∧ segHoriz b)

/-- The last segment, when present, is compatible with the current travel
direction. -/
def headA (d : Direction) (segs : List Seg) : Prop :=
  ∀ s, segs.getLast? = some s → alignedDir d s

/-- The segment before the head, when present, is not aligned with the
current travel axis (it is the segment just turned out of). -/
def penultPerp (d : Direction) (segs : List Seg) : Prop :=
  ∀ a, segs.dropLast.getLast? = some a →
    (if dirVert d then ¬segVert a else ¬segHoriz a)

/-- Geometric invariant of one player, depending only on the death flag,
the direction and the segment list. -/
def PlayerInvP (dead : Bool) (d : Direction) (segs : List Seg) : Prop :=
  (dead = false → segs ≠ []) ∧
  (dead = false → headA d segs) ∧
  (∀ s ∈ segs.dropLast, axisAligned s) ∧
  (dead = false → ∀ s ∈ segs, axisAligned s) ∧
  List.Chain' pairNub segs ∧
  List.Chain' pairPerp segs.dropLast ∧
  (dead = false → List.Chain' pairPerp segs) ∧
  (dead = false → penultPerp d segs)

/-- Geometric invariant of an engine state. -/
def Inv (g : Game) : Prop :=
  ∀ p ∈ g.players, PlayerInvP p.dead p.direction p.segments

/-- Per-player evolution relation through the sub-tick and send phases of a
tick: identity, name, colour and score are untouched, the input queue only
loses a prefix, at most one segment is added, and dead players' segments
are frozen. -/
def EvolveTick (p p' : Player) : Prop :=
  p'.id = p.id ∧ p'.name = p.name ∧ p'.color = p.color ∧ p'.score = p.score ∧
  (∃ n, p'.pendingDirectionInputs = p.pendingDirectionInputs.drop n) ∧
  p'.segments.length ≤ p.segments.length + 1 ∧
  (p.dead = true → p'.dead = true ∧ p'.segments = p.segments)

/-- Winner list a playing tick would award (empty when the round does not
end during the tick). -/
def tickWinners (g : Game) : List String :=
  if g.playing = true then (tickLoop subTickRateN 0 g).2.2 else []

/-- Per-player evolution with a segment budget: identity preserved, the
input queue only ever loses a prefix, and at most k segments are added. -/
def EvolveN (k : ℕ) (p p' : Player) : Prop :=
  p'.id = p.id ∧
  (∃ n, p'.pendingDirectionInputs = p.pendingDirectionInputs.drop n) ∧
  p'.segments.length ≤ p.segments.length + k

/-- Whether an operation is a scheduler tick. -/
def isTickOp : Op → Bool
  | .tick _ => true
  | _ => false

/-! Concrete runs used by the counterexamples and witnesses.  Every state is
built from initGame by applyOp steps, so it is reachable. -/

/-- Shorthand for a join step with the name equal to the id and a black
colour. -/
def jn (g : Game) (id : String) : Game :=
  (applyOp g (.join id id (.ofInt 0, .ofInt 0, .ofInt 0))).1

/-- Spawn oracle of the chain-shape run: A at (0, 0.05) heading right, B far
away heading up. -/
def c3spawn : String → Pt × Direction := fun s =>
  if s = "A" then (⟨⟨0, 1, by decide⟩, ⟨1, 20, by decide⟩⟩, .right)
  else (⟨⟨-1, 1, by decide⟩, ⟨-1, 2, by decide⟩⟩, .up)

/-- Chain-shape run, after both joins. -/
def c3g1 : Game := jn (jn initGame "A") "B"

/-- Chain-shape run, round started. -/
def c3g2 : Game := (applyOp c3g1 (.start c3spawn)).1

/-- Chain-shape run, A queues an up turn at t = 1. -/
def c3g3 : Game := (applyOp c3g2 (.input "A" .up (.ofInt 1))).1

/-- Chain-shape run, after the first tick: A has turned, and the new head
starts at the old head end shifted by the corner nub. -/
def c3g4 : Game := (applyOp c3g3 (.tick (.ofInt 50))).1

/-- Spawn oracle of the double-snap run: B heads up towards the row of A so
that its fat trail edge lands exactly on A's sub-tick slice start, C heads
left just beyond the degenerate slice's fat box. -/
def c5spawn : String → Pt × Direction := fun s =>
  if s = "B" then (⟨⟨7, 2000, by decide⟩, ⟨46, 1000, by decide⟩⟩, .up)
  else if s = "A" then (⟨⟨0, 1, by decide⟩, ⟨50, 1000, by decide⟩⟩, .right)
  else (⟨⟨10, 2000, by decide⟩, ⟨50, 1000, by decide⟩⟩, .left)

/-- Double-snap run, after the joins of B, A and C (in this order). -/
def c5g1 : Game := jn (jn (jn initGame "B") "A") "C"

/-- Double-snap run, round started. -/
def c5g2 : Game := (applyOp c5g1 (.start c5spawn)).1

/-- Double-snap run, after the first tick: A died from a snap onto B's
trail that made its slice degenerate, followed by a second snap onto C's
trail in the perpendicular orientation, leaving A's only segment
non-axis-aligned. -/
def c5g3 : Game := (applyOp c5g2 (.tick (.ofInt 50))).1

/-- Spawn oracle of the last-sub-tick death run: A heads right into the
fat edge of B's vertical trail, timed to die during sub-tick index 9. -/
def c2spawn : String → Pt × Direction := fun s =>
  if s = "A" then (⟨⟨0, 1, by decide⟩, ⟨1, 20, by decide⟩⟩, .right)
  else (⟨⟨17, 1000, by decide⟩, ⟨1, 20, by decide⟩⟩, .up)

/-- Last-sub-tick death run, round started. -/
def c2g1 : Game := (applyOp (jn (jn initGame "A") "B") (.start c2spawn)).1

/-- Last-sub-tick death run, first tick (A dies during sub-tick 9, the last
of the tick; the loop never observes an alive count of at most one). -/
def c2t1 : Game × List Ev := applyOp c2g1 (.tick (.ofInt 50))

/-- Last-sub-tick death run, second tick (sub-tick 0 starts with only B
alive, so the round ends now). -/
def c2t2 : Game × List Ev := applyOp c2t1.1 (.tick (.ofInt 100))

/-- The crash state of the winner accounting: after the tick in which A
died (c2t1), the surviving winner B leaves; the next tick's round-end pass
finds nobody alive, takes prevAlive = [A, B] as winners, and the source
crashes on this.players.get("B")!.score++. -/
def c2crash : Game := (applyOp c2t1.1 (.leave "B")).1

/-- Spawn oracle of the stale-queue run. -/
def c8spawn : String → Pt × Direction := fun s =>
  if s = "A" then (⟨⟨0, 1, by decide⟩, ⟨1, 20, by decide⟩⟩, .right)
  else (⟨⟨-1, 1, by decide⟩, ⟨-1, 2, by decide⟩⟩, .up)

/-- Stale-queue run, round started. -/
def c8g1 : Game := (applyOp (jn (jn initGame "A") "B") (.start c8spawn)).1

/-- Stale-queue run: eleven same-direction inputs queued at t = 1. -/
def c8g2 : Game :=
  (List.range 11).foldl (fun g _ => (applyOp g (.input "A" .right (.ofInt 1))).1) c8g1

/-- Stale-queue run, after two ticks: every queued input is timestamped
before the second tick's start and none was consumed or dropped. -/
def c8g3 : Game :=
  (applyOp (applyOp c8g2 (.tick (.ofInt 50))).1 (.tick (.ofInt 100))).1

/-- Spawn oracle of the watermark run, first round. -/
def c4spawnA : String → Pt × Direction := fun s =>
  if s = "A" then (⟨⟨0, 1, by decide⟩, ⟨1, 20, by decide⟩⟩, .right)
  else (⟨⟨9, 1000, by decide⟩, ⟨1, 20, by decide⟩⟩, .left)

/-- Spawn oracle of the watermark run, second round. -/
def c4spawnB : String → Pt × Direction := fun s =>
  if s = "A" then (⟨⟨-1, 2, by decide⟩, ⟨-1, 2, by decide⟩⟩, .up)
  else (⟨⟨1, 2, by decide⟩, ⟨1, 2, by decide⟩⟩, .up)

/-- Watermark run: first round started and B queues a turn. -/
def c4g1 : Game :=
  (applyOp ((applyOp (jn (jn initGame "A") "B") (.start c4spawnA)).1)
    (.input "B" .up (.ofInt 1))).1

/-- Watermark run after the first tick: B turned (two segments), A died on
B's trail, the round ended, and A's watermark for B advanced to 1. -/
def c4g2 : Game := (applyOp c4g1 (.tick (.ofInt 50))).1

/-- Watermark run: a second round is started (no redraw occurs), which
resets every watermark to 0. -/
def c4g3 : Game := (applyOp c4g2 (.start c4spawnB)).1

/-- Watermark run after the next tick: A's watermark for B is 0, strictly
below its value 1 at the previous tick. -/
def c4g4 : Game := (applyOp c4g3 (.tick (.ofInt 150))).1

/-- Spawn oracle of the boundary-death run: A spawns 0.1001 inside the
right edge and heads right. -/
def c6spawn : String → Pt × Direction := fun s =>
  if s = "A" then (⟨⟨13999, 10000, by decide⟩, ⟨1, 20, by decide⟩⟩, .right)
  else (⟨⟨-1, 1, by decide⟩, ⟨-1, 2, by decide⟩⟩, .up)

/-- Boundary-death run, round started. -/
def c6g1 : Game := (applyOp (jn (jn initGame "A") "B") (.start c6spawn)).1

/-- Boundary-death run after seven ticks: A's 67th sub-tick extension moved
the head from (1.4989, 0.05) to (1.5004, 0.05), which leaves the field; the
function returned before the index update, so cell 60 of the travel slice
never received the head index. -/
def c6g2 : Game :=
  (List.range 7).foldl
    (fun g k => (applyOp g (.tick (.ofInt (50 * ((k : ℤ) + 1))))).1) c6g1

/-- Game of the disconnect run: two players joined via the client port. -/
def c7game : Game := jn (jn initGame "u1") "u2"

/-- Session store of the disconnect run: P1's live session. -/
def c7sessions : List Session :=
  [{ sessionID := "s1", userID := "u1", username := "P1",
     color := (.ofInt 0, .ofInt 0, .ofInt 0), pendingDeletion := false }]

/-- A degenerate segment at the origin, used by witness states. -/
def wSeg : Seg := ⟨⟨.ofInt 0, .ofInt 0⟩, ⟨.ofInt 0, .ofInt 0⟩⟩

/-- Witness player: alive, heading right with a seed segment, one queued
up-turn received at t = 1. -/
def wPlayer : Player :=
  { id := "W", name := "W", color := (.ofInt 0, .ofInt 0, .ofInt 0),
    score := 0, direction := .right,
    pendingDirectionInputs := [⟨.up, .ofInt 1⟩], segments := [wSeg],
    fieldPartitions := [], dead := false,
    lastSentSegmentIndices := [], pendingRedraw := false }

/-- Witness player for the send/queue statements: alive, two segments, a
stored watermark 0 for itself. -/
def wPlayer2 : Player :=
  { id := "V", name := "V", color := (.ofInt 0, .ofInt 0, .ofInt 0),
    score := 0, direction := .up,
    pendingDirectionInputs := [], segments := [wSeg, wSeg],
    fieldPartitions := [], dead := false,
    lastSentSegmentIndices := [("V", 0)], pendingRedraw := false }

/-- Witness game: a playing round with the two witness players and one
id recorded in prevAlive. -/
def wGame : Game :=
  { players := [wPlayer, wPlayer2], playing := true,
    prevAlive := ["W"], lastTickEndTimestamp := .ofInt 0 }

/-- Witness game with a single live player: the first sub-tick of a tick
finds at most one player alive and ends the round. -/
def wGame1 : Game :=
  { players := [wPlayer], playing := true, prevAlive := ["W"],
    lastTickEndTimestamp := .ofInt 0 }

/-- Kernel-transparent decidability of List.Chain, by structural recursion
(the library instance goes through propositional rewriting and does not
reduce). -/
def decChain {α : Type} (R : α → α → Prop) (dr : ∀ a b, Decidable (R a b)) :
    ∀ (a : α) (l : List α), Decidable (List.Chain R a l)
  | _, [] => isTrue List.Chain.nil
  | a, b :: l =>
    match dr a b, decChain R dr b l with
    | isTrue h1, isTrue h2 => isTrue (List.Chain.cons h1 h2)
    | isFalse h1, _ => isFalse fun hc => by cases hc; exact h1 (by assumption)
    | _, isFalse h2 => isFalse fun hc => by cases hc; exact h2 (by assumption)

instance decChain' {α : Type} (R : α → α → Prop) [dr : DecidableRel R] :
    ∀ (l : List α), Decidable (List.Chain' R l)
  | [] => isTrue trivial
  | a :: l => decChain R (fun a b => dr a b) a l

instance (a b : Seg) : Decidable (pairShared a b) := by
  unfold pairShared
  infer_instance

instance (a b : Seg) : Decidable (pairNub a b) := by
  unfold pairNub
  infer_instance

instance (s : Seg) : Decidable (segVert s) := by
  unfold segVert
  infer_instance

instance (s : Seg) : Decidable (segHoriz s) := by
  unfold segHoriz
  infer_instance

instance (s : Seg) : Decidable (axisAligned s) := by
  unfold axisAligned
  infer_instance

instance (a b : Seg) : Decidable (pairPerp a b) := by
  unfold pairPerp
  infer_instance

instance (d : Direction) (s : Seg) : Decidable (alignedDir d s) := by
  unfold alignedDir
  infer_instance

instance (d : Direction) (segs : List Seg) : Decidable (headA d segs) :=
  match h : segs.getLast? with
  | none => isTrue fun s hs => absurd (h ▸ hs) (by simp)
  | some s =>
    match inferInstanceAs (Decidable (alignedDir d s)) with
    | isTrue ha => isTrue fun s' hs' => by
        rw [h] at hs'
        cases hs'
        exact ha
    | isFalse ha => isFalse fun hc => ha (hc s h)

instance (d : Direction) (segs : List Seg) : Decidable (penultPerp d segs) :=
  match h : segs.dropLast.getLast? with
  | none => isTrue fun a ha => absurd (h ▸ ha) (by simp)
  | some a =>
    match inferInstanceAs (Decidable (if dirVert d then ¬segVert a else ¬segHoriz a)) with
    | isTrue hp => isTrue fun a' ha' => by
        rw [h] at ha'
        cases ha'
        exact hp
    | isFalse hp => isFalse fun hc => hp (hc a h)

instance (q : Pt × Direction) : Decidable (spawnOK q) := by
  unfold spawnOK
  infer_instance

/-! Reachability of the concrete runs. -/

/-- Any join is a valid environment step. -/
theorem stepJoin (g : Game) (id name : String) (c : Q × Q × Q) :
    Step g (applyOp g (.join id name c)).1 :=
  ⟨.join id name c, trivial, rfl⟩

/-- A tick whose clock read is not in the past is a valid step. -/
theorem stepTick (g : Game) (now : Q) (h : Q.Le g.lastTickEndTimestamp now) :
    Step g (applyOp g (.tick now)).1 :=
  ⟨.tick now, h, rfl⟩

/-- An input whose receive time is not in the past is a valid step. -/
theorem stepInput (g : Game) (id : String) (d : Direction) (now : Q)
    (h : Q.Le g.lastTickEndTimestamp now) :
    Step g (applyOp g (.input id d now)).1 :=
  ⟨.input id d now, h, rfl⟩

/-- A round start whose spawn oracle respects the random ranges is a valid
step. -/
theorem stepStart (g : Game) (spawn : String → Pt × Direction)
    (h : ∀ id, spawnOK (spawn id)) :
    Step g (applyOp g (.start spawn)).1 :=
  ⟨.start spawn, h, rfl⟩

theorem c3spawn_ok : ∀ id, spawnOK (c3spawn id) := by
  intro s
  unfold c3spawn
  split
  · exact of_decide_eq_true (by rfl)
  · exact of_decide_eq_true (by rfl)

theorem c3g4_reachable : Reachable c3g4 :=
  Relation.ReflTransGen.tail (Relation.ReflTransGen.tail
    (Relation.ReflTransGen.tail (Relation.ReflTransGen.tail
      (Relation.ReflTransGen.single (stepJoin initGame "A" "A" _))
      (stepJoin (jn initGame "A") "B" "B" _))
      (stepStart c3g1 c3spawn c3spawn_ok))
      (stepInput c3g2 "A" .up (.ofInt 1) (of_decide_eq_true (by rfl))))
      (stepTick c3g3 (.ofInt 50) (of_decide_eq_true (by rfl)))

theorem c5spawn_ok : ∀ id, spawnOK (c5spawn id) := by
  intro s
  unfold c5spawn
  split
  · exact of_decide_eq_true (by rfl)
  split
  · exact of_decide_eq_true (by rfl)
  · exact of_decide_eq_true (by rfl)

theorem c5g3_reachable : Reachable c5g3 :=
  Relation.ReflTransGen.tail (Relation.ReflTransGen.tail
    (Relation.ReflTransGen.tail (Relation.ReflTransGen.tail
      (Relation.ReflTransGen.single (stepJoin initGame "B" "B" _))
      (stepJoin (jn initGame "B") "A" "A" _))
      (stepJoin (jn (jn initGame "B") "A") "C" "C" _))
      (stepStart c5g1 c5spawn c5spawn_ok))
      (stepTick c5g2 (.ofInt 50) (of_decide_eq_true (by rfl)))

theorem c2spawn_ok : ∀ id, spawnOK (c2spawn id) := by
  intro s
  unfold c2spawn
  split
  · exact of_decide_eq_true (by rfl)
  · exact of_decide_eq_true (by rfl)

theorem c2t1_reachable : Reachable c2t1.1 :=
  Relation.ReflTransGen.tail (Relation.ReflTransGen.tail
    (Relation.ReflTransGen.tail (Relation.ReflTransGen.single
      (stepJoin initGame "A" "A" _))
      (stepJoin (jn initGame "A") "B" "B" _))
      (stepStart (jn (jn initGame "A") "B") c2spawn c2spawn_ok))
      (stepTick c2g1 (.ofInt 50) (of_decide_eq_true (by rfl)))

theorem c2t2_reachable : Reachable c2t2.1 :=
  Relation.ReflTransGen.tail c2t1_reachable
    (stepTick c2t1.1 (.ofInt 100) (of_decide_eq_true (by rfl)))

/-- A leave is always a valid step. -/
theorem stepLeave (g : Game) (id : String) :
    Step g (applyOp g (.leave id)).1 :=
  ⟨.leave id, trivial, rfl⟩

theorem c2crash_reachable : Reachable c2crash :=
  Relation.ReflTransGen.tail c2t1_reachable (stepLeave c2t1.1 "B")

theorem c8spawn_ok : ∀ id, spawnOK (c8spawn id) := by
  intro s
  unfold c8spawn
  split
  · exact of_decide_eq_true (by rfl)
  · exact of_decide_eq_true (by rfl)

theorem c8g2_reachable : Reachable c8g2 := by
  have h1 : Reachable c8g1 :=
    Relation.ReflTransGen.tail (Relation.ReflTransGen.tail
      (Relation.ReflTransGen.single (stepJoin initGame "A" "A" _))
      (stepJoin (jn initGame "A") "B" "B" _))
      (stepStart (jn (jn initGame "A") "B") c8spawn c8spawn_ok)
  have step11 : ∀ g : Game, Q.Le g.lastTickEndTimestamp (.ofInt 1) →
      Step g (applyOp g (.input "A" .right (.ofInt 1))).1 :=
    fun g h => stepInput g "A" .right (.ofInt 1) h
  refine Relation.ReflTransGen.tail (Relation.ReflTransGen.tail
    (Relation.ReflTransGen.tail (Relation.ReflTransGen.tail
      (Relation.ReflTransGen.tail (Relation.ReflTransGen.tail
        (Relation.ReflTransGen.tail (Relation.ReflTransGen.tail
          (Relation.ReflTransGen.tail (Relation.ReflTransGen.tail
            (Relation.ReflTransGen.tail h1
              (step11 _ (of_decide_eq_true (by rfl))))
            (step11 _ (of_decide_eq_true (by rfl))))
          (step11 _ (of_decide_eq_true (by rfl))))
        (step11 _ (of_decide_eq_true (by rfl))))
      (step11 _ (of_decide_eq_true (by rfl))))
    (step11 _ (of_decide_eq_true (by rfl))))
    (step11 _ (of_decide_eq_true (by rfl))))
    (step11 _ (of_decide_eq_true (by rfl))))
    (step11 _ (of_decide_eq_true (by rfl))))
    (step11 _ (of_decide_eq_true (by rfl))))
    (step11 _ (of_decide_eq_true (by rfl)))

theorem c8g3_reachable : Reachable c8g3 :=
  Relation.ReflTransGen.tail (Relation.ReflTransGen.tail c8g2_reachable
    (stepTick c8g2 (.ofInt 50) (of_decide_eq_true (by rfl))))
    (stepTick (applyOp c8g2 (.tick (.ofInt 50))).1 (.ofInt 100)
      (of_decide_eq_true (by rfl)))

theorem c4spawnA_ok : ∀ id, spawnOK (c4spawnA id) := by
  intro s
  unfold c4spawnA
  split
  · exact of_decide_eq_true (by rfl)
  · exact of_decide_eq_true (by rfl)

theorem c4spawnB_ok : ∀ id, spawnOK (c4spawnB id) := by
  intro s
  unfold c4spawnB
  split
  · exact of_decide_eq_true (by rfl)
  · exact of_decide_eq_true (by rfl)

theorem c4g2_reachable : Reachable c4g2 :=
  Relation.ReflTransGen.tail (Relation.ReflTransGen.tail
    (Relation.ReflTransGen.tail (Relation.ReflTransGen.tail
      (Relation.ReflTransGen.single (stepJoin initGame "A" "A" _))
      (stepJoin (jn initGame "A") "B" "B" _))
      (stepStart (jn (jn initGame "A") "B") c4spawnA c4spawnA_ok))
      (stepInput _ "B" .up (.ofInt 1) (of_decide_eq_true (by rfl))))
      (stepTick c4g1 (.ofInt 50) (of_decide_eq_true (by rfl)))

theorem c4g4_reachable : Reachable c4g4 :=
  Relation.ReflTransGen.tail (Relation.ReflTransGen.tail c4g2_reachable
    (stepStart c4g2 c4spawnB c4spawnB_ok))
    (stepTick c4g3 (.ofInt 150) (of_decide_eq_true (by rfl)))

theorem c6spawn_ok : ∀ id, spawnOK (c6spawn id) := by
  intro s
  unfold c6spawn
  split
  · exact of_decide_eq_true (by rfl)
  · exact of_decide_eq_true (by rfl)

theorem c6g2_reachable : Reachable c6g2 := by
  have h1 : Reachable c6g1 :=
    Relation.ReflTransGen.tail (Relation.ReflTransGen.tail
      (Relation.ReflTransGen.single (stepJoin initGame "A" "A" _))
      (stepJoin (jn initGame "A") "B" "B" _))
      (stepStart (jn (jn initGame "A") "B") c6spawn c6spawn_ok)
  refine Relation.ReflTransGen.tail (Relation.ReflTransGen.tail
    (Relation.ReflTransGen.tail (Relation.ReflTransGen.tail
      (Relation.ReflTransGen.tail (Relation.ReflTransGen.tail
        (Relation.ReflTransGen.tail h1
          (stepTick _ (.ofInt 50) (of_decide_eq_true (by rfl))))
        (stepTick _ (.ofInt 100) (of_decide_eq_true (by rfl))))
      (stepTick _ (.ofInt 150) (of_decide_eq_true (by rfl))))
    (stepTick _ (.ofInt 200) (of_decide_eq_true (by rfl))))
    (stepTick _ (.ofInt 250) (of_decide_eq_true (by rfl))))
    (stepTick _ (.ofInt 300) (of_decide_eq_true (by rfl))))
    (stepTick _ (.ofInt 350) (of_decide_eq_true (by rfl)))

theorem c7game_reachable : Reachable c7game :=
  Relation.ReflTransGen.tail (Relation.ReflTransGen.single
    (stepJoin initGame "u1" "u1" _))
    (stepJoin (jn initGame "u1") "u2" "u2" _)

/-! General behaviour lemmas for the per-player operations. -/

/-- findIdx? returns the index of the first entry satisfying the
predicate. -/
theorem findIdx?_first {α : Type} (p : α → Bool) :
    ∀ (l : List α) (i : ℕ) (x : α),
      l.get? i = some x → p x = true →
      (∀ j y, j < i → l.get? j = some y → p y = false) →
      l.findIdx? p = some i := by
  intro l
  induction l with
  | nil => intro i x hx; simp at hx
  | cons a t ih =>
    intro i x hx hpx hlt
    cases i with
    | zero =>
      rw [List.get?_cons_zero] at hx
      cases hx
      rw [List.findIdx?_cons, hpx]
      simp
    | succ n =>
      have ha : p a = false := hlt 0 a (Nat.succ_pos n) rfl
      rw [List.findIdx?_cons, ha]
      have := ih n x (by simpa using hx) hpx
        (fun j y hj hy => hlt (j + 1) y (by omega) (by simpa using hy))
      rw [List.findIdx?_succ, this]
      simp

/-- findIdx? finds nothing iff nothing satisfies the predicate. -/
theorem findIdx?_none {α : Type} (p : α → Bool) (l : List α)
    (h : ∀ x ∈ l, p x = false) : l.findIdx? p = none := by
  rw [List.findIdx?_eq_none_iff]
  intro x hx
  simp [h x hx]

/-- A list with a last element is nonempty, in length form. -/
theorem length_dropLast_concat {α : Type} (l : List α) (x s : α)
    (h : l.getLast? = some s) : (l.dropLast ++ [x]).length = l.length := by
  have hne : l ≠ [] := by
    intro hnil
    rw [hnil] at h
    simp at h
  rw [List.length_append, List.length_dropLast]
  have := List.length_pos.mpr hne
  simp
  omega

/-- extendLastSegment never touches the input queue. -/
theorem extend_queue (ps : List Player) (dur : Q) (p : Player) :
    (extendLastSegment ps dur p).pendingDirectionInputs = p.pendingDirectionInputs := by
  unfold extendLastSegment
  split
  · rfl
  split
  · rfl
  · dsimp only
    split
    · rfl
    · rfl

/-- extendLastSegment preserves the number of segments. -/
theorem extend_len (ps : List Player) (dur : Q) (p : Player) :
    (extendLastSegment ps dur p).segments.length = p.segments.length := by
  unfold extendLastSegment
  split
  · rfl
  · split
    · rfl
    · rename_i lastSeg hlast
      dsimp only
      split
      · exact length_dropLast_concat _ _ _ hlast
      · exact length_dropLast_concat _ _ _ hlast

/-- extendLastSegment preserves identity, visual attributes, score and
direction. -/
theorem extend_fields (ps : List Player) (dur : Q) (p : Player) :
    (extendLastSegment ps dur p).id = p.id ∧
    (extendLastSegment ps dur p).name = p.name ∧
    (extendLastSegment ps dur p).color = p.color ∧
    (extendLastSegment ps dur p).score = p.score ∧
    (extendLastSegment ps dur p).direction = p.direction ∧
    (extendLastSegment ps dur p).pendingRedraw = p.pendingRedraw ∧
    (extendLastSegment ps dur p).lastSentSegmentIndices = p.lastSentSegmentIndices := by
  unfold extendLastSegment
  split
  · exact ⟨rfl, rfl, rfl, rfl, rfl, rfl, rfl⟩
  split
  · exact ⟨rfl, rfl, rfl, rfl, rfl, rfl, rfl⟩
  · dsimp only
    split
    · exact ⟨rfl, rfl, rfl, rfl, rfl, rfl, rfl⟩
    · exact ⟨rfl, rfl, rfl, rfl, rfl, rfl, rfl⟩

/-- addSegment preserves identity, visual attributes, score and queue, and
adds at most one segment. -/
theorem addSegment_fields (p : Player) (d : Direction) :
    (addSegment p d).id = p.id ∧
    (addSegment p d).name = p.name ∧
    (addSegment p d).color = p.color ∧
    (addSegment p d).score = p.score ∧
    (addSegment p d).pendingDirectionInputs = p.pendingDirectionInputs ∧
    (addSegment p d).segments.length ≤ p.segments.length + 1 ∧
    (addSegment p d).dead = p.dead ∧
    (addSegment p d).pendingRedraw = p.pendingRedraw ∧
    (addSegment p d).lastSentSegmentIndices = p.lastSentSegmentIndices := by
  unfold addSegment
  split
  · exact ⟨rfl, rfl, rfl, rfl, rfl, by omega, rfl, rfl, rfl⟩
  · dsimp only
    split
    · exact ⟨rfl, rfl, rfl, rfl, rfl, by omega, rfl, rfl, rfl⟩
    · split
      · exact ⟨rfl, rfl, rfl, rfl, rfl, by omega, rfl, rfl, rfl⟩
      · refine ⟨rfl, rfl, rfl, rfl, rfl, ?_, rfl, rfl, rfl⟩
        simp

/-- When the turn is onto the perpendicular axis of a live player with a
head segment, addSegment really performs it: the direction changes and a
new zero-length segment is pushed. -/
theorem addSegment_applies (p : Player) (d : Direction) (hd : p.dead = false)
    (hne : p.segments ≠ []) (h1 : d ≠ p.direction)
    (h2 : d ≠ oppositeDirection p.direction) :
    (addSegment p d).direction = d ∧
    (addSegment p d).segments.length = p.segments.length + 1 ∧
    (addSegment p d).dead = false := by
  unfold addSegment
  rw [hd]
  simp only [Bool.false_eq_true, if_false]
  have hguard : ¬((d = .right ∧ Q.Eqv (directionToVector p.direction).2 (.ofInt 0)) ∨
      (d = .up ∧ Q.Eqv (directionToVector p.direction).1 (.ofInt 0)) ∨
      (d = .down ∧ Q.Eqv (directionToVector p.direction).1 (.ofInt 0)) ∨
      (d = .left ∧ Q.Eqv (directionToVector p.direction).2 (.ofInt 0))) := by
    cases hp : p.direction <;> cases hdc : d <;>
      simp_all [oppositeDirection, directionToVector] <;>
      exact fun hc => absurd hc (of_decide_eq_false (by rfl))
  rw [if_neg hguard]
  cases hlast : p.segments.getLast? with
  | none =>
    exact absurd (List.getLast?_eq_none_iff.mp hlast) hne
  | some lastSeg =>
    dsimp only
    exact ⟨rfl, by simp, rfl⟩

/-- C1 admission characterization: admitTurn consumes exactly the first
admissible entry together with every earlier one, or nothing. -/
theorem admitTurn_spec (b e : Q) (p : Player) (hd : p.dead = false)
    (hne : p.segments ≠ []) :
    (∀ i inp, p.pendingDirectionInputs.get? i = some inp →
        admissible p.direction b e inp = true →
        (∀ j inpj, j < i → p.pendingDirectionInputs.get? j = some inpj →
          admissible p.direction b e inpj = false) →
        admitTurn b e p =
          { addSegment p inp.direction with
              pendingDirectionInputs := p.pendingDirectionInputs.drop (i + 1) } ∧
        (addSegment p inp.direction).direction = inp.direction ∧
        (addSegment p inp.direction).segments.length = p.segments.length + 1) ∧
    ((∀ inp ∈ p.pendingDirectionInputs, admissible p.direction b e inp = false) →
        admitTurn b e p = p) := by
  constructor
  · intro i inp hget hadm hfirst
    have hfi : p.pendingDirectionInputs.findIdx? (admissible p.direction b e) = some i :=
      findIdx?_first _ _ i inp hget hadm hfirst
    have hdir : inp.direction ≠ p.direction ∧
        inp.direction ≠ oppositeDirection p.direction := by
      have := of_decide_eq_true hadm
      exact ⟨this.2.2.2, this.2.2.1⟩
    have happ := addSegment_applies p inp.direction hd hne hdir.1 hdir.2
    refine ⟨?_, happ.1, happ.2.1⟩
    unfold admitTurn
    rw [hfi]
    rw [List.get?_eq_getElem?] at hget
    simp [hget]
  · intro hall
    unfold admitTurn
    rw [findIdx?_none _ _ hall]

end SLC

namespace SLC

/-! Claim theorems for C1. -/

/-- C1: for every live player in a sub-tick, the engine consumes the first
queued entry whose timestamp lies in [beginCutoff, endCutoff) and whose
direction is neither the current direction nor its opposite (the admissible
predicate); if such an entry exists, addSegment is performed with its
direction (the turn really happens: direction set, one segment added) and
that entry and all earlier ones are dropped; if no admissible entry exists,
the queue and the player are unchanged by admission.  At most one turn is
applied per player per sub-tick: the full player step grows the segment
list by at most one, and the extension phase never touches the queue. -/
theorem C1_input_admission (ps : List Player) (b e : Q) (p : Player)
    (hd : p.dead = false) (hne : p.segments ≠ []) :
    (∀ i inp, p.pendingDirectionInputs.get? i = some inp →
        admissible p.direction b e inp = true →
        (∀ j inpj, j < i → p.pendingDirectionInputs.get? j = some inpj →
          admissible p.direction b e inpj = false) →
        admitTurn b e p =
          { addSegment p inp.direction with
              pendingDirectionInputs := p.pendingDirectionInputs.drop (i + 1) } ∧
        (addSegment p inp.direction).direction = inp.direction ∧
        (addSegment p inp.direction).segments.length = p.segments.length + 1) ∧
    ((∀ inp ∈ p.pendingDirectionInputs, admissible p.direction b e inp = false) →
        admitTurn b e p = p) ∧
    (subTickPlayer ps b e p).segments.length ≤ p.segments.length + 1 ∧
    (subTickPlayer ps b e p).pendingDirectionInputs =
      (admitTurn b e p).pendingDirectionInputs := by
  obtain ⟨hA, hB⟩ := admitTurn_spec b e p hd hne
  refine ⟨hA, hB, ?_, ?_⟩
  · show (extendLastSegment ps subTickMs (admitTurn b e p)).segments.length ≤ _
    rw [extend_len]
    unfold admitTurn
    cases hfi : p.pendingDirectionInputs.findIdx? (admissible p.direction b e) with
    | none => simp
    | some i =>
      simp only []
      exact (addSegment_fields p _).2.2.2.2.2.1
  · exact extend_queue _ _ _

/-- C1, witness: the witness player (heading right, one queued up-turn in
the window [0, 5)) takes the turn, its queue empties, and the step adds
exactly one segment. -/
theorem C1_witness :
    admitTurn (.ofInt 0) (.ofInt 5) wPlayer =
      { addSegment wPlayer .up with pendingDirectionInputs := [] } ∧
    (addSegment wPlayer .up).direction = .up ∧
    (addSegment wPlayer .up).segments.length = 2 ∧
    (subTickPlayer [] (.ofInt 0) (.ofInt 5) wPlayer).segments.length ≤ 2 := by
  have h := C1_input_admission [] (.ofInt 0) (.ofInt 5) wPlayer rfl
    (of_decide_eq_true (by rfl))
  have ha := h.1 0 ⟨.up, .ofInt 1⟩ rfl (of_decide_eq_true (by rfl))
    (fun j y hj => absurd hj (by omega))
  exact ⟨ha.1, ha.2.1, ha.2.2, h.2.2.1⟩

/-! Watermark map lemmas. -/

/-- Mapping a pointwise-identity function leaves a list unchanged. -/
theorem map_eq_self_of {α : Type} (t : List α) (f : α → α)
    (h : ∀ e ∈ t, f e = e) : t.map f = t := by
  induction t with
  | nil => rfl
  | cons b u ih =>
    rw [List.map_cons, h b (by simp), ih fun e he => h e (by simp [he])]

/-- Lookup on a cons cell. -/
theorem wmGet?_cons (a : String × ℤ) (t : List (String × ℤ)) (k : String) :
    wmGet? (a :: t) k = if a.1 = k then some a.2 else wmGet? t k := by
  unfold wmGet?
  by_cases h : a.1 = k
  · rw [List.find?_cons_of_pos _ (by simpa using h), if_pos h]
    rfl
  · rw [List.find?_cons_of_neg _ (by simpa using h), if_neg h]

/-- Lookup after wmSet: the set key reads back the written value, all other
keys are untouched. -/
theorem wmGet?_wmSet (m : List (String × ℤ)) (k : String) (v : ℤ) (k' : String) :
    wmGet? (wmSet m k v) k' = if k' = k then some v else wmGet? m k' := by
  unfold wmSet
  split
  · rename_i hany
    induction m with
    | nil => simp at hany
    | cons a t ih =>
      rw [List.map_cons, wmGet?_cons, wmGet?_cons]
      by_cases hak : a.1 = k
      · rw [if_pos hak]
        by_cases hkk : k' = k
        · subst hkk
          simp [hak]
        · have h1 : ¬((k, v).1 = k') := fun h => hkk h.symm
          have h2 : ¬(a.1 = k') := by rw [hak]; exact fun h => hkk h.symm
          rw [if_neg h1, if_neg hkk, if_neg h2]
          by_cases hta : (t.any fun e => e.1 = k) = true
          · have := ih hta
            rw [if_neg hkk] at this
            exact this
          · have hmap : (t.map fun e => if e.1 = k then (k, v) else e) = t := by
              apply map_eq_self_of
              intro e he
              exact if_neg fun hek =>
                hta (List.any_eq_true.mpr ⟨e, he, by simp [hek]⟩)
            rw [hmap]
      · rw [if_neg hak]
        by_cases hk' : a.1 = k'
        · have h3 : ¬(k' = k) := fun h => hak (by rw [hk', h])
          rw [if_pos hk', if_neg h3, if_pos hk']
        · rw [if_neg hk', if_neg hk']
          have hta : (t.any fun e => e.1 = k) = true := by
            simpa [hak] using hany
          exact ih hta
  · rename_i hany
    unfold wmGet?
    rw [List.find?_append]
    by_cases hkk : k' = k
    · subst hkk
      have hm : m.find? (fun e => decide (e.1 = k')) = none := by
        rw [List.find?_eq_none]
        intro e he
        simp only [decide_eq_true_eq]
        exact fun hek => hany (List.any_eq_true.mpr ⟨e, he, by simp [hek]⟩)
      rw [hm]
      simp
    · have h1 : List.find? (fun e => decide (e.1 = k')) [(k, v)] = none := by
        rw [List.find?_eq_none]
        intro e he
        simp only [List.mem_singleton] at he
        subst he
        simp only [decide_eq_true_eq]
        exact fun h => hkk h.symm
      rw [h1]
      cases m.find? fun e => decide (e.1 = k') <;> simp [hkk]

/-- wmSet leaves a map unchanged when the key is present and every entry of
that key already holds the written value. -/
theorem wmSet_eq_self (m : List (String × ℤ)) (k : String) (v : ℤ)
    (hp : (m.any fun e => e.1 = k) = true)
    (hv : ∀ e ∈ m, e.1 = k → e = (k, v)) : wmSet m k v = m := by
  unfold wmSet
  rw [if_pos hp]
  apply map_eq_self_of
  intro e he
  by_cases hek : e.1 = k
  · rw [if_pos hek, hv e he hek]
  · rw [if_neg hek]

/-- After wmSet, every entry of the written key holds the written value. -/
theorem wmSet_entries (m : List (String × ℤ)) (k : String) (v : ℤ) :
    ∀ e ∈ wmSet m k v, e.1 = k → e = (k, v) := by
  unfold wmSet
  split
  · intro e he hek
    rcases List.mem_map.mp he with ⟨a, ha, rfl⟩
    by_cases hak : a.1 = k
    · simp [hak]
    · simp only [if_neg hak] at hek ⊢
      exact absurd hek hak
  · rename_i hany
    intro e he hek
    rcases List.mem_append.mp he with h | h
    · exact absurd (List.any_eq_true.mpr ⟨e, h, by simp [hek]⟩) hany
    · simpa using h

/-- wmSet with another key preserves the entries of a key. -/
theorem wmSet_entries_other (m : List (String × ℤ)) (j : String) (v : ℤ)
    (k : String) (w : ℤ) (hkj : k ≠ j)
    (hv : ∀ e ∈ m, e.1 = k → e = (k, w)) :
    ∀ e ∈ wmSet m j v, e.1 = k → e = (k, w) := by
  unfold wmSet
  split
  · intro e he hek
    rcases List.mem_map.mp he with ⟨a, ha, rfl⟩
    by_cases haj : a.1 = j
    · simp only [if_pos haj] at hek ⊢
      exact absurd hek (Ne.symm (by simpa using hkj))
    · simp only [if_neg haj] at hek ⊢
      exact hv a ha hek
  · intro e he hek
    rcases List.mem_append.mp he with h | h
    · exact hv e h hek
    · have he' : e = (j, v) := by simpa using h
      subst he'
      exact absurd hek fun hh => hkj hh.symm

/-- wmSet preserves the presence of every key and makes the written key
present. -/
theorem wmSet_present (m : List (String × ℤ)) (j : String) (v : ℤ) (k : String)
    (h : (m.any fun e => e.1 = k) = true ∨ k = j) :
    ((wmSet m j v).any fun e => e.1 = k) = true := by
  unfold wmSet
  split
  · rename_i hany
    apply List.any_eq_true.mpr
    rcases h with h | h
    · rcases List.any_eq_true.mp h with ⟨e, he, hek⟩
      have hek' : e.1 = k := by simpa using hek
      by_cases hej : e.1 = j
      · exact ⟨(j, v), List.mem_map.mpr ⟨e, he, by simp [hej]⟩,
          by simp [← hej, hek']⟩
      · exact ⟨e, List.mem_map.mpr ⟨e, he, by simp [hej]⟩, hek⟩
    · rcases List.any_eq_true.mp hany with ⟨e, he, hej⟩
      have hej' : e.1 = j := by simpa using hej
      exact ⟨(j, v), List.mem_map.mpr ⟨e, he, by simp [hej']⟩, by simp [h]⟩
  · apply List.any_eq_true.mpr
    rcases h with h | h
    · rcases List.any_eq_true.mp h with ⟨e, he, hek⟩
      exact ⟨e, List.mem_append_left _ he, hek⟩
    · exact ⟨(j, v), List.mem_append_right _ (by simp), by simp [h]⟩

/-- One zero-write keeps the all-entries-zero property of any key. -/
theorem wmSet_zero_entries (m : List (String × ℤ)) (i k : String)
    (hv : ∀ e ∈ m, e.1 = k → e = (k, 0)) :
    ∀ e ∈ wmSet m i 0, e.1 = k → e = (k, 0) := by
  by_cases hik : k = i
  · subst hik
    exact wmSet_entries m k 0
  · exact wmSet_entries_other m i 0 k 0 hik hv

/-- zeroAll keeps a key present. -/
theorem zeroAll_present_mono (ids : List String) :
    ∀ (m : List (String × ℤ)) (k : String),
      (m.any fun e => e.1 = k) = true →
      ((zeroAll ids m).any fun e => e.1 = k) = true := by
  induction ids with
  | nil => intro m k h; exact h
  | cons i rest ih =>
    intro m k h
    exact ih (wmSet m i 0) k (wmSet_present m i 0 k (Or.inl h))

/-- zeroAll keeps the all-entries-zero property of any key. -/
theorem zeroAll_entries_mono (ids : List String) :
    ∀ (m : List (String × ℤ)) (k : String),
      (∀ e ∈ m, e.1 = k → e = (k, 0)) →
      ∀ e ∈ zeroAll ids m, e.1 = k → e = (k, 0) := by
  induction ids with
  | nil => intro m k h; exact h
  | cons i rest ih =>
    intro m k h
    exact ih (wmSet m i 0) k (wmSet_zero_entries m i k h)

/-- After zeroAll, every listed key is present and all its entries are 0. -/
theorem zeroAll_entries (ids : List String) :
    ∀ (m : List (String × ℤ)) (k : String), k ∈ ids →
      ((zeroAll ids m).any fun e => e.1 = k) = true ∧
      (∀ e ∈ zeroAll ids m, e.1 = k → e = (k, 0)) := by
  induction ids with
  | nil => intro m k h; simp at h
  | cons i rest ih =>
    intro m k hk
    by_cases hkr : k ∈ rest
    · exact ih (wmSet m i 0) k hkr
    · have hki : k = i := by
        rcases List.mem_cons.mp hk with h | h
        · exact h
        · exact absurd h hkr
      subst hki
      constructor
      · exact zeroAll_present_mono rest (wmSet m k 0) k
          (wmSet_present m k 0 k (Or.inr rfl))
      · exact zeroAll_entries_mono rest (wmSet m k 0) k (wmSet_entries m k 0)

/-- zeroAll is the identity on a map in which every listed key is present
with all entries 0. -/
theorem zeroAll_eq_self (ids : List String) :
    ∀ (m : List (String × ℤ)),
      (∀ k ∈ ids, ((m.any fun e => e.1 = k) = true) ∧
        (∀ e ∈ m, e.1 = k → e = (k, 0))) →
      zeroAll ids m = m := by
  induction ids with
  | nil => intro m _; rfl
  | cons i rest ih =>
    intro m h
    have hi := h i (by simp)
    have hset : wmSet m i 0 = m := wmSet_eq_self m i 0 hi.1 hi.2
    show zeroAll rest (wmSet m i 0) = m
    rw [hset]
    exact ih m fun k hk => h k (by simp [hk])

/-- zeroAll twice is zeroAll once. -/
theorem zeroAll_idem (ids : List String) (m : List (String × ℤ)) :
    zeroAll ids (zeroAll ids m) = zeroAll ids m :=
  zeroAll_eq_self ids (zeroAll ids m) fun k hk => zeroAll_entries ids m k hk

/-- Lookup after zeroAll: listed keys read 0, others are untouched. -/
theorem wmGet?_zeroAll (ids : List String) :
    ∀ (m : List (String × ℤ)) (k : String),
      wmGet? (zeroAll ids m) k = if k ∈ ids then some 0 else wmGet? m k := by
  induction ids with
  | nil => intro m k; simp [zeroAll]
  | cons i rest ih =>
    intro m k
    show wmGet? (zeroAll rest (wmSet m i 0)) k = _
    rw [ih (wmSet m i 0) k, wmGet?_wmSet]
    by_cases h1 : k ∈ rest
    · simp [h1]
    · by_cases h2 : k = i
      · simp [h1, h2]
      · simp [h1, h2]

/-! Redraw idempotence (C9). -/

/-- redrawF preserves the player id. -/
theorem redrawF_id (ids : List String) (id : String) (p : Player) :
    (redrawF ids id p).id = p.id := by
  unfold redrawF
  split <;> rfl

/-- find? by id commutes with an id-preserving map. -/
theorem find?_map_preserving (ps : List Player) (F : Player → Player)
    (hF : ∀ p, (F p).id = p.id) (id : String) :
    ((ps.map F).find? fun p => p.id = id) =
      (ps.find? fun p => p.id = id).map F := by
  induction ps with
  | nil => rfl
  | cons a t ih =>
    rw [List.map_cons]
    by_cases h : a.id = id
    · rw [List.find?_cons_of_pos _ (by simp [hF, h]),
        List.find?_cons_of_pos _ (by simp [h])]
      rfl
    · rw [List.find?_cons_of_neg _ (by simp [hF, h]),
        List.find?_cons_of_neg _ (by simp [h])]
      exact ih

/-- A present id has a member player. -/
theorem playerById_mem (g : Game) (id : String)
    (h : (playerById g id).isNone = false) :
    ∃ p ∈ g.players, p.id = id := by
  unfold playerById at h
  cases hf : g.players.find? fun p => p.id = id with
  | none => rw [hf] at h; simp at h
  | some p =>
    exact ⟨p, List.mem_of_find?_eq_some hf, by simpa using List.find?_some hf⟩

/-- redraw on a present client id rewrites the player list through
redrawF. -/
theorem redraw_eq (g : Game) (id : String)
    (hid : (playerById g id).isNone = false) :
    redraw g id =
      { g with players :=
          g.players.map (redrawF (g.players.map fun q => q.id) id) } := by
  unfold redraw
  rw [if_neg (by simp [hid])]
  rfl

/-- redraw keeps a present client present. -/
theorem redraw_present (g : Game) (id : String)
    (hid : (playerById g id).isNone = false) :
    (playerById (redraw g id) id).isNone = false := by
  rw [redraw_eq g id hid]
  show (((g.players.map (redrawF (g.players.map fun q => q.id) id)).find?
    fun p => p.id = id)).isNone = false
  rw [find?_map_preserving _ _ (fun p => redrawF_id _ _ p) id]
  unfold playerById at hid
  cases hf : g.players.find? fun p => p.id = id with
  | none => rw [hf] at hid; simp at hid
  | some p => rfl

/-- The ids of the players are untouched by redraw's map. -/
theorem redrawF_ids (ps : List Player) (ids : List String) (id : String) :
    ((ps.map (redrawF ids id)).map fun q => q.id) = ps.map fun q => q.id := by
  rw [List.map_map]
  exact List.map_congr_left fun p _ => redrawF_id ids id p

/-- A second redraw for the same client changes nothing. -/
theorem redraw_twice (g : Game) (id : String)
    (hid : (playerById g id).isNone = false) :
    redraw (redraw g id) id = redraw g id := by
  have hid2 := redraw_present g id hid
  rw [redraw_eq (redraw g id) id hid2, redraw_eq g id hid]
  dsimp only
  rw [redrawF_ids]
  congr 1
  apply map_eq_self_of
  intro p' hp'
  rcases List.mem_map.mp hp' with ⟨p₁, hp₁, rfl⟩
  by_cases hpid : p₁.id = id
  · simp [redrawF, hpid, zeroAll_idem]
  · simp [redrawF, hpid]

/-- After a redraw, the client's watermarks for all present players are 0
and pendingRedraw is set. -/
theorem redraw_marks (g : Game) (id : String)
    (hid : (playerById g id).isNone = false) :
    ∀ p ∈ (redraw g id).players, p.id = id →
      p.pendingRedraw = true ∧
      ∀ q ∈ (redraw g id).players,
        wmGet? p.lastSentSegmentIndices q.id = some 0 := by
  rw [redraw_eq g id hid]
  intro p hp hpid
  dsimp only at hp
  rcases List.mem_map.mp hp with ⟨p₁, hp₁, rfl⟩
  have hid₁ : p₁.id = id := by
    rw [← redrawF_id (g.players.map fun q => q.id) id p₁]
    exact hpid
  constructor
  · simp [redrawF, hid₁]
  · intro q hq
    dsimp only at hq
    rcases List.mem_map.mp hq with ⟨q₁, hq₁, rfl⟩
    have hlsi : (redrawF (g.players.map fun q => q.id) id p₁).lastSentSegmentIndices
        = zeroAll (g.players.map fun q => q.id) p₁.lastSentSegmentIndices := by
      simp [redrawF, hid₁]
    rw [redrawF_id, hlsi, wmGet?_zeroAll,
      if_pos (List.mem_map.mpr ⟨q₁, hq₁, rfl⟩)]

/-- C9: for any client id present in the game, redraw is idempotent —
after one redraw every watermark the client stores for a present player is
0 and the client's pendingRedraw flag is set, and a second redraw changes
nothing. -/
theorem C9_redraw_idem (g : Game) (id : String)
    (hid : (playerById g id).isNone = false) :
    redraw (redraw g id) id = redraw g id ∧
    ∀ p ∈ (redraw g id).players, p.id = id →
      p.pendingRedraw = true ∧
      ∀ q ∈ (redraw g id).players,
        wmGet? p.lastSentSegmentIndices q.id = some 0 :=
  ⟨redraw_twice g id hid, redraw_marks g id hid⟩

/-- C9 witness: the idempotence theorem applied to the concrete witness
game at its present client W. -/
theorem C9_witness :
    (playerById wGame "W").isNone = false ∧
    redraw (redraw wGame "W") "W" = redraw wGame "W" :=
  ⟨rfl, (C9_redraw_idem wGame "W" rfl).1⟩

/-! Session lifecycle (C7). -/

/-- find? commutes with a map that preserves the predicate value. -/
theorem find?_map_pred {α : Type} (l : List α) (F : α → α) (p : α → Bool)
    (hF : ∀ a, p (F a) = p a) :
    (l.map F).find? p = (l.find? p).map F := by
  induction l with
  | nil => rfl
  | cons a t ih =>
    rw [List.map_cons]
    cases hpa : p a with
    | true =>
      rw [List.find?_cons_of_pos _ (by rw [hF, hpa]),
        List.find?_cons_of_pos _ hpa]
      rfl
    | false =>
      rw [List.find?_cons_of_neg _ (by simp [hF, hpa]),
        List.find?_cons_of_neg _ (by simp [hpa])]
      exact ih

/-- Event accumulation of a fold whose event component appends a per-element
block that does not read the other component. -/
theorem foldl_evs_acc {β : Type} (l : List Player) (f : Player → List Ev)
    (h : Player → β → β) :
    ∀ (e0 : List Ev) (b0 : β),
      (l.foldl (fun acc q => (acc.1 ++ f q, h q acc.2)) (e0, b0)).1 =
        e0 ++ l.flatMap f := by
  induction l with
  | nil => intro e0 b0; simp
  | cons q t ih =>
    intro e0 b0
    rw [List.foldl_cons]
    dsimp only
    rw [ih (e0 ++ f q) (h q b0), List.flatMap_cons, List.append_assoc]

/-- The events of the join handshake: one modify_player and one full-segment
game_state per present player, in player order. -/
theorem handshake_events (g : Game) (id : String) :
    (handshake g id).2 = g.players.flatMap fun q =>
      [.modifyEv q.id q.name q.color q.score,
       .stateEv id [(q.id, q.segments)]] := by
  unfold handshake
  dsimp only
  simpa using foldl_evs_acc g.players
    (fun q => [.modifyEv q.id q.name q.color q.score,
               .stateEv id [(q.id, q.segments)]])
    (fun q b => wmSet b q.id ((q.segments.length : ℤ) - 1))
    []
    ((Option.map (fun p => p.lastSentSegmentIndices) (playerById g id)).getD [])

/-- removePlayer of a present id emits exactly one remove event and deletes
the player. -/
theorem removePlayer_gone (g : Game) (id : String)
    (hp : (playerById g id).isNone = false) :
    (removePlayer g id).2 = [.removeEv id] ∧
    playerById (removePlayer g id).1 id = none := by
  unfold removePlayer
  rw [if_neg (by simp [hp])]
  refine ⟨rfl, ?_⟩
  show ((g.players.filter fun p => ¬p.id = id).find? fun p => p.id = id) = none
  rw [List.find?_eq_none]
  intro p hpf
  have := (List.mem_filter.mp hpf).2
  simpa using this

/-- markForDeletion sets the flag of every session bound to the id. -/
theorem markForDeletion_marked (ss : List Session) (sid : String) :
    ∀ t ∈ markForDeletion ss sid, t.sessionID = sid →
      t.pendingDeletion = true := by
  intro t ht hts
  rcases List.mem_map.mp ht with ⟨t₁, ht₁, rfl⟩
  by_cases h : t₁.sessionID = sid
  · simp [h]
  · simp only [if_neg h] at hts ⊢
    exact absurd hts h

/-- A timeout arriving after a heartbeat deletes nothing. -/
theorem heartbeat_timeout_noop (ss : List Session) (sid : String) :
    sessionTimeoutFire (heartbeatClear ss sid) sid = heartbeatClear ss sid := by
  unfold sessionTimeoutFire
  cases hf : (heartbeatClear ss sid).find? fun s => s.sessionID = sid with
  | none => rfl
  | some t =>
    have ht : t.pendingDeletion = false := by
      have hmem := List.mem_of_find?_eq_some hf
      have hsid : t.sessionID = sid := by simpa using List.find?_some hf
      unfold heartbeatClear at hmem
      rcases List.mem_map.mp hmem with ⟨t₁, ht₁, hteq⟩
      by_cases h : t₁.sessionID = sid
      · rw [← hteq]
        simp [h]
      · rw [← hteq] at hsid ⊢
        simp only [if_neg h] at hsid ⊢
        exact absurd hsid h
    dsimp only
    rw [if_neg (by simp [ht])]

/-- A timeout not preceded by a heartbeat deletes the session. -/
theorem timeout_deletes (ss : List Session) (sid : String) (s : Session)
    (hs : (ss.find? fun t => t.sessionID = sid) = some s) :
    ∀ t ∈ sessionTimeoutFire (markForDeletion ss sid) sid,
      ¬t.sessionID = sid := by
  have hsid : s.sessionID = sid := by simpa using List.find?_some hs
  have hfind : ((markForDeletion ss sid).find? fun t => t.sessionID = sid) =
      some { s with pendingDeletion := true } := by
    unfold markForDeletion
    rw [find?_map_pred ss
      (fun t => if t.sessionID = sid then { t with pendingDeletion := true }
                else t)
      (fun t => decide (t.sessionID = sid))
      (fun a => by by_cases h : a.sessionID = sid <;> simp [h]), hs]
    simp [hsid]
  unfold sessionTimeoutFire
  rw [hfind]
  dsimp only
  rw [if_pos rfl]
  intro t ht
  have := (List.mem_filter.mp ht).2
  simpa using this

/-- C7, amended: a disconnect of a bound session removes the player
immediately — remove(userID) is broadcast at disconnect time, not after the
grace period — so the player's segments and score do not survive a
disconnect even when the client reconnects within the grace period.  Only
the session record enjoys the grace period: it is merely marked, survives a
timeout preceded by a heartbeat, and is deleted by an unanswered timeout.
A subsequent join creates a fresh player, announced with score 0, and the
joining client does receive the full-state handshake (one game_state with
the complete segment list of every present player). -/
theorem C7_amended (g : Game) (ss : List Session) (sid : String) (s : Session)
    (hs : (ss.find? fun t => t.sessionID = sid) = some s)
    (hp : (playerById g s.userID).isNone = false) :
    (onDisconnect g ss sid).2 = [.removeEv s.userID] ∧
    playerById (onDisconnect g ss sid).1.1 s.userID = none ∧
    (onDisconnect g ss sid).1.2 = markForDeletion ss sid ∧
    (∀ t ∈ markForDeletion ss sid, t.sessionID = sid →
      t.pendingDeletion = true) ∧
    sessionTimeoutFire (heartbeatClear (markForDeletion ss sid) sid) sid =
      heartbeatClear (markForDeletion ss sid) sid ∧
    (∀ t ∈ sessionTimeoutFire (markForDeletion ss sid) sid,
      ¬t.sessionID = sid) ∧
    ∀ (gA : Game) (name : String) (color : Q × Q × Q),
      (playerById gA s.userID).isNone = true →
      (addPlayer gA s.userID name color).2.head? =
        some (.modifyEv s.userID name color 0) ∧
      ∀ q ∈ gA.players,
        .stateEv s.userID [(q.id, q.segments)] ∈
          (addPlayer gA s.userID name color).2 := by
  have hon : onDisconnect g ss sid =
      (((removePlayer g s.userID).1, markForDeletion ss sid),
        (removePlayer g s.userID).2) := by
    unfold onDisconnect
    rw [hs]
  rcases removePlayer_gone g s.userID hp with ⟨hev, hgone⟩
  refine ⟨?_, ?_, ?_, markForDeletion_marked ss sid,
    heartbeat_timeout_noop (markForDeletion ss sid) sid,
    timeout_deletes ss sid s hs, ?_⟩
  · rw [hon]; exact hev
  · rw [hon]; exact hgone
  · rw [hon]
  · intro gA name color hA
    unfold addPlayer
    rw [if_pos hA]
    refine ⟨rfl, ?_⟩
    intro q hq
    show _ ∈ Ev.modifyEv s.userID name color 0 :: (handshake _ s.userID).2
    rw [handshake_events]
    apply List.mem_cons_of_mem
    apply List.mem_flatMap.mpr
    refine ⟨q, ?_, by simp⟩
    exact List.mem_append_left _ hq

/-- C7 witness: the amended disconnect theorem applied to the concrete
session store binding session s1 to user u1 in the two-player game. -/
theorem C7_amended_witness :
    ((c7sessions.find? fun t => t.sessionID = "s1") =
      some { sessionID := "s1", userID := "u1", username := "P1",
             color := (.ofInt 0, .ofInt 0, .ofInt 0),
             pendingDeletion := false }) ∧
    (playerById c7game "u1").isNone = false ∧
    (onDisconnect c7game c7sessions "s1").2 = [.removeEv "u1"] :=
  ⟨rfl, rfl,
    (C7_amended c7game c7sessions "s1"
      { sessionID := "s1", userID := "u1", username := "P1",
        color := (.ofInt 0, .ofInt 0, .ofInt 0), pendingDeletion := false }
      rfl rfl).1⟩

/-! Delta transport (C4). -/

/-- Characterisation of the sendGameState fold: the payload is exactly the
slice of each subject at the receiver's stored watermark, watermarks of the
subjects advance by the advance rule, and all other keys are untouched
(assuming the subject ids are distinct). -/
theorem sendFold_spec (ps : List Player) :
    ∀ (sl : List (String × List Seg)) (m : List (String × ℤ)),
      (ps.map fun p => p.id).Nodup →
      (ps.foldl sendStep (sl, m)).1 =
        sl ++ ps.map (fun q => (q.id, sliceFor q.segments (wmGet? m q.id))) ∧
      (∀ q ∈ ps, wmGet? (ps.foldl sendStep (sl, m)).2 q.id =
        advanceWm q (wmGet? m q.id)) ∧
      ∀ k, k ∉ (ps.map fun p => p.id) →
        wmGet? (ps.foldl sendStep (sl, m)).2 k = wmGet? m k := by
  induction ps with
  | nil =>
    intro sl m _
    exact ⟨by simp, by simp, fun k _ => rfl⟩
  | cons q t ih =>
    intro sl m hnd
    simp only [List.map_cons] at hnd
    have hcons := List.nodup_cons.mp hnd
    have hqt : q.id ∉ t.map fun p => p.id := hcons.1
    have hndt : (t.map fun p => p.id).Nodup := hcons.2
    have hne : ∀ p ∈ t, ¬(p.id = q.id) := by
      intro p hp h
      exact hqt (List.mem_map.mpr ⟨p, hp, h⟩)
    rw [List.foldl_cons]
    cases hw : wmGet? m q.id with
    | none =>
      have hstep : sendStep (sl, m) q =
          (sl ++ [(q.id, sliceFor q.segments none)], m) := by
        unfold sendStep
        rw [hw]
      rw [hstep]
      obtain ⟨ih1, ih2, ih3⟩ :=
        ih (sl ++ [(q.id, sliceFor q.segments none)]) m hndt
      refine ⟨?_, ?_, ?_⟩
      · rw [ih1, List.map_cons, hw]
        simp [List.append_assoc]
      · intro p hp
        rcases List.mem_cons.mp hp with rfl | hp'
        · rw [ih3 p.id hqt, hw]
          rfl
        · exact ih2 p hp'
      · intro k hk
        rw [List.map_cons] at hk
        have hk2 : k ∉ t.map fun p => p.id :=
          fun h => hk (List.mem_cons_of_mem _ h)
        exact ih3 k hk2
    | some w =>
      by_cases hlt : w < (q.segments.length : ℤ) - 1
      · have hstep : sendStep (sl, m) q =
            (sl ++ [(q.id, sliceFor q.segments (some w))],
             wmSet m q.id ((q.segments.length : ℤ) - 1)) := by
          unfold sendStep
          rw [hw]
          dsimp only
          rw [if_pos hlt]
        rw [hstep]
        obtain ⟨ih1, ih2, ih3⟩ :=
          ih (sl ++ [(q.id, sliceFor q.segments (some w))])
            (wmSet m q.id ((q.segments.length : ℤ) - 1)) hndt
        have hmap : t.map (fun p => (p.id, sliceFor p.segments
              (wmGet? (wmSet m q.id ((q.segments.length : ℤ) - 1)) p.id))) =
            t.map fun p => (p.id, sliceFor p.segments (wmGet? m p.id)) :=
          List.map_congr_left fun p hp => by
            rw [wmGet?_wmSet, if_neg (hne p hp)]
        refine ⟨?_, ?_, ?_⟩
        · rw [ih1, hmap, List.map_cons, hw]
          simp [List.append_assoc]
        · intro p hp
          rcases List.mem_cons.mp hp with rfl | hp'
          · rw [ih3 p.id hqt, wmGet?_wmSet, if_pos rfl, hw]
            simp [advanceWm, hlt]
          · rw [ih2 p hp', wmGet?_wmSet, if_neg (hne p hp')]
        · intro k hk
          rw [List.map_cons] at hk
          have hk1 : ¬k = q.id :=
            fun h => hk (by rw [h]; exact List.mem_cons_self _ _)
          have hk2 : k ∉ t.map fun p => p.id :=
            fun h => hk (List.mem_cons_of_mem _ h)
          rw [ih3 k hk2, wmGet?_wmSet, if_neg hk1]
      · have hstep : sendStep (sl, m) q =
            (sl ++ [(q.id, sliceFor q.segments (some w))], m) := by
          unfold sendStep
          rw [hw]
          dsimp only
          rw [if_neg hlt]
        rw [hstep]
        obtain ⟨ih1, ih2, ih3⟩ :=
          ih (sl ++ [(q.id, sliceFor q.segments (some w))]) m hndt
        refine ⟨?_, ?_, ?_⟩
        · rw [ih1, List.map_cons, hw]
          simp [List.append_assoc]
        · intro p hp
          rcases List.mem_cons.mp hp with rfl | hp'
          · rw [ih3 p.id hqt, hw]
            simp [advanceWm, hlt]
          · exact ih2 p hp'
        · intro k hk
          rw [List.map_cons] at hk
          have hk2 : k ∉ t.map fun p => p.id :=
            fun h => hk (List.mem_cons_of_mem _ h)
          exact ih3 k hk2

/-- C4, amended: a state send transmits, for every subject player, exactly
the slice of its segments from the receiver's stored watermark (a missing
watermark transmits the whole list); the watermark then advances to
length - 1 exactly when it was strictly below — it is never set to
length — so a send never lowers a watermark.  Watermarks are however reset
to 0 not only by redraw but also by startRound, which zeroes every
watermark of every player when a round begins. -/
theorem C4_amended (ps : List Player) (r : Player)
    (hnd : (ps.map fun p => p.id).Nodup) :
    (sendGameState ps r).2 = .stateEv r.id (ps.map fun q =>
      (q.id, sliceFor q.segments (wmGet? r.lastSentSegmentIndices q.id))) ∧
    (∀ q ∈ ps,
      wmGet? (sendGameState ps r).1.lastSentSegmentIndices q.id =
        advanceWm q (wmGet? r.lastSentSegmentIndices q.id)) ∧
    (∀ q ∈ ps, ∀ w w',
      wmGet? r.lastSentSegmentIndices q.id = some w →
      wmGet? (sendGameState ps r).1.lastSentSegmentIndices q.id = some w' →
      w ≤ w' ∧ w' ≤ (q.segments.length : ℤ) - 1 ∨ w' = w) ∧
    ∀ (g : Game) (spawn : String → Pt × Direction) (p' : Player),
      g.playing = false → ¬g.players.length < 2 →
      p' ∈ (startRound g spawn).1.players →
      ∀ k ∈ g.players.map fun q => q.id,
        wmGet? p'.lastSentSegmentIndices k = some 0 := by
  obtain ⟨h1, h2, h3⟩ := sendFold_spec ps [] r.lastSentSegmentIndices hnd
  have hsend : sendGameState ps r =
      ({ r with lastSentSegmentIndices :=
          (ps.foldl sendStep ([], r.lastSentSegmentIndices)).2 },
       .stateEv r.id (ps.foldl sendStep ([], r.lastSentSegmentIndices)).1) :=
    rfl
  refine ⟨?_, ?_, ?_, ?_⟩
  · rw [hsend]
    dsimp only
    rw [h1]
    rfl
  · intro q hq
    rw [hsend]
    dsimp only
    exact h2 q hq
  · intro q hq w w' hw hw'
    rw [hsend] at hw'
    dsimp only at hw'
    rw [h2 q hq, hw] at hw'
    simp only [advanceWm] at hw'
    by_cases hlt : w < (q.segments.length : ℤ) - 1
    · rw [if_pos hlt] at hw'
      cases hw'
      exact Or.inl ⟨le_of_lt hlt, le_refl _⟩
    · rw [if_neg hlt] at hw'
      cases hw'
      exact Or.inr rfl
  · intro g spawn p' hpl hlen hp' k hk
    unfold startRound at hp'
    rw [if_neg (by simp [hpl, hlen])] at hp'
    dsimp only at hp'
    rcases List.mem_map.mp hp' with ⟨p₁, hp₁, rfl⟩
    dsimp only
    rw [wmGet?_zeroAll, if_pos hk]

/-- C4 witness: the amended send theorem applied to a one-player list with
the witness player as both subject and receiver. -/
theorem C4_amended_witness :
    (([wPlayer2].map fun p => p.id).Nodup) ∧
    (sendGameState [wPlayer2] wPlayer2).2 =
      .stateEv wPlayer2.id ([wPlayer2].map fun q =>
        (q.id, sliceFor q.segments
          (wmGet? wPlayer2.lastSentSegmentIndices q.id))) :=
  ⟨of_decide_eq_true (by rfl),
    (C4_amended [wPlayer2] wPlayer2 (of_decide_eq_true (by rfl))).1⟩

/-! Partition index update (C6). -/

/-- Lookup of the association list underlying a cell set after a Set.add. -/
theorem find?_partAdd (fp : List (ℤ × List ℕ)) (c : ℤ) (i : ℕ) (c' : ℤ) :
    (partAdd fp c i).find? (fun e => e.1 = c') =
      match fp.find? (fun e => e.1 = c') with
      | some e => some (if e.1 = c then
          (c, if i ∈ e.2 then e.2 else e.2 ++ [i]) else e)
      | none => if c' = c then some (c, [i]) else none := by
  unfold partAdd
  split
  · rename_i hany
    rw [find?_map_pred fp
      (fun e => if e.1 = c then (c, if i ∈ e.2 then e.2 else e.2 ++ [i])
                else e)
      (fun e => decide (e.1 = c'))
      ?_]
    · cases hf : fp.find? fun e => e.1 = c' with
      | some e => rfl
      | none =>
        dsimp only
        by_cases hcc : c' = c
        · subst hcc
          rcases List.any_eq_true.mp hany with ⟨e, he, hek⟩
          have := List.find?_eq_none.mp hf e he
          exact absurd hek this
        · rw [if_neg hcc]
          rfl
    · intro a
      by_cases h : a.1 = c
      · by_cases h2 : c = c'
        · simp [h, h2]
        · simp [h, h2, fun hh => h2 (h ▸ hh)]
      · simp [h]
  · rename_i hany
    rw [List.find?_append]
    cases hf : fp.find? fun e => e.1 = c' with
    | some e =>
      have hec : ¬e.1 = c := by
        intro h
        exact hany (List.any_eq_true.mpr
          ⟨e, List.mem_of_find?_eq_some hf, by simp [h]⟩)
      dsimp only
      rw [if_neg hec]
      rfl
    | none =>
      dsimp only
      by_cases hcc : c' = c
      · subst hcc
        simp
      · rw [if_neg hcc]
        have : List.find? (fun e => decide (e.1 = c')) [(c, [i])] = none := by
          rw [List.find?_eq_none]
          intro e he
          simp only [List.mem_singleton] at he
          subst he
          simpa using fun h => hcc h.symm
        rw [this]
        rfl

/-- Set.add makes the added index a member of its cell. -/
theorem partAdd_mem_self (fp : List (ℤ × List ℕ)) (c : ℤ) (i : ℕ) :
    i ∈ partGet (partAdd fp c i) c := by
  unfold partGet
  rw [find?_partAdd]
  cases hf : fp.find? fun e => e.1 = c with
  | some e =>
    have he : e.1 = c := by simpa using List.find?_some hf
    dsimp only
    rw [if_pos he]
    by_cases hi : i ∈ e.2
    · simp [hi]
    · simp [hi]
  | none =>
    dsimp only
    rw [if_pos rfl]
    simp

/-- Set.add never removes a member from any cell. -/
theorem partAdd_mem_mono (fp : List (ℤ × List ℕ)) (c : ℤ) (i : ℕ) (c' : ℤ)
    (j : ℕ) (hj : j ∈ partGet fp c') : j ∈ partGet (partAdd fp c i) c' := by
  unfold partGet at hj ⊢
  rw [find?_partAdd]
  cases hf : fp.find? fun e => e.1 = c' with
  | none => rw [hf] at hj; simp at hj
  | some e =>
    rw [hf] at hj
    dsimp only at hj ⊢
    by_cases hec : e.1 = c
    · rw [if_pos hec]
      have hj' : j ∈ e.2 := by simpa using hj
      by_cases hie : i ∈ e.2
      · simpa [hie] using hj'
      · simpa [hie] using List.mem_append_left [i] hj'
    · rw [if_neg hec]
      exact hj

/-- Folding Set.adds of one index never removes a member from any cell. -/
theorem foldl_partAdd_pres (hi j : ℕ) :
    ∀ (cells : List ℤ) (fp : List (ℤ × List ℕ)) (c : ℤ),
      j ∈ partGet fp c →
      j ∈ partGet (cells.foldl (fun f c => partAdd f c hi) fp) c := by
  intro cells
  induction cells with
  | nil => intro fp c h; exact h
  | cons a t ih =>
    intro fp c h
    rw [List.foldl_cons]
    exact ih (partAdd fp a hi) c (partAdd_mem_mono fp a hi c j h)

/-- Membership in the result of folding Set.adds of one index over a cell
list: every listed cell receives the index. -/
theorem foldl_partAdd_mem (hi : ℕ) :
    ∀ (cells : List ℤ) (fp : List (ℤ × List ℕ)) (c : ℤ), c ∈ cells →
      hi ∈ partGet (cells.foldl (fun f c => partAdd f c hi) fp) c := by
  intro cells
  induction cells with
  | nil => intro fp c hc; simp at hc
  | cons a t ih =>
    intro fp c hc
    rw [List.foldl_cons]
    rcases List.mem_cons.mp hc with rfl | hc'
    · exact foldl_partAdd_pres hi hi t (partAdd fp c hi) c
        (partAdd_mem_self fp c hi)
    · exact ih (partAdd fp a hi) c hc'

/-- The partition table produced by the cell scan of extendLastSegment is
exactly the fold of Set.adds of the head index over the touched cells. -/
theorem scanCells_fp (ps : List Player) (p : Player) (oldEnd : Pt) (hi : ℕ) :
    ∀ (cells : List ℤ) (fp : List (ℤ × List ℕ)) (st : Pt × Bool),
      (scanCells ps p oldEnd hi cells (fp, st)).1 =
        cells.foldl (fun f c => partAdd f c hi) fp := by
  intro cells
  induction cells with
  | nil => intro fp st; rfl
  | cons cell rest ih =>
    intro fp st
    show (scanCells ps p oldEnd hi rest
      (partAdd fp cell hi,
       scanPlayers ps p (partAdd fp cell hi) cell oldEnd hi st)).1 = _
    rw [ih (partAdd fp cell hi)
      (scanPlayers ps p (partAdd fp cell hi) cell oldEnd hi st),
      List.foldl_cons]

/-- C6, amended: for a live player's sub-tick extension whose new end stays
inside the field, the head index is inserted into every partition cell the
travel slice touches — also when the player dies by collision during the
same sub-tick; but when the new end leaves the field, the player is marked
dead and the partition table is left completely untouched, so the claimed
index update does not happen on a boundary death. -/
theorem C6_amended (ps : List Player) (dur : Q) (p : Player) (lastSeg : Seg)
    (newEnd : Pt)
    (hd : p.dead = false) (hlast : p.segments.getLast? = some lastSeg)
    (hne : newEnd = ⟨lastSeg.p2.x + (directionToVector p.direction).1 *
        Q.divc (dur * moveSpeed) (.ofInt 1000) (by decide),
      lastSeg.p2.y + (directionToVector p.direction).2 *
        Q.divc (dur * moveSpeed) (.ofInt 1000) (by decide)⟩) :
    (outOfField newEnd →
      (extendLastSegment ps dur p).fieldPartitions = p.fieldPartitions ∧
      (extendLastSegment ps dur p).dead = true) ∧
    (¬outOfField newEnd →
      ∀ c ∈ segmentToPartitions ⟨lastSeg.p2, newEnd⟩,
        (p.segments.length - 1) ∈
          partGet (extendLastSegment ps dur p).fieldPartitions c) := by
  constructor
  · intro hout
    unfold extendLastSegment
    rw [if_neg (by simp [hd]), hlast]
    dsimp only
    rw [← hne, if_pos hout]
    exact ⟨rfl, rfl⟩
  · intro hin c hc
    unfold extendLastSegment
    rw [if_neg (by simp [hd]), hlast]
    dsimp only
    rw [← hne, if_neg hin]
    dsimp only
    rw [scanCells_fp]
    exact foldl_partAdd_mem (p.segments.length - 1) _ _ c hc

/-- C6 witness: the amended extension theorem applied to the witness player
(alive, heading right from the origin) over one 1000 ms step; the travel
slice stays inside the field and its touched cells all receive the head
index 0. -/
theorem C6_amended_witness :
    wPlayer.dead = false ∧
    wPlayer.segments.getLast? = some wSeg ∧
    ¬outOfField ⟨wSeg.p2.x + (directionToVector wPlayer.direction).1 *
        Q.divc (Q.ofInt 1000 * moveSpeed) (.ofInt 1000) (by decide),
      wSeg.p2.y + (directionToVector wPlayer.direction).2 *
        Q.divc (Q.ofInt 1000 * moveSpeed) (.ofInt 1000) (by decide)⟩ ∧
    ∀ c ∈ segmentToPartitions ⟨wSeg.p2,
      ⟨wSeg.p2.x + (directionToVector wPlayer.direction).1 *
          Q.divc (Q.ofInt 1000 * moveSpeed) (.ofInt 1000) (by decide),
        wSeg.p2.y + (directionToVector wPlayer.direction).2 *
          Q.divc (Q.ofInt 1000 * moveSpeed) (.ofInt 1000) (by decide)⟩⟩,
      (wPlayer.segments.length - 1) ∈
        partGet (extendLastSegment [] (Q.ofInt 1000) wPlayer).fieldPartitions
          c :=
  ⟨rfl, rfl, of_decide_eq_true (by rfl),
    (C6_amended [] (.ofInt 1000) wPlayer wSeg _ rfl rfl rfl).2
      (of_decide_eq_true (by rfl))⟩

/-! Round end and winner accounting (C2). -/

/-- awardWinners emits modify events only. -/
theorem awardWinners_no_roundOver :
    ∀ (ws : List String) (g : Game),
      Ev.roundOver ∉ (awardWinners g ws).2 := by
  intro ws
  induction ws with
  | nil => intro g; exact fun h => List.not_mem_nil _ h
  | cons w rest ih =>
    intro g
    unfold awardWinners
    cases hpw : playerById g w with
    | none => exact ih g
    | some p =>
      intro h
      rcases List.mem_cons.mp h with h | h
      · cases h
      · exact ih _ h

/-- The event of one state send is a state event. -/
theorem sendGameState_snd (ps : List Player) (r : Player) :
    (sendGameState ps r).2 = Ev.stateEv r.id
      (ps.foldl sendStep ([], r.lastSentSegmentIndices)).1 := rfl

/-- The sub-tick loop emits modify events only. -/
theorem tickLoop_no_roundOver :
    ∀ (f j : ℕ) (g : Game), Ev.roundOver ∉ (tickLoop f j g).2.1 := by
  intro f
  induction f with
  | zero => intro j g; exact fun h => List.not_mem_nil _ h
  | succ f ih =>
    intro j g
    show Ev.roundOver ∉ (if (processSubTick g j).2.length ≤ 1 then _
      else tickLoop f (j + 1)
        { (processSubTick g j).1 with prevAlive := (processSubTick g j).2 }).2.1
    split
    · exact awardWinners_no_roundOver _ _
    · exact ih (j + 1) _

/-- The send loop appends state events only. -/
theorem sendGo_no_roundOver :
    ∀ (n i : ℕ) (g : Game) (evs : List Ev), Ev.roundOver ∉ evs →
      Ev.roundOver ∉ (sendGo n i g evs).2 := by
  intro n
  induction n with
  | zero => intro i g evs h; exact h
  | succ n ih =>
    intro i g evs h
    unfold sendGo
    cases g.players.get? i with
    | none => exact h
    | some p =>
      apply ih
      intro hm
      rcases List.mem_append.mp hm with hm | hm
      · exact h hm
      · simp [sendGameState_snd] at hm

/-- The idle loop appends state events only. -/
theorem idleGo_no_roundOver :
    ∀ (n i : ℕ) (g : Game) (evs : List Ev), Ev.roundOver ∉ evs →
      Ev.roundOver ∉ (idleGo n i g evs).2 := by
  intro n
  induction n with
  | zero => intro i g evs h; exact h
  | succ n ih =>
    intro i g evs h
    unfold idleGo
    cases g.players.get? i with
    | none => exact h
    | some p =>
      dsimp only
      split
      · apply ih
        intro hm
        rcases List.mem_append.mp hm with hm | hm
        · exact h hm
        · simp [sendGameState_snd] at hm
      · exact ih _ _ _ h

/-- The engine's game loop never emits round_over. -/
theorem gameLoop_no_roundOver (g : Game) (now : Q) :
    Ev.roundOver ∉ (gameLoop g now).2 := by
  unfold gameLoop
  split
  · exact idleGo_no_roundOver _ _ _ _ (by simp)
  · dsimp only
    intro h
    rcases List.mem_append.mp h with h | h
    · exact tickLoop_no_roundOver subTickRateN 0 g h
    · exact sendGo_no_roundOver _ _ _ _ (by simp) h

/-- playing is a phantom field for player lookups. -/
theorem playerById_set_playing (g : Game) (b : Bool) (id : String) :
    playerById { g with playing := b } id = playerById g id := rfl

/-- awardWinners bumps each present winner's score by exactly one and
broadcasts one modify_player carrying the new score per present winner, in
winner order; ids, playing and everything else are untouched (distinctness
of the player ids and the winner ids assumed). -/
theorem awardWinners_spec (ws : List String) :
    ∀ (g : Game),
      (g.players.map fun p => p.id).Nodup → ws.Nodup →
      ((awardWinners g ws).1.players.map fun p => (p.id, p.score)) =
        (g.players.map fun p =>
          (p.id, p.score + if p.id ∈ ws then 1 else 0)) ∧
      (awardWinners g ws).1.playing = g.playing ∧
      (awardWinners g ws).2 = ws.filterMap fun id =>
        (playerById g id).map fun p =>
          Ev.modifyEv id p.name p.color (p.score + 1) := by
  induction ws with
  | nil =>
    intro g hnd hws
    refine ⟨?_, rfl, rfl⟩
    apply List.map_congr_left
    intro p hp
    simp
  | cons w rest ih =>
    intro g hnd hws
    have hwnd := List.nodup_cons.mp hws
    cases hpw : playerById g w with
    | none =>
      have hstep : awardWinners g (w :: rest) = awardWinners g rest := by
        conv_lhs => unfold awardWinners
        rw [hpw]
      have hf : g.players.find? (fun q => q.id = w) = none := hpw
      have hnone : ∀ p ∈ g.players, ¬(p.id = w) := by
        intro p hp h
        exact (List.find?_eq_none.mp hf p hp) (by simp [h])
      obtain ⟨ih1, ih3, ih5⟩ := ih g hnd hwnd.2
      rw [hstep]
      refine ⟨?_, ih3, ?_⟩
      · rw [ih1]
        apply List.map_congr_left
        intro p hp
        simp [List.mem_cons, hnone p hp]
      · rw [ih5, List.filterMap_cons, hpw]
        rfl
    | some p =>
      have hf : g.players.find? (fun q => q.id = w) = some p := hpw
      have hpid : p.id = w := by simpa using List.find?_some hf
      have hstep : awardWinners g (w :: rest) =
          ((awardWinners { g with players := g.players.map fun q =>
              if q.id = w then { q with score := q.score + 1 } else q }
              rest).1,
           Ev.modifyEv w p.name p.color (p.score + 1) ::
             (awardWinners { g with players := g.players.map fun q =>
               if q.id = w then { q with score := q.score + 1 } else q }
               rest).2) := by
        conv_lhs => unfold awardWinners
        rw [hpw]
      set g1 : Game := { g with players := g.players.map fun q =>
        if q.id = w then { q with score := q.score + 1 } else q } with hg1
      have hids1 : (g1.players.map fun q => q.id) =
          g.players.map fun q => q.id := by
        rw [hg1]
        dsimp only
        rw [List.map_map]
        exact List.map_congr_left fun q _ => by
          by_cases hq : q.id = w <;> simp [hq]
      have hnd1 : (g1.players.map fun q => q.id).Nodup := by
        rw [hids1]
        exact hnd
      have hpb : ∀ id', playerById g1 id' =
          (playerById g id').map fun q =>
            if q.id = w then { q with score := q.score + 1 } else q := by
        intro id'
        rw [hg1]
        exact find?_map_preserving g.players
          (fun q => if q.id = w then { q with score := q.score + 1 } else q)
          (fun q => by by_cases hq : q.id = w <;> simp [hq]) id'
      obtain ⟨ih1, ih3, ih5⟩ := ih g1 hnd1 hwnd.2
      rw [hstep]
      refine ⟨?_, ?_, ?_⟩
      · show ((awardWinners g1 rest).1.players.map fun p => (p.id, p.score)) = _
        rw [ih1, hg1]
        dsimp only
        rw [List.map_map]
        apply List.map_congr_left
        intro q hq
        by_cases hqw : q.id = w
        · have hqr : q.id ∉ rest := by
            rw [hqw]
            exact hwnd.1
          simp [hqw, hqr, hwnd.1, List.mem_cons]
        · simp [hqw, List.mem_cons]
      · show (awardWinners g1 rest).1.playing = g.playing
        rw [ih3, hg1]
      · show Ev.modifyEv w p.name p.color (p.score + 1) ::
            (awardWinners g1 rest).2 = _
        rw [ih5, List.filterMap_cons, hpw]
        congr 1
        apply List.filterMap_congr
        intro id' hid'
        have hne : ¬(id' = w) := fun h => hwnd.1 (h ▸ hid')
        rw [hpb id']
        cases hq : playerById g id' with
        | none => rfl
        | some q =>
          have hq' : g.players.find? (fun r => r.id = id') = some q := hq
          have hqid : q.id = id' := by simpa using List.find?_some hq'
          simp [hqid, hne]

/-- playerById commutes with the score-bump map of the winner loop. -/
theorem playerById_bump (g : Game) (w id2 : String) :
    playerById { g with players := g.players.map fun q =>
      if q.id = w then { q with score := q.score + 1 } else q } id2 =
    (playerById g id2).map fun q =>
      if q.id = w then { q with score := q.score + 1 } else q :=
  find?_map_preserving g.players
    (fun q => if q.id = w then { q with score := q.score + 1 } else q)
    (fun q => by by_cases hq : q.id = w <;> simp [hq]) id2

/-- When every winner id is present, the fallible winner accounting agrees
with the total skip-variant. -/
theorem awardWinnersE_eq :
    ∀ (ws : List String) (g : Game),
      (∀ id ∈ ws, (playerById g id).isSome = true) →
      awardWinnersE g ws = some (awardWinners g ws) := by
  intro ws
  induction ws with
  | nil => intro g _; rfl
  | cons w rest ih =>
    intro g hall
    have hw := hall w (List.mem_cons_self w rest)
    cases hpw : playerById g w with
    | none =>
      rw [hpw] at hw
      exact absurd hw (by simp)
    | some p =>
      have hstepE : awardWinnersE g (w :: rest) =
          (match awardWinnersE { g with players := g.players.map fun q =>
              if q.id = w then { q with score := q.score + 1 } else q }
              rest with
           | none => none
           | some r =>
             some (r.1, Ev.modifyEv w p.name p.color (p.score + 1) :: r.2)) := by
        conv_lhs => unfold awardWinnersE
        rw [hpw]
      have hstepA : awardWinners g (w :: rest) =
          ((awardWinners { g with players := g.players.map fun q =>
              if q.id = w then { q with score := q.score + 1 } else q }
              rest).1,
           Ev.modifyEv w p.name p.color (p.score + 1) ::
             (awardWinners { g with players := g.players.map fun q =>
               if q.id = w then { q with score := q.score + 1 } else q }
               rest).2) := by
        conv_lhs => unfold awardWinners
        rw [hpw]
      have hpres : ∀ id2 ∈ rest,
          (playerById { g with players := g.players.map fun q =>
            if q.id = w then { q with score := q.score + 1 } else q }
            id2).isSome = true := by
        intro id2 hid2
        rw [playerById_bump g w id2]
        have h2 := hall id2 (List.mem_cons_of_mem _ hid2)
        cases hq : playerById g id2 with
        | none =>
          rw [hq] at h2
          exact absurd h2 (by simp)
        | some q => rfl
      rw [hstepE, hstepA, ih _ hpres]

/-- When some winner id is absent, the fallible winner accounting crashes:
the source throws a TypeError on this.players.get(id)!.score++. -/
theorem awardWinnersE_none :
    ∀ (ws : List String) (g : Game),
      (∃ id ∈ ws, playerById g id = none) →
      awardWinnersE g ws = none := by
  intro ws
  induction ws with
  | nil =>
    intro g h
    obtain ⟨id, hid, _⟩ := h
    exact absurd hid (List.not_mem_nil _)
  | cons w rest ih =>
    intro g h
    obtain ⟨id, hid, habs⟩ := h
    rcases List.mem_cons.mp hid with heq | hid2
    · subst heq
      conv_lhs => unfold awardWinnersE
      rw [habs]
    · cases hpw : playerById g w with
      | none =>
        conv_lhs => unfold awardWinnersE
        rw [hpw]
      | some p =>
        have habs1 : playerById { g with players := g.players.map fun q =>
            if q.id = w then { q with score := q.score + 1 } else q }
            id = none := by
          rw [playerById_bump g w id, habs]
          rfl
        conv_lhs => unfold awardWinnersE
        rw [hpw]
        dsimp only
        rw [ih _ ⟨id, hid2, habs1⟩]

/-- C2, amended: the round-end check runs at the start of each sub-tick
pass, on the set of players alive when the pass visits them — not on the
state a sub-tick leaves behind — so the round stops in the first sub-tick
pass that finds at most one player alive (a sub-tick that leaves one alive
ends the round only in the next pass).  The winners are the singleton
alive list if exactly one player was found alive and prevAlive otherwise.
If some winner id is no longer present (the winner left between the dying
tick and the round-end tick), the winner loop throws a TypeError on
players.get(id)!.score++ and the tick aborts.  Otherwise the tick
completes: playing becomes false, each winner's score is incremented by
exactly 1, and one modify_player carrying the new score is broadcast per
winner — and no round_over event is emitted: the game loop never emits
round_over at all. -/
theorem C2_amended (g : Game) (f j : ℕ) (r : Game × List String)
    (ws : List String)
    (hr : r = processSubTick g j)
    (hws : ws = if r.2.length = 1 then r.2 else r.1.prevAlive)
    (hnd : (r.1.players.map fun p => p.id).Nodup)
    (hwnd : ws.Nodup)
    (hle : r.2.length ≤ 1) :
    ((∃ id ∈ ws, playerById r.1 id = none) →
      tickLoopE (f + 1) j g = none) ∧
    ((∀ id ∈ ws, (playerById r.1 id).isSome = true) →
      ∃ t, tickLoopE (f + 1) j g = some t ∧
        t.1.playing = false ∧
        t.2.2 = ws ∧
        t.1.prevAlive = r.2 ∧
        (t.1.players.map fun p => (p.id, p.score)) =
          (r.1.players.map fun p =>
            (p.id, p.score + if p.id ∈ ws then 1 else 0)) ∧
        t.2.1 = ws.filterMap (fun id =>
          (playerById r.1 id).map fun p =>
            Ev.modifyEv id p.name p.color (p.score + 1))) ∧
    ∀ now, Ev.roundOver ∉ (gameLoop g now).2 := by
  subst hr
  subst hws
  have hTLE : tickLoopE (f + 1) j g =
      (match awardWinnersE { (processSubTick g j).1 with playing := false }
        (if (processSubTick g j).2.length = 1 then (processSubTick g j).2
         else (processSubTick g j).1.prevAlive) with
       | none => none
       | some a =>
         some ({ a.1 with prevAlive := (processSubTick g j).2 }, a.2,
           if (processSubTick g j).2.length = 1 then (processSubTick g j).2
           else (processSubTick g j).1.prevAlive)) := by
    conv_lhs => unfold tickLoopE
    dsimp only
    rw [if_pos hle]
  refine ⟨?_, ?_, fun now => gameLoop_no_roundOver g now⟩
  · intro habs
    rw [hTLE, awardWinnersE_none _
      { (processSubTick g j).1 with playing := false } habs]
  · intro hall
    obtain ⟨a1, a3, a5⟩ := awardWinners_spec
      (if (processSubTick g j).2.length = 1 then (processSubTick g j).2
       else (processSubTick g j).1.prevAlive)
      { (processSubTick g j).1 with playing := false } hnd hwnd
    rw [hTLE, awardWinnersE_eq _
      { (processSubTick g j).1 with playing := false } hall]
    dsimp only
    refine ⟨_, rfl, ?_, rfl, rfl, ?_, ?_⟩
    · show (awardWinners _ _).1.playing = false
      rw [a3]
    · show ((awardWinners _ _).1.players.map fun p => (p.id, p.score)) = _
      rw [a1]
    · show (awardWinners _ _).2 = _
      rw [a5]
      apply List.filterMap_congr
      intro id2 _
      rw [playerById_set_playing]

/-- C2 witness: the amended round-end theorem applied to the one-player
witness game, whose first sub-tick pass finds exactly one player alive and
whose winner is present, so the fallible tick completes. -/
theorem C2_amended_witness :
    (processSubTick wGame1 0).2.length ≤ 1 ∧
    (∀ id ∈ (if (processSubTick wGame1 0).2.length = 1
        then (processSubTick wGame1 0).2
        else (processSubTick wGame1 0).1.prevAlive),
      (playerById (processSubTick wGame1 0).1 id).isSome = true) ∧
    ∃ t, tickLoopE (9 + 1) 0 wGame1 = some t ∧
      t.1.playing = false ∧
      t.2.2 = (if (processSubTick wGame1 0).2.length = 1
        then (processSubTick wGame1 0).2
        else (processSubTick wGame1 0).1.prevAlive) := by
  have h := C2_amended wGame1 9 0 (processSubTick wGame1 0) _ rfl rfl
    (of_decide_eq_true (by rfl)) (of_decide_eq_true (by rfl))
    (of_decide_eq_true (by rfl))
  refine ⟨of_decide_eq_true (by rfl), of_decide_eq_true (by rfl), ?_⟩
  obtain ⟨t, ht, h1, h2, _⟩ := h.2.1 (of_decide_eq_true (by rfl))
  exact ⟨t, ht, h1, h2⟩

/-! Per-tick evolution of the player list (C8, C10). -/

/-- Composition of two Forall₂ relations along a middle list. -/
theorem forall₂_comp {α : Type} {R S T : α → α → Prop}
    (h : ∀ a b c, R a b → S b c → T a c) :
    ∀ {l₁ l₂ l₃ : List α}, List.Forall₂ R l₁ l₂ → List.Forall₂ S l₂ l₃ →
      List.Forall₂ T l₁ l₃ := by
  intro l₁ l₂ l₃ h12
  induction h12 generalizing l₃ with
  | nil =>
    intro h23
    cases h23
    exact .nil
  | cons hab htl ih =>
    intro h23
    cases h23 with
    | cons hbc htl2 => exact .cons (h _ _ _ hab hbc) (ih htl2)

/-- Forall₂ from a length equation and a pointwise lookup property. -/
theorem forall₂_of_getElem? {α : Type} {R : α → α → Prop} :
    ∀ {l₁ l₂ : List α}, l₁.length = l₂.length →
      (∀ (k : ℕ) (a b : α), l₁[k]? = some a → l₂[k]? = some b → R a b) →
      List.Forall₂ R l₁ l₂ := by
  intro l₁
  induction l₁ with
  | nil =>
    intro l₂ hl h
    cases l₂ with
    | nil => exact .nil
    | cons b u => simp at hl
  | cons a t ih =>
    intro l₂ hl h
    cases l₂ with
    | nil => simp at hl
    | cons b u =>
      refine .cons (h 0 a b (by simp) (by simp)) (ih (by simpa using hl) ?_)
      intro k x y hx hy
      exact h (k + 1) x y (by simpa using hx) (by simpa using hy)

/-- The witnesses of a Forall₂, from the right. -/
theorem forall₂_mem_right {α : Type} {R : α → α → Prop} :
    ∀ {l l' : List α}, List.Forall₂ R l l' → ∀ a' ∈ l', ∃ a ∈ l, R a a' := by
  intro l l' h
  induction h with
  | nil => intro a' ha'; simp at ha'
  | cons hab htl ih =>
    intro a' ha'
    rcases List.mem_cons.mp ha' with rfl | ha'
    · exact ⟨_, List.mem_cons_self _ _, hab⟩
    · rcases ih a' ha' with ⟨a, ha, hr⟩
      exact ⟨a, List.mem_cons_of_mem _ ha, hr⟩

/-- Forall₂ between two maps of the same list, from a map equation. -/
theorem forall₂_of_map_eq {α β : Type} (f h : α → β) :
    ∀ (l l' : List α), l'.map f = l.map h →
      List.Forall₂ (fun a a' => f a' = h a) l l' := by
  intro l
  induction l with
  | nil =>
    intro l' hm
    cases l' with
    | nil => exact .nil
    | cons b u => simp at hm
  | cons a t ih =>
    intro l' hm
    cases l' with
    | nil => simp at hm
    | cons b u =>
      simp only [List.map_cons, List.cons.injEq] at hm
      exact .cons hm.1 (ih u hm.2)

/-- Input admission preserves everything except the queue (which loses a
prefix) and the head geometry (at most one segment is added). -/
theorem admitTurn_fields (b e : Q) (p : Player) :
    (admitTurn b e p).id = p.id ∧
    (admitTurn b e p).name = p.name ∧
    (admitTurn b e p).color = p.color ∧
    (admitTurn b e p).score = p.score ∧
    (admitTurn b e p).dead = p.dead ∧
    (admitTurn b e p).segments.length ≤ p.segments.length + 1 ∧
    ∃ n, (admitTurn b e p).pendingDirectionInputs =
      p.pendingDirectionInputs.drop n := by
  unfold admitTurn
  cases p.pendingDirectionInputs.findIdx? (admissible p.direction b e) with
  | none =>
    dsimp only
    exact ⟨rfl, rfl, rfl, rfl, rfl, by omega, 0, rfl⟩
  | some i =>
    dsimp only
    obtain ⟨h1, h2, h3, h4, _, h6, h7, _, _⟩ := addSegment_fields p
      (((p.pendingDirectionInputs.get? i).map fun inp =>
        inp.direction).getD p.direction)
    exact ⟨h1, h2, h3, h4, h7, h6, i + 1, rfl⟩

/-- One sub-tick player step: the player evolves by EvolveN 1 and keeps its
id and score. -/
theorem subTickPlayer_evolve (ps : List Player) (b e : Q) (p : Player) :
    EvolveN 1 p (subTickPlayer ps b e p) ∧
    (subTickPlayer ps b e p).id = p.id ∧
    (subTickPlayer ps b e p).score = p.score := by
  obtain ⟨a1, _, _, a4, _, a6, n, hq⟩ := admitTurn_fields b e p
  obtain ⟨e1, _, _, e4, _, _, _⟩ :=
    extend_fields ps subTickMs (admitTurn b e p)
  unfold subTickPlayer
  refine ⟨⟨e1.trans a1, ⟨n, ?_⟩, ?_⟩, e1.trans a1, e4.trans a4⟩
  · rw [extend_queue]
    exact hq
  · rw [extend_len]
    exact a6

/-- The loops of processSubTick keep the length of the player list. -/
theorem subTickGo_length (b e : Q) :
    ∀ (n i : ℕ) (g : Game) (alive : List String),
      (subTickGo b e n i g alive).1.players.length = g.players.length := by
  intro n
  induction n with
  | zero => intro i g alive; rfl
  | succ n ih =>
    intro i g alive
    unfold subTickGo
    cases g.players.get? i with
    | none => rfl
    | some p =>
      dsimp only
      split
      · exact ih (i + 1) g alive
      · rw [ih]
        simp

/-- The sub-tick pass does not touch prevAlive. -/
theorem subTickGo_prevAlive (b e : Q) :
    ∀ (n i : ℕ) (g : Game) (alive : List String),
      (subTickGo b e n i g alive).1.prevAlive = g.prevAlive := by
  intro n
  induction n with
  | zero => intro i g alive; rfl
  | succ n ih =>
    intro i g alive
    unfold subTickGo
    cases g.players.get? i with
    | none => rfl
    | some p =>
      dsimp only
      split
      · exact ih (i + 1) g alive
      · rw [ih]

/-- Pointwise characterisation of the sub-tick pass: each position is either
untouched or replaced by exactly one subTickPlayer application. -/
theorem subTickGo_players (b e : Q) :
    ∀ (n i : ℕ) (g : Game) (alive : List String) (k : ℕ),
      (k < i → (subTickGo b e n i g alive).1.players[k]? = g.players[k]?) ∧
      ((subTickGo b e n i g alive).1.players[k]? = g.players[k]? ∨
       ∃ p ps, g.players[k]? = some p ∧
         (subTickGo b e n i g alive).1.players[k]? =
           some (subTickPlayer ps b e p)) := by
  intro n
  induction n with
  | zero => intro i g alive k; exact ⟨fun _ => rfl, Or.inl rfl⟩
  | succ n ih =>
    intro i g alive k
    unfold subTickGo
    cases hp : g.players.get? i with
    | none => exact ⟨fun _ => rfl, Or.inl rfl⟩
    | some p =>
      dsimp only
      split
      · exact ⟨fun hk => (ih (i + 1) g alive k).1 (by omega),
          (ih (i + 1) g alive k).2⟩
      · have hlen : i < g.players.length := by
          rcases List.get?_eq_some.mp hp with ⟨h, _⟩
          exact h
        have hset : ∀ (x y : Player),
            ((g.players.set i x).set i y)[k]? =
              if k = i then some y else g.players[k]? := by
          intro x y
          by_cases hk : k = i
          · subst hk
            rw [if_pos rfl]
            rw [List.getElem?_set_self (by simpa using hlen)]
          · rw [if_neg hk]
            rw [List.getElem?_set_ne (fun h => hk h.symm),
              List.getElem?_set_ne (fun h => hk h.symm)]
        constructor
        · intro hk
          rw [(ih (i + 1) _ _ k).1 (by omega), hset, if_neg (by omega)]
        · by_cases hk : k = i
          · rw [(ih (i + 1) _ _ k).1 (by omega), hset, if_pos hk]
            refine Or.inr ⟨p, (g.players.set i (admitTurn b e p)), ?_, rfl⟩
            rw [hk, ← List.get?_eq_getElem?]
            exact hp
          · rcases (ih (i + 1) _ _ k).2 with h | ⟨p', ps', hgp', hres⟩
            · rw [h, hset, if_neg hk]
              exact Or.inl rfl
            · rw [hset, if_neg hk] at hgp'
              exact Or.inr ⟨p', ps', hgp', hres⟩

/-- Forall₂ transport along the sub-tick pass, for any relation compatible
with subTickPlayer. -/
theorem subTickGo_rel (b e : Q) (R : Player → Player → Prop)
    (hrefl : ∀ p, R p p)
    (hstep : ∀ (ps : List Player) (p : Player), R p (subTickPlayer ps b e p))
    (n i : ℕ) (g : Game) (alive : List String) :
    List.Forall₂ R g.players (subTickGo b e n i g alive).1.players := by
  apply forall₂_of_getElem? (subTickGo_length b e n i g alive).symm
  intro k a c ha hc
  rcases (subTickGo_players b e n i g alive k).2 with h | ⟨p, ps, hgp, hres⟩
  · rw [h, ha] at hc
    cases hc
    exact hrefl a
  · rw [ha] at hgp
    injection hgp with hgp
    subst hgp
    rw [hres] at hc
    injection hc with hc
    subst hc
    exact hstep ps a

/-- The sub-tick pass does not change the id list. -/
theorem subTickGo_ids (b e : Q) (n i : ℕ) (g : Game) (alive : List String) :
    ((subTickGo b e n i g alive).1.players.map fun p => p.id) =
      g.players.map fun p => p.id := by
  apply List.ext_getElem?
  intro k
  rw [List.getElem?_map, List.getElem?_map]
  rcases (subTickGo_players b e n i g alive k).2 with h | ⟨p, ps, hgp, hres⟩
  · rw [h]
  · rw [hgp, hres]
    simp [(subTickPlayer_evolve ps b e p).2.1]

/-- The alive list returned by the sub-tick pass: the ids of the players
that were alive when the pass visited them, appended in visit order. -/
theorem subTickGo_alive (b e : Q) :
    ∀ (n i : ℕ) (g : Game) (alive : List String),
      (subTickGo b e n i g alive).2 = alive ++
        ((((g.players.drop i).take n).filter fun p =>
          p.dead = false).map fun p => p.id) := by
  intro n
  induction n with
  | zero =>
    intro i g alive
    show alive = _
    simp
  | succ n ih =>
    intro i g alive
    unfold subTickGo
    cases hp : g.players.get? i with
    | none =>
      have hnil : g.players.drop i = [] :=
        List.drop_eq_nil_of_le (List.get?_eq_none.mp hp)
      simp [hnil]
    | some p =>
      dsimp only
      have hp' : g.players[i]? = some p := by
        rw [← List.get?_eq_getElem?]
        exact hp
      rcases List.getElem?_eq_some_iff.mp hp' with ⟨hlt, hval⟩
      have hdrop : g.players.drop i = p :: g.players.drop (i + 1) := by
        rw [List.drop_eq_getElem_cons hlt, hval]
      split
      · rename_i hdead
        rw [ih (i + 1) g alive, hdrop]
        simp [List.take_succ_cons, List.filter_cons, hdead]
      · rename_i hdead
        have hdead' : p.dead = false := by
          simpa using hdead
        rw [ih (i + 1) _ (alive ++ [p.id])]
        have hdropset : ∀ (x y : Player),
            ((g.players.set i x).set i y).drop (i + 1) =
              g.players.drop (i + 1) := by
          intro x y
          rw [List.drop_set, if_pos (by omega), List.drop_set,
            if_pos (by omega)]
        rw [hdropset, hdrop]
        simp [List.take_succ_cons, List.filter_cons, hdead',
          List.append_assoc]

/-- The send loop keeps the length of the player list. -/
theorem sendGo_length :
    ∀ (n i : ℕ) (g : Game) (evs : List Ev),
      (sendGo n i g evs).1.players.length = g.players.length := by
  intro n
  induction n with
  | zero => intro i g evs; rfl
  | succ n ih =>
    intro i g evs
    unfold sendGo
    cases g.players.get? i with
    | none => rfl
    | some p =>
      dsimp only
      rw [ih]
      simp

/-- Pointwise characterisation of the send loop: each position is untouched
or gets pendingRedraw cleared and a new watermark map. -/
theorem sendGo_players :
    ∀ (n i : ℕ) (g : Game) (evs : List Ev) (k : ℕ),
      (k < i → (sendGo n i g evs).1.players[k]? = g.players[k]?) ∧
      ((sendGo n i g evs).1.players[k]? = g.players[k]? ∨
       ∃ p l, g.players[k]? = some p ∧
         (sendGo n i g evs).1.players[k]? =
           some { p with pendingRedraw := false,
                         lastSentSegmentIndices := l }) := by
  intro n
  induction n with
  | zero => intro i g evs k; exact ⟨fun _ => rfl, Or.inl rfl⟩
  | succ n ih =>
    intro i g evs k
    unfold sendGo
    cases hp : g.players.get? i with
    | none => exact ⟨fun _ => rfl, Or.inl rfl⟩
    | some p =>
      dsimp only
      have hlen : i < g.players.length := by
        rcases List.get?_eq_some.mp hp with ⟨h, _⟩
        exact h
      have hset : ∀ (x y : Player),
          ((g.players.set i x).set i y)[k]? =
            if k = i then some y else g.players[k]? := by
        intro x y
        by_cases hk : k = i
        · subst hk
          rw [if_pos rfl, List.getElem?_set_self (by simpa using hlen)]
        · rw [if_neg hk, List.getElem?_set_ne (fun h => hk h.symm),
            List.getElem?_set_ne (fun h => hk h.symm)]
      constructor
      · intro hk
        rw [(ih (i + 1) _ _ k).1 (by omega), hset, if_neg (by omega)]
      · by_cases hk : k = i
        · rw [(ih (i + 1) _ _ k).1 (by omega), hset, if_pos hk]
          refine Or.inr ⟨p, _, ?_, rfl⟩
          rw [hk, ← List.get?_eq_getElem?]
          exact hp
        · rcases (ih (i + 1) _ _ k).2 with h | ⟨p', l', hgp', hres⟩
          · rw [h, hset, if_neg hk]
            exact Or.inl rfl
          · rw [hset, if_neg hk] at hgp'
            exact Or.inr ⟨p', l', hgp', hres⟩

/-- Forall₂ transport along the send loop. -/
theorem sendGo_rel (R : Player → Player → Prop)
    (hrefl : ∀ p, R p p)
    (hstep : ∀ (p : Player) (l : List (String × ℤ)),
      R p { p with pendingRedraw := false, lastSentSegmentIndices := l })
    (n i : ℕ) (g : Game) (evs : List Ev) :
    List.Forall₂ R g.players (sendGo n i g evs).1.players := by
  apply forall₂_of_getElem? (sendGo_length n i g evs).symm
  intro k a c ha hc
  rcases (sendGo_players n i g evs k).2 with h | ⟨p, l, hgp, hres⟩
  · rw [h, ha] at hc
    cases hc
    exact hrefl a
  · rw [ha] at hgp
    injection hgp with hgp
    subst hgp
    rw [hres] at hc
    injection hc with hc
    subst hc
    exact hstep a l

/-- The idle loop keeps the length of the player list. -/
theorem idleGo_length :
    ∀ (n i : ℕ) (g : Game) (evs : List Ev),
      (idleGo n i g evs).1.players.length = g.players.length := by
  intro n
  induction n with
  | zero => intro i g evs; rfl
  | succ n ih =>
    intro i g evs
    unfold idleGo
    cases g.players.get? i with
    | none => rfl
    | some p =>
      dsimp only
      split
      · rw [ih]
        simp
      · exact ih (i + 1) g evs

/-- Pointwise characterisation of the idle loop. -/
theorem idleGo_players :
    ∀ (n i : ℕ) (g : Game) (evs : List Ev) (k : ℕ),
      (k < i → (idleGo n i g evs).1.players[k]? = g.players[k]?) ∧
      ((idleGo n i g evs).1.players[k]? = g.players[k]? ∨
       ∃ p l, g.players[k]? = some p ∧
         (idleGo n i g evs).1.players[k]? =
           some { p with pendingRedraw := false,
                         lastSentSegmentIndices := l }) := by
  intro n
  induction n with
  | zero => intro i g evs k; exact ⟨fun _ => rfl, Or.inl rfl⟩
  | succ n ih =>
    intro i g evs k
    unfold idleGo
    cases hp : g.players.get? i with
    | none => exact ⟨fun _ => rfl, Or.inl rfl⟩
    | some p =>
      dsimp only
      split
      · have hlen : i < g.players.length := by
          rcases List.get?_eq_some.mp hp with ⟨h, _⟩
          exact h
        have hset : ∀ (x y : Player),
            ((g.players.set i x).set i y)[k]? =
              if k = i then some y else g.players[k]? := by
          intro x y
          by_cases hk : k = i
          · subst hk
            rw [if_pos rfl, List.getElem?_set_self (by simpa using hlen)]
          · rw [if_neg hk, List.getElem?_set_ne (fun h => hk h.symm),
              List.getElem?_set_ne (fun h => hk h.symm)]
        constructor
        · intro hk
          rw [(ih (i + 1) _ _ k).1 (by omega), hset, if_neg (by omega)]
        · by_cases hk : k = i
          · rw [(ih (i + 1) _ _ k).1 (by omega), hset, if_pos hk]
            refine Or.inr ⟨p, _, ?_, rfl⟩
            rw [hk, ← List.get?_eq_getElem?]
            exact hp
          · rcases (ih (i + 1) _ _ k).2 with h | ⟨p', l', hgp', hres⟩
            · rw [h, hset, if_neg hk]
              exact Or.inl rfl
            · rw [hset, if_neg hk] at hgp'
              exact Or.inr ⟨p', l', hgp', hres⟩
      · exact ⟨fun hk => (ih (i + 1) g evs k).1 (by omega),
          (ih (i + 1) g evs k).2⟩

/-- Forall₂ transport along the idle loop. -/
theorem idleGo_rel (R : Player → Player → Prop)
    (hrefl : ∀ p, R p p)
    (hstep : ∀ (p : Player) (l : List (String × ℤ)),
      R p { p with pendingRedraw := false, lastSentSegmentIndices := l })
    (n i : ℕ) (g : Game) (evs : List Ev) :
    List.Forall₂ R g.players (idleGo n i g evs).1.players := by
  apply forall₂_of_getElem? (idleGo_length n i g evs).symm
  intro k a c ha hc
  rcases (idleGo_players n i g evs k).2 with h | ⟨p, l, hgp, hres⟩
  · rw [h, ha] at hc
    cases hc
    exact hrefl a
  · rw [ha] at hgp
    injection hgp with hgp
    subst hgp
    rw [hres] at hc
    injection hc with hc
    subst hc
    exact hstep a l

/-- Forall₂ between a list and a pointwise image of itself. -/
theorem forall₂_map_self {α : Type} {R : α → α → Prop} (F : α → α)
    (h : ∀ a, R a (F a)) : ∀ (l : List α), List.Forall₂ R l (l.map F)
  | [] => .nil
  | a :: t => .cons (h a) (forall₂_map_self F h t)

/-- awardWinners only ever touches scores. -/
theorem awardWinners_fields :
    ∀ (ws : List String) (g : Game),
      List.Forall₂ (fun p p' => p'.id = p.id ∧
        p'.pendingDirectionInputs = p.pendingDirectionInputs ∧
        p'.segments = p.segments ∧ p'.dead = p.dead)
        g.players (awardWinners g ws).1.players := by
  intro ws
  induction ws with
  | nil =>
    intro g
    exact List.forall₂_same.mpr fun p _ => ⟨rfl, rfl, rfl, rfl⟩
  | cons w rest ih =>
    intro g
    cases hpw : playerById g w with
    | none =>
      have hstep : awardWinners g (w :: rest) = awardWinners g rest := by
        conv_lhs => unfold awardWinners
        rw [hpw]
      rw [hstep]
      exact ih g
    | some p =>
      have hstep2 : (awardWinners g (w :: rest)).1 =
          (awardWinners { g with players := g.players.map fun q =>
            if q.id = w then { q with score := q.score + 1 } else q }
            rest).1 := by
        conv_lhs => unfold awardWinners
        rw [hpw]
      rw [hstep2]
      have hmapF : List.Forall₂ (fun p p' => p'.id = p.id ∧
          p'.pendingDirectionInputs = p.pendingDirectionInputs ∧
          p'.segments = p.segments ∧ p'.dead = p.dead)
          g.players (g.players.map fun q =>
            if q.id = w then { q with score := q.score + 1 } else q) :=
        forall₂_map_self _ (fun q => by
          by_cases hq : q.id = w <;> simp [hq]) g.players
      refine forall₂_comp ?_ hmapF
        (ih { g with players := g.players.map fun q =>
          if q.id = w then { q with score := q.score + 1 } else q })
      intro a b c hab hbc
      obtain ⟨x1, x2, x3, x4⟩ := hab
      obtain ⟨y1, y2, y3, y4⟩ := hbc
      exact ⟨y1.trans x1, y2.trans x2, y3.trans x3, y4.trans x4⟩

/-- The sub-tick pass of a whole tick, at the processSubTick interface. -/
theorem processSubTick_rel (g : Game) (j : ℕ) (R : Player → Player → Prop)
    (hrefl : ∀ p, R p p)
    (hstep : ∀ (ps : List Player) (b e : Q) (p : Player),
      R p (subTickPlayer ps b e p)) :
    List.Forall₂ R g.players (processSubTick g j).1.players :=
  subTickGo_rel _ _ R hrefl (fun ps p => hstep ps _ _ p) _ _ _ _

/-- The sub-tick pass does not change the id list (tick interface). -/
theorem processSubTick_ids (g : Game) (j : ℕ) :
    ((processSubTick g j).1.players.map fun p => p.id) =
      g.players.map fun p => p.id :=
  subTickGo_ids _ _ _ _ _ _

/-- processSubTick keeps prevAlive. -/
theorem processSubTick_prevAlive (g : Game) (j : ℕ) :
    (processSubTick g j).1.prevAlive = g.prevAlive :=
  subTickGo_prevAlive _ _ _ _ _ _

/-- The alive list of a sub-tick pass has no duplicates when the player ids
are distinct. -/
theorem processSubTick_alive_nodup (g : Game) (j : ℕ)
    (hnd : (g.players.map fun p => p.id).Nodup) :
    (processSubTick g j).2.Nodup := by
  have h2 : (processSubTick g j).2 =
      (((g.players.drop 0).take g.players.length).filter fun p =>
        p.dead = false).map fun p => p.id := by
    have := subTickGo_alive
      (g.lastTickEndTimestamp + Q.ofInt (j : ℤ) * subTickMs)
      (g.lastTickEndTimestamp + Q.ofInt (j : ℤ) * subTickMs + subTickMs)
      g.players.length 0 g []
    simpa using this
  rw [h2]
  simp only [List.drop_zero, List.take_length]
  exact List.Nodup.sublist
    ((List.filter_sublist g.players).map fun p => p.id) hnd

/-- The sub-tick loop of a tick evolves each player by at most its fuel. -/
theorem tickLoop_evolve :
    ∀ (f j : ℕ) (g : Game),
      List.Forall₂ (EvolveN f) g.players (tickLoop f j g).1.players := by
  intro f
  induction f with
  | zero =>
    intro j g
    exact List.forall₂_same.mpr fun p _ => ⟨rfl, ⟨0, rfl⟩, by omega⟩
  | succ f ih =>
    intro j g
    have hpass : List.Forall₂ (EvolveN 1) g.players
        (processSubTick g j).1.players :=
      processSubTick_rel g j (EvolveN 1)
        (fun p => ⟨rfl, ⟨0, rfl⟩, by omega⟩)
        (fun ps b e p => (subTickPlayer_evolve ps b e p).1)
    unfold tickLoop
    dsimp only
    split
    · have haw := awardWinners_fields
        (if (processSubTick g j).2.length = 1 then (processSubTick g j).2
         else (processSubTick g j).1.prevAlive)
        { (processSubTick g j).1 with playing := false }
      refine forall₂_comp ?_ hpass haw
      intro a b c hab hbc
      obtain ⟨hi1, ⟨n1, hq1⟩, hl1⟩ := hab
      exact ⟨hbc.1.trans hi1, ⟨n1, by rw [hbc.2.1, hq1]⟩,
        by rw [hbc.2.2.1]; omega⟩
    · have hrec := ih (j + 1)
        { (processSubTick g j).1 with prevAlive := (processSubTick g j).2 }
      refine forall₂_comp ?_ hpass hrec
      intro a b c hab hbc
      obtain ⟨hi1, ⟨n1, hq1⟩, hl1⟩ := hab
      obtain ⟨hi2, ⟨n2, hq2⟩, hl2⟩ := hbc
      exact ⟨hi2.trans hi1, ⟨n1 + n2, by rw [hq2, hq1, List.drop_drop]⟩,
        by omega⟩

/-- C8, amended: a tick never reorders, injects into, or selectively edits
a player's input queue — each player's queue after a playing tick is a
suffix of its queue before it (only a prefix is consumed or dropped), and
at most SUB_TICK_RATE segments are added.  No bound on the remaining stale
entries holds: entries whose direction equals the current direction or its
opposite are skipped by the admission scan and can accumulate without
limit. -/
theorem C8_amended (g : Game) (now : Q) (hp : g.playing = true) :
    List.Forall₂ (EvolveN subTickRateN) g.players
      (gameLoop g now).1.players := by
  unfold gameLoop
  rw [if_neg (by simp [hp])]
  dsimp only
  refine forall₂_comp ?_ (tickLoop_evolve subTickRateN 0 g)
    (sendGo_rel (fun p p' => p'.id = p.id ∧
        p'.pendingDirectionInputs = p.pendingDirectionInputs ∧
        p'.segments = p.segments)
      (fun p => ⟨rfl, rfl, rfl⟩) (fun p l => ⟨rfl, rfl, rfl⟩) _ _ _ _)
  intro a b c hab hbc
  obtain ⟨hi1, ⟨n1, hq1⟩, hl1⟩ := hab
  obtain ⟨hi2, hq2, hs2⟩ := hbc
  exact ⟨hi2.trans hi1, ⟨n1, by rw [hq2, hq1]⟩, by rw [hs2]; exact hl1⟩

/-- C8 witness: the queue-suffix and bounded-growth theorem applied to one
tick of the concrete witness game. -/
theorem C8_amended_witness :
    wGame.playing = true ∧
    List.Forall₂ (EvolveN subTickRateN) wGame.players
      (gameLoop wGame (.ofInt 50)).1.players :=
  ⟨rfl, C8_amended wGame (.ofInt 50) rfl⟩

/-- Winner accounting does not touch the playing flag. -/
theorem awardWinners_playing :
    ∀ (ws : List String) (g : Game),
      (awardWinners g ws).1.playing = g.playing := by
  intro ws
  induction ws with
  | nil => intro g; rfl
  | cons w rest ih =>
    intro g
    unfold awardWinners
    cases hpw : playerById g w with
    | none => exact ih g
    | some p =>
      dsimp only
      exact ih _

/-- The send loop does not touch the playing flag. -/
theorem sendGo_playing :
    ∀ (n i : ℕ) (g : Game) (evs : List Ev),
      (sendGo n i g evs).1.playing = g.playing := by
  intro n
  induction n with
  | zero => intro i g evs; rfl
  | succ n ih =>
    intro i g evs
    unfold sendGo
    cases g.players.get? i with
    | none => rfl
    | some p =>
      dsimp only
      rw [ih]

/-- When the sub-tick loop returns a non-empty winner list, it stopped the
round. -/
theorem tickLoop_winners_playing :
    ∀ (f j : ℕ) (g : Game), (tickLoop f j g).2.2 ≠ [] →
      (tickLoop f j g).1.playing = false := by
  intro f
  induction f with
  | zero => intro j g h; exact absurd rfl h
  | succ f ih =>
    intro j g h
    unfold tickLoop at h ⊢
    dsimp only at h ⊢
    by_cases hc : (processSubTick g j).2.length ≤ 1
    · rw [if_pos hc]
      dsimp only
      show (awardWinners _ _).1.playing = false
      rw [awardWinners_playing]
    · rw [if_neg hc] at h ⊢
      exact ih (j + 1) _ h

/-- The sub-tick loop with winner accounting changes a player's score by
exactly the winner indicator of the winner list it returns. -/
theorem tickLoop_score :
    ∀ (f j : ℕ) (g : Game),
      (g.players.map fun p => p.id).Nodup → g.prevAlive.Nodup →
      List.Forall₂ (fun p p' => p'.id = p.id ∧
        p'.score = p.score + if p.id ∈ (tickLoop f j g).2.2 then 1 else 0)
        g.players (tickLoop f j g).1.players := by
  intro f
  induction f with
  | zero =>
    intro j g _ _
    refine List.forall₂_same.mpr fun p _ => ⟨rfl, ?_⟩
    show p.score = p.score + if p.id ∈ ([] : List String) then 1 else 0
    simp
  | succ f ih =>
    intro j g hnd hpa
    have hpass : List.Forall₂ (fun p p' => p'.id = p.id ∧
        p'.score = p.score) g.players (processSubTick g j).1.players :=
      processSubTick_rel g j _ (fun p => ⟨rfl, rfl⟩)
        (fun ps b e p => ⟨(subTickPlayer_evolve ps b e p).2.1,
          (subTickPlayer_evolve ps b e p).2.2⟩)
    have hnd1 : ((processSubTick g j).1.players.map fun p => p.id).Nodup := by
      rw [processSubTick_ids]
      exact hnd
    unfold tickLoop
    dsimp only
    split
    · have hwnd : (if (processSubTick g j).2.length = 1
          then (processSubTick g j).2
          else (processSubTick g j).1.prevAlive).Nodup := by
        split
        · exact processSubTick_alive_nodup g j hnd
        · rw [processSubTick_prevAlive]
          exact hpa
      obtain ⟨a1, _, _⟩ := awardWinners_spec
        (if (processSubTick g j).2.length = 1 then (processSubTick g j).2
         else (processSubTick g j).1.prevAlive)
        { (processSubTick g j).1 with playing := false } hnd1 hwnd
      have haw := forall₂_of_map_eq (fun p => (p.id, p.score))
        (fun p => (p.id, p.score +
          if p.id ∈ (if (processSubTick g j).2.length = 1
            then (processSubTick g j).2
            else (processSubTick g j).1.prevAlive) then 1 else 0))
        (processSubTick g j).1.players _ a1
      refine forall₂_comp ?_ hpass haw
      intro a b c hab hbc
      rw [Prod.mk.injEq] at hbc
      obtain ⟨hid, hsc⟩ := hbc
      refine ⟨hid.trans hab.1, ?_⟩
      rw [hsc, hab.2, hab.1]
    · have hrec := ih (j + 1)
        { (processSubTick g j).1 with prevAlive := (processSubTick g j).2 }
        hnd1 (processSubTick_alive_nodup g j hnd)
      refine forall₂_comp ?_ hpass hrec
      intro a b c hab hbc
      refine ⟨hbc.1.trans hab.1, ?_⟩
      rw [hbc.2, hab.2, hab.1]

/-- A whole tick changes a player's score by exactly the winner indicator
of the tick's winner list. -/
theorem gameLoop_score (g : Game) (now : Q)
    (hnd : (g.players.map fun p => p.id).Nodup) (hpa : g.prevAlive.Nodup) :
    List.Forall₂ (fun p p' => p'.id = p.id ∧
      p'.score = p.score + if p.id ∈ tickWinners g then 1 else 0)
      g.players (gameLoop g now).1.players := by
  unfold gameLoop
  by_cases hpl : g.playing = false
  · rw [if_pos hpl]
    have hwn : tickWinners g = [] := by
      unfold tickWinners
      rw [if_neg (by simp [hpl])]
    rw [hwn]
    refine (idleGo_rel (fun p p' => p'.id = p.id ∧ p'.score = p.score)
      (fun p => ⟨rfl, rfl⟩) (fun p l => ⟨rfl, rfl⟩) _ _ _ _).imp ?_
    intro a b hab
    refine ⟨hab.1, ?_⟩
    rw [hab.2]
    simp
  · rw [if_neg hpl]
    dsimp only
    have hwn : tickWinners g = (tickLoop subTickRateN 0 g).2.2 := by
      unfold tickWinners
      rw [if_pos (by revert hpl; cases g.playing <;> simp)]
    rw [hwn]
    refine forall₂_comp ?_ (tickLoop_score subTickRateN 0 g hnd hpa)
      (sendGo_rel (fun p p' => p'.id = p.id ∧ p'.score = p.score)
        (fun p => ⟨rfl, rfl⟩) (fun p l => ⟨rfl, rfl⟩) _ _ _ _)
    intro a b c hab hbc
    refine ⟨hbc.1.trans hab.1, ?_⟩
    rw [hbc.2, hab.2]

/-- Per-operation score evolution: every surviving player's score is
unchanged or incremented by exactly 1 as a member of a tick's winner list,
and any other player is a fresh creation with score 0. -/
theorem scoreMono_op (g : Game) (op : Op)
    (hnd : (g.players.map fun p => p.id).Nodup)
    (hpa : g.prevAlive.Nodup) :
    ∀ p' ∈ (applyOp g op).1.players,
      (∃ p ∈ g.players, p'.id = p.id ∧
        (p'.score = p.score ∨
         (p'.score = p.score + 1 ∧ isTickOp op = true ∧
          p'.id ∈ tickWinners g))) ∨
      p'.score = 0 := by
  cases op with
  | tick now =>
    intro p' hp'
    rcases forall₂_mem_right (gameLoop_score g now hnd hpa) p' hp' with
      ⟨p, hp, hid, hsc⟩
    by_cases hm : p.id ∈ tickWinners g
    · rw [if_pos hm] at hsc
      exact Or.inl ⟨p, hp, hid, Or.inr ⟨hsc, rfl, by rw [hid]; exact hm⟩⟩
    · rw [if_neg hm] at hsc
      exact Or.inl ⟨p, hp, hid, Or.inl (by omega)⟩
  | input id d now =>
    intro p' hp'
    left
    unfold applyOp processInput at hp'
    dsimp only at hp'
    cases hpb : playerById g id with
    | none =>
      rw [hpb] at hp'
      exact ⟨p', hp', rfl, Or.inl rfl⟩
    | some p0 =>
      rw [hpb] at hp'
      dsimp only at hp'
      by_cases hpl : g.playing = false
      · rw [if_pos hpl] at hp'
        exact ⟨p', hp', rfl, Or.inl rfl⟩
      · rw [if_neg hpl] at hp'
        by_cases hpd : p0.dead = true
        · rw [if_pos hpd] at hp'
          exact ⟨p', hp', rfl, Or.inl rfl⟩
        · rw [if_neg hpd] at hp'
          dsimp only at hp'
          rcases List.mem_map.mp hp' with ⟨q, hq, rfl⟩
          refine ⟨q, hq, ?_, Or.inl ?_⟩
          · by_cases h : q.id = id <;> simp [h]
          · by_cases h : q.id = id <;> simp [h]
  | redrawReq id =>
    intro p' hp'
    left
    unfold applyOp redraw at hp'
    dsimp only at hp'
    by_cases hn : (playerById g id).isNone = true
    · rw [if_pos hn] at hp'
      exact ⟨p', hp', rfl, Or.inl rfl⟩
    · rw [if_neg hn] at hp'
      dsimp only at hp'
      rcases List.mem_map.mp hp' with ⟨q, hq, rfl⟩
      refine ⟨q, hq, ?_, Or.inl ?_⟩
      · by_cases h : q.id = id <;> simp [h]
      · by_cases h : q.id = id <;> simp [h]
  | start spawn =>
    intro p' hp'
    left
    unfold applyOp startRound at hp'
    dsimp only at hp'
    by_cases hc : g.playing = true ∨ g.players.length < 2
    · rw [if_pos hc] at hp'
      exact ⟨p', hp', rfl, Or.inl rfl⟩
    · rw [if_neg hc] at hp'
      dsimp only at hp'
      rcases List.mem_map.mp hp' with ⟨q, hq, rfl⟩
      exact ⟨q, hq, rfl, Or.inl rfl⟩
  | join id name color =>
    intro p' hp'
    unfold applyOp addPlayer handshake at hp'
    dsimp only at hp'
    by_cases hn : (playerById g id).isNone = true
    · rw [if_pos hn] at hp'
      dsimp only at hp'
      rcases List.mem_map.mp hp' with ⟨q, hq, rfl⟩
      rcases List.mem_append.mp hq with hq' | hq'
      · refine Or.inl ⟨q, hq', ?_, Or.inl ?_⟩
        · by_cases h : q.id = id <;> simp [h]
        · by_cases h : q.id = id <;> simp [h]
      · right
        have hq0 : q.score = 0 := by
          rcases List.mem_singleton.mp hq' with rfl
          rfl
        by_cases h : q.id = id <;> simp [h, hq0]
    · rw [if_neg hn] at hp'
      dsimp only at hp'
      rcases List.mem_map.mp hp' with ⟨q, hq, rfl⟩
      unfold redraw at hq
      by_cases hn2 : (playerById g id).isNone = true
      · exact absurd hn2 hn
      · rw [if_neg hn2] at hq
        dsimp only at hq
        rcases List.mem_map.mp hq with ⟨q0, hq0, rfl⟩
        refine Or.inl ⟨q0, hq0, ?_, Or.inl ?_⟩
        · by_cases h : q0.id = id <;> simp [h]
        · by_cases h : q0.id = id <;> simp [h]
  | leave id =>
    intro p' hp'
    left
    unfold applyOp removePlayer at hp'
    dsimp only at hp'
    by_cases hn : (playerById g id).isNone = true
    · rw [if_pos hn] at hp'
      exact ⟨p', hp', rfl, Or.inl rfl⟩
    · rw [if_neg hn] at hp'
      dsimp only at hp'
      exact ⟨p', List.mem_of_mem_filter hp', rfl, Or.inl rfl⟩

/-- C10: scores are monotone and attributed — 0 at creation, preserved by
every non-tick operation (round start and respawn, input processing, death,
redraw, reconnect handling), and changed only by an increment of exactly 1
applied to the members of the winner list of a tick; whenever a tick awards
a non-empty winner list, it also stops the round, so increments happen only
at round end. -/
theorem C10_score_monotone (g : Game) (op : Op)
    (hnd : (g.players.map fun p => p.id).Nodup)
    (hpa : g.prevAlive.Nodup) :
    (∀ p' ∈ (applyOp g op).1.players,
      (∃ p ∈ g.players, p'.id = p.id ∧
        (p'.score = p.score ∨
         (p'.score = p.score + 1 ∧ isTickOp op = true ∧
          p'.id ∈ tickWinners g))) ∨
      p'.score = 0) ∧
    (isTickOp op = true → tickWinners g ≠ [] →
      (applyOp g op).1.playing = false) := by
  refine ⟨scoreMono_op g op hnd hpa, ?_⟩
  intro hop hw
  cases op with
  | tick now =>
    have hpl : g.playing = true := by
      by_contra hc
      unfold tickWinners at hw
      rw [if_neg hc] at hw
      exact hw rfl
    show (gameLoop g now).1.playing = false
    unfold gameLoop
    rw [if_neg (by simp [hpl])]
    dsimp only
    show (sendGo _ _ _ _).1.playing = false
    rw [sendGo_playing]
    apply tickLoop_winners_playing
    unfold tickWinners at hw
    rw [if_pos hpl] at hw
    exact hw
  | input id d now => simp [isTickOp] at hop
  | redrawReq id => simp [isTickOp] at hop
  | start spawn => simp [isTickOp] at hop
  | join id name color => simp [isTickOp] at hop
  | leave id => simp [isTickOp] at hop

/-- C10 witness: the score monotonicity and attribution theorem applied to
one tick of the concrete witness game. -/
theorem C10_witness :
    ((wGame.players.map fun p => p.id).Nodup) ∧
    wGame.prevAlive.Nodup ∧
    ((∀ p' ∈ (applyOp wGame (.tick (.ofInt 50))).1.players,
      (∃ p ∈ wGame.players, p'.id = p.id ∧
        (p'.score = p.score ∨
         (p'.score = p.score + 1 ∧ isTickOp (.tick (.ofInt 50)) = true ∧
          p'.id ∈ tickWinners wGame))) ∨
      p'.score = 0) ∧
    (isTickOp (.tick (.ofInt 50)) = true → tickWinners wGame ≠ [] →
      (applyOp wGame (.tick (.ofInt 50))).1.playing = false)) :=
  ⟨of_decide_eq_true (by rfl), of_decide_eq_true (by rfl),
    C10_score_monotone wGame (.tick (.ofInt 50))
      (of_decide_eq_true (by rfl)) (of_decide_eq_true (by rfl))⟩

/-! Geometric invariant machinery (C3, C5). -/

/-- Value equality is reflexive. -/
theorem qeqv_refl (a : Q) : Q.Eqv a a := by
  rw [Q.eqv_iff]

/-- Value equality is transitive. -/
theorem qeqv_trans {a b c : Q} (h1 : Q.Eqv a b) (h2 : Q.Eqv b c) :
    Q.Eqv a c := by
  rw [Q.eqv_iff] at h1 h2 ⊢
  exact h1.trans h2

/-- Shift by a subtraction: (a - b) - a has value -b. -/
theorem qeqv_shift_sub (a b : Q) : Q.Eqv ((a - b) - a) (-b) := by
  rw [Q.eqv_iff, Q.val_sub, Q.val_sub, Q.val_neg]
  ring

/-- Shift by an addition: (a + b) - a has value b. -/
theorem qeqv_shift_add (a b : Q) : Q.Eqv ((a + b) - a) b := by
  rw [Q.eqv_iff, Q.val_sub, Q.val_add]
  ring

/-- Shift by 1·b: (a - 1·b) - a has value -b. -/
theorem qeqv_shift_sub_one (a b : Q) :
    Q.Eqv ((a - Q.ofInt 1 * b) - a) (-b) := by
  rw [Q.eqv_iff, Q.val_sub, Q.val_sub, Q.val_mul, Q.val_ofInt, Q.val_neg]
  push_cast
  ring

/-- Shift by (-1)·b: (a - (-1)·b) - a has value b. -/
theorem qeqv_shift_sub_negone (a b : Q) :
    Q.Eqv ((a - Q.ofInt (-1) * b) - a) b := by
  rw [Q.eqv_iff, Q.val_sub, Q.val_sub, Q.val_mul, Q.val_ofInt]
  push_cast
  ring

/-- Adding 0·s does not change the value. -/
theorem qeqv_add_zero_mul (a s : Q) : Q.Eqv a (a + Q.ofInt 0 * s) := by
  rw [Q.eqv_iff, Q.val_add, Q.val_mul, Q.val_ofInt]
  push_cast
  ring

/-- Retargeting the head's live end keeps the nub chain: the new head
starts where the old one did. -/
theorem chain_nub_retarget (segs : List Seg) (lastSeg : Seg) (pt : Pt)
    (hlast : segs.getLast? = some lastSeg)
    (h5 : List.Chain' pairNub segs) :
    List.Chain' pairNub (segs.dropLast ++ [⟨lastSeg.p1, pt⟩]) := by
  have hdecomp : segs.dropLast ++ [lastSeg] = segs :=
    List.dropLast_append_getLast? lastSeg hlast
  rw [← hdecomp] at h5
  rcases List.chain'_append.mp h5 with ⟨hA, _, hlink⟩
  refine List.chain'_append.mpr ⟨hA, List.chain'_singleton _, ?_⟩
  intro x hx y hy
  simp only [List.head?_cons, Option.mem_def, Option.some.injEq] at hy
  subst hy
  exact hlink x hx lastSeg (by simp)

/-- Appending the degenerate corner nub of addSegment preserves the
per-player geometric invariant and switches the travel axis. -/
theorem playerInv_push (d dold : Direction) (segs : List Seg)
    (lastSeg : Seg) (np : Pt)
    (hinv : PlayerInvP false dold segs)
    (hlast : segs.getLast? = some lastSeg)
    (haxis : dirVert d ≠ dirVert dold)
    (hnub : (Q.Eqv (np.x - lastSeg.p2.x) lineWidth ∨
             Q.Eqv (np.x - lastSeg.p2.x) (-lineWidth)) ∧
            (Q.Eqv (np.y - lastSeg.p2.y) lineWidth ∨
             Q.Eqv (np.y - lastSeg.p2.y) (-lineWidth))) :
    PlayerInvP false d (segs ++ [⟨np, np⟩]) := by
  obtain ⟨h1, h2, h3, h4, h5, h6, h7, h8⟩ := hinv
  have hdecomp : segs.dropLast ++ [lastSeg] = segs :=
    List.dropLast_append_getLast? lastSeg hlast
  refine ⟨?_, ?_, ?_, ?_, ?_, ?_, ?_, ?_⟩
  · intro _
    simp
  · intro _ s hs
    rw [List.getLast?_concat] at hs
    injection hs with hs
    subst hs
    unfold alignedDir
    split
    · exact qeqv_refl _
    · exact qeqv_refl _
  · rw [List.dropLast_concat]
    exact h4 rfl
  · intro _ s hs
    rcases List.mem_append.mp hs with hs | hs
    · exact h4 rfl s hs
    · rcases List.mem_singleton.mp hs with rfl
      exact Or.inl (qeqv_refl _)
  · refine List.chain'_append.mpr ⟨h5, List.chain'_singleton _, ?_⟩
    intro x hx y hy
    simp only [List.head?_cons, Option.mem_def, Option.some.injEq] at hy
    subst hy
    rw [Option.mem_def, hlast] at hx
    injection hx with hx
    subst hx
    exact hnub
  · rw [List.dropLast_concat]
    exact h7 rfl
  · intro _
    refine List.chain'_append.mpr ⟨h7 rfl, List.chain'_singleton _, ?_⟩
    intro x hx y hy
    simp only [List.head?_cons, Option.mem_def, Option.some.injEq] at hy
    subst hy
    constructor
    · intro hc
      exact hc.2.2 (qeqv_refl _)
    · intro hc
      exact hc.2.2 (qeqv_refl _)
  · intro _ a ha
    rw [List.dropLast_concat, hlast] at ha
    injection ha with ha
    subst ha
    have hal := h2 rfl lastSeg hlast
    unfold alignedDir at hal
    cases hdv : dirVert d with
    | true =>
      have hdold : dirVert dold = false := by
        revert haxis
        rw [hdv]
        cases dirVert dold <;> simp
      rw [hdold] at hal
      simp only [if_neg Bool.false_ne_true] at hal
      rw [if_pos rfl]
      intro hc
      exact hc.2 hal
    | false =>
      have hdold : dirVert dold = true := by
        revert haxis
        rw [hdv]
        cases dirVert dold <;> simp
      rw [hdold] at hal
      rw [if_pos rfl] at hal
      rw [if_neg Bool.false_ne_true]
      intro hc
      exact hc.2 hal

/-- addSegment preserves the per-player geometric invariant. -/
theorem addSegment_inv (p : Player) (d : Direction)
    (h : PlayerInvP p.dead p.direction p.segments) :
    PlayerInvP (addSegment p d).dead (addSegment p d).direction
      (addSegment p d).segments := by
  unfold addSegment
  split
  · exact h
  · rename_i hdead
    dsimp only
    split
    · exact h
    · rename_i hguard
      cases hlast : p.segments.getLast? with
      | none => exact h
      | some lastSeg =>
        dsimp only
        have hdf : p.dead = false := by
          simpa using hdead
        rw [hdf] at h
        show PlayerInvP p.dead d _
        rw [hdf]
        cases d with
        | up =>
          cases hdir : p.direction with
          | up =>
            rw [hdir] at hguard
            exact absurd (Or.inr (Or.inl ⟨rfl, of_decide_eq_true (by rfl)⟩))
              hguard
          | down =>
            rw [hdir] at hguard
            exact absurd (Or.inr (Or.inl ⟨rfl, of_decide_eq_true (by rfl)⟩))
              hguard
          | right =>
            rw [hdir] at h
            exact playerInv_push .up .right p.segments lastSeg _ h hlast
              (by simp [dirVert])
              ⟨Or.inr (qeqv_shift_sub_one _ _), Or.inl (qeqv_shift_add _ _)⟩
          | left =>
            rw [hdir] at h
            exact playerInv_push .up .left p.segments lastSeg _ h hlast
              (by simp [dirVert])
              ⟨Or.inl (qeqv_shift_sub_negone _ _),
               Or.inl (qeqv_shift_add _ _)⟩
        | down =>
          cases hdir : p.direction with
          | up =>
            rw [hdir] at hguard
            exact absurd
              (Or.inr (Or.inr (Or.inl ⟨rfl, of_decide_eq_true (by rfl)⟩)))
              hguard
          | down =>
            rw [hdir] at hguard
            exact absurd
              (Or.inr (Or.inr (Or.inl ⟨rfl, of_decide_eq_true (by rfl)⟩)))
              hguard
          | right =>
            rw [hdir] at h
            exact playerInv_push .down .right p.segments lastSeg _ h hlast
              (by simp [dirVert])
              ⟨Or.inr (qeqv_shift_sub_one _ _), Or.inr (qeqv_shift_sub _ _)⟩
          | left =>
            rw [hdir] at h
            exact playerInv_push .down .left p.segments lastSeg _ h hlast
              (by simp [dirVert])
              ⟨Or.inl (qeqv_shift_sub_negone _ _),
               Or.inr (qeqv_shift_sub _ _)⟩
        | right =>
          cases hdir : p.direction with
          | right =>
            rw [hdir] at hguard
            exact absurd (Or.inl ⟨rfl, of_decide_eq_true (by rfl)⟩) hguard
          | left =>
            rw [hdir] at hguard
            exact absurd (Or.inl ⟨rfl, of_decide_eq_true (by rfl)⟩) hguard
          | up =>
            rw [hdir] at h
            exact playerInv_push .right .up p.segments lastSeg _ h hlast
              (by simp [dirVert])
              ⟨Or.inl (qeqv_shift_add _ _), Or.inr (qeqv_shift_sub_one _ _)⟩
          | down =>
            rw [hdir] at h
            exact playerInv_push .right .down p.segments lastSeg _ h hlast
              (by simp [dirVert])
              ⟨Or.inl (qeqv_shift_add _ _),
               Or.inl (qeqv_shift_sub_negone _ _)⟩
        | left =>
          cases hdir : p.direction with
          | right =>
            rw [hdir] at hguard
            exact absurd
              (Or.inr (Or.inr (Or.inr ⟨rfl, of_decide_eq_true (by rfl)⟩)))
              hguard
          | left =>
            rw [hdir] at hguard
            exact absurd
              (Or.inr (Or.inr (Or.inr ⟨rfl, of_decide_eq_true (by rfl)⟩)))
              hguard
          | up =>
            rw [hdir] at h
            exact playerInv_push .left .up p.segments lastSeg _ h hlast
              (by simp [dirVert])
              ⟨Or.inr (qeqv_shift_sub _ _), Or.inr (qeqv_shift_sub_one _ _)⟩
          | down =>
            rw [hdir] at h
            exact playerInv_push .left .down p.segments lastSeg _ h hlast
              (by simp [dirVert])
              ⟨Or.inr (qeqv_shift_sub _ _),
               Or.inl (qeqv_shift_sub_negone _ _)⟩

/-- admitTurn preserves the per-player geometric invariant. -/
theorem admitTurn_inv (b e : Q) (p : Player)
    (h : PlayerInvP p.dead p.direction p.segments) :
    PlayerInvP (admitTurn b e p).dead (admitTurn b e p).direction
      (admitTurn b e p).segments := by
  unfold admitTurn
  cases p.pendingDirectionInputs.findIdx? (admissible p.direction b e) with
  | none => exact h
  | some i =>
    dsimp only
    exact addSegment_inv p _ h

/-- scanIdxs either leaves its state unchanged or raises the collision
flag. -/
theorem scanIdxs_cases (oldEnd : Pt) (slf : Bool) (hi : ℕ) (segs : List Seg) :
    ∀ (l : List ℕ) (st : Pt × Bool),
      scanIdxs oldEnd slf hi segs l st = st ∨
        (scanIdxs oldEnd slf hi segs l st).2 = true := by
  intro l
  induction l with
  | nil => intro st; exact Or.inl rfl
  | cons i rest ih =>
    intro st
    simp only [scanIdxs]
    split
    · exact ih st
    · split
      · exact Or.inr rfl
      · exact ih st

/-- The collision flag of scanIdxs is monotone. -/
theorem scanIdxs_mono (oldEnd : Pt) (slf : Bool) (hi : ℕ) (segs : List Seg) :
    ∀ (l : List ℕ) (st : Pt × Bool), st.2 = true →
      (scanIdxs oldEnd slf hi segs l st).2 = true := by
  intro l
  induction l with
  | nil => intro st h; exact h
  | cons i rest ih =>
    intro st h
    simp only [scanIdxs]
    split
    · exact ih st h
    · split
      · rfl
      · exact ih st h

/-- A fold whose step keeps the flag monotone keeps it monotone overall. -/
theorem foldl_flag_mono {α : Type} (f : Pt × Bool → α → Pt × Bool)
    (hm : ∀ st q, st.2 = true → (f st q).2 = true) :
    ∀ (l : List α) (st : Pt × Bool), st.2 = true →
      (l.foldl f st).2 = true := by
  intro l
  induction l with
  | nil => intro st h; exact h
  | cons q rest ih => intro st h; exact ih (f st q) (hm st q h)

/-- A fold whose every step either fixes the state or raises the flag
either fixes the state or raises the flag. -/
theorem foldl_flag_cases {α : Type} (f : Pt × Bool → α → Pt × Bool)
    (hc : ∀ st q, f st q = st ∨ (f st q).2 = true)
    (hm : ∀ st q, st.2 = true → (f st q).2 = true) :
    ∀ (l : List α) (st : Pt × Bool),
      l.foldl f st = st ∨ (l.foldl f st).2 = true := by
  intro l
  induction l with
  | nil => intro st; exact Or.inl rfl
  | cons q rest ih =>
    intro st
    rcases hc st q with h | h
    · rw [List.foldl_cons, h]
      exact ih st
    · exact Or.inr
        (by rw [List.foldl_cons]; exact foldl_flag_mono f hm rest (f st q) h)

/-- scanPlayers either leaves its state unchanged or raises the flag. -/
theorem scanPlayers_cases (ps : List Player) (p : Player)
    (fp : List (ℤ × List ℕ)) (cell : ℤ) (oldEnd : Pt) (hi : ℕ)
    (st : Pt × Bool) :
    scanPlayers ps p fp cell oldEnd hi st = st ∨
      (scanPlayers ps p fp cell oldEnd hi st).2 = true := by
  unfold scanPlayers
  exact foldl_flag_cases _
    (fun st q => scanIdxs_cases oldEnd _ hi _ _ st)
    (fun st q h => scanIdxs_mono oldEnd _ hi _ _ st h) ps st

/-- The collision flag of scanPlayers is monotone. -/
theorem scanPlayers_mono (ps : List Player) (p : Player)
    (fp : List (ℤ × List ℕ)) (cell : ℤ) (oldEnd : Pt) (hi : ℕ)
    (st : Pt × Bool) (h : st.2 = true) :
    (scanPlayers ps p fp cell oldEnd hi st).2 = true := by
  unfold scanPlayers
  exact foldl_flag_mono _
    (fun st q h => scanIdxs_mono oldEnd _ hi _ _ st h) ps st h

/-- The collision flag of scanCells is monotone. -/
theorem scanCells_flag_mono (ps : List Player) (p : Player) (oldEnd : Pt)
    (hi : ℕ) :
    ∀ (cells : List ℤ) (fp : List (ℤ × List ℕ)) (st : Pt × Bool),
      st.2 = true → (scanCells ps p oldEnd hi cells (fp, st)).2.2 = true := by
  intro cells
  induction cells with
  | nil => intro fp st h; exact h
  | cons cell rest ih =>
    intro fp st h
    simp only [scanCells]
    exact ih _ _ (scanPlayers_mono ps p (partAdd fp cell hi) cell oldEnd hi st h)

/-- When the collision flag comes back down, the whole scan left the travel
end and the flag untouched: the snapped end exists only together with the
death mark. -/
theorem scanCells_nodeath (ps : List Player) (p : Player) (oldEnd : Pt)
    (hi : ℕ) :
    ∀ (cells : List ℤ) (fp : List (ℤ × List ℕ)) (st : Pt × Bool),
      (scanCells ps p oldEnd hi cells (fp, st)).2.2 = false →
      (scanCells ps p oldEnd hi cells (fp, st)).2 = st := by
  intro cells
  induction cells with
  | nil => intro fp st _; rfl
  | cons cell rest ih =>
    intro fp st h
    simp only [scanCells] at h ⊢
    rcases scanPlayers_cases ps p (partAdd fp cell hi) cell oldEnd hi st
      with hc | hc
    · rw [hc] at h ⊢
      exact ih _ _ h
    · have hm := scanCells_flag_mono ps p oldEnd hi rest (partAdd fp cell hi)
        _ hc
      rw [hm] at h
      simp at h

/-- Marking the player dead while retargeting the head's live end keeps the
geometric invariant: only the unconditional conjuncts remain, and they
concern the old body and the unchanged start of the head. -/
theorem playerInv_dead_ext (d : Direction) (segs : List Seg) (lastSeg : Seg)
    (pt : Pt) (hinv : PlayerInvP false d segs)
    (hlast : segs.getLast? = some lastSeg) :
    PlayerInvP true d (segs.dropLast ++ [⟨lastSeg.p1, pt⟩]) := by
  obtain ⟨h1, h2, h3, h4, h5, h6, h7, h8⟩ := hinv
  refine ⟨?_, ?_, ?_, ?_, ?_, ?_, ?_, ?_⟩
  · intro hc; exact absurd hc (by simp)
  · intro hc; exact absurd hc (by simp)
  · rw [List.dropLast_concat]
    exact h3
  · intro hc; exact absurd hc (by simp)
  · exact chain_nub_retarget segs lastSeg pt hlast h5
  · rw [List.dropLast_concat]
    exact h6
  · intro hc; exact absurd hc (by simp)
  · intro hc; exact absurd hc (by simp)

/-- Retargeting the head's live end of a live player along the travel axis
keeps the geometric invariant. -/
theorem playerInv_alive_ext (d : Direction) (segs : List Seg) (lastSeg : Seg)
    (pt : Pt) (hinv : PlayerInvP false d segs)
    (hlast : segs.getLast? = some lastSeg)
    (hkeep : if dirVert d then Q.Eqv lastSeg.p2.x pt.x
             else Q.Eqv lastSeg.p2.y pt.y) :
    PlayerInvP false d (segs.dropLast ++ [⟨lastSeg.p1, pt⟩]) := by
  obtain ⟨h1, h2, h3, h4, h5, h6, h7, h8⟩ := hinv
  have hha : alignedDir d lastSeg := h2 rfl lastSeg hlast
  have hnew : alignedDir d (⟨lastSeg.p1, pt⟩ : Seg) := by
    unfold alignedDir at hha ⊢
    cases hdv : dirVert d with
    | false =>
      rw [hdv, if_neg Bool.false_ne_true] at hha hkeep
      rw [if_neg Bool.false_ne_true]
      exact qeqv_trans hha hkeep
    | true =>
      rw [hdv, if_pos rfl] at hha hkeep
      rw [if_pos rfl]
      exact qeqv_trans hha hkeep
  have haa : axisAligned (⟨lastSeg.p1, pt⟩ : Seg) := by
    unfold alignedDir at hnew
    unfold axisAligned
    cases hdv : dirVert d with
    | false =>
      rw [hdv, if_neg Bool.false_ne_true] at hnew
      exact Or.inr hnew
    | true =>
      rw [hdv, if_pos rfl] at hnew
      exact Or.inl hnew
  have hperpnew : ∀ x, segs.dropLast.getLast? = some x →
      pairPerp x ⟨lastSeg.p1, pt⟩ := by
    intro x hx
    have hpp := h8 rfl x hx
    unfold alignedDir at hnew
    constructor
    · intro hc
      obtain ⟨hcx, hcn⟩ := hc
      cases hdv : dirVert d with
      | false =>
        rw [hdv, if_neg Bool.false_ne_true] at hnew
        exact hcn.2 hnew
      | true =>
        rw [hdv, if_pos rfl] at hpp
        exact hpp hcx
    · intro hc
      obtain ⟨hcx, hcn⟩ := hc
      cases hdv : dirVert d with
      | false =>
        rw [hdv, if_neg Bool.false_ne_true] at hpp
        exact hpp hcx
      | true =>
        rw [hdv, if_pos rfl] at hnew
        exact hcn.2 hnew
  refine ⟨?_, ?_, ?_, ?_, ?_, ?_, ?_, ?_⟩
  · intro _
    simp
  · intro _ s hs
    rw [List.getLast?_concat] at hs
    injection hs with hs
    rw [← hs]
    exact hnew
  · rw [List.dropLast_concat]
    exact h3
  · intro _ s hs
    rcases List.mem_append.mp hs with h | h
    · exact h3 s h
    · have hsn := List.mem_singleton.mp h
      subst hsn
      exact haa
  · exact chain_nub_retarget segs lastSeg pt hlast h5
  · rw [List.dropLast_concat]
    exact h6
  · intro _
    refine List.chain'_append.mpr ⟨h6, List.chain'_singleton _, ?_⟩
    intro x hx y hy
    simp only [List.head?_cons, Option.mem_def, Option.some.injEq] at hy
    subst hy
    exact hperpnew x hx
  · intro _ a ha
    rw [List.dropLast_concat] at ha
    exact h8 rfl a ha

/-- The in-field extension branch keeps the geometric invariant: either the
scan raises no flag and the head grows along its axis, or the player is
marked dead and the head may be snapped anywhere. -/
theorem playerInv_scan_ext (ps : List Player) (p : Player) (d : Direction)
    (segs : List Seg) (lastSeg : Seg) (newEnd : Pt) (hi : ℕ)
    (cells : List ℤ) (fp : List (ℤ × List ℕ))
    (hinv : PlayerInvP false d segs)
    (hlast : segs.getLast? = some lastSeg)
    (hkeep : if dirVert d then Q.Eqv lastSeg.p2.x newEnd.x
             else Q.Eqv lastSeg.p2.y newEnd.y) :
    PlayerInvP (scanCells ps p lastSeg.p2 hi cells (fp, newEnd, false)).2.2 d
      (segs.dropLast ++
        [⟨lastSeg.p1,
          (scanCells ps p lastSeg.p2 hi cells (fp, newEnd, false)).2.1⟩]) := by
  cases hflag : (scanCells ps p lastSeg.p2 hi cells (fp, newEnd, false)).2.2 with
  | true => exact playerInv_dead_ext d segs lastSeg _ hinv hlast
  | false =>
    have h2 := scanCells_nodeath ps p lastSeg.p2 hi cells fp (newEnd, false)
      hflag
    rw [h2]
    exact playerInv_alive_ext d segs lastSeg newEnd hinv hlast hkeep

/-- extendLastSegment preserves the per-player geometric invariant. -/
theorem extend_inv (ps : List Player) (dur : Q) (p : Player)
    (h : PlayerInvP p.dead p.direction p.segments) :
    PlayerInvP (extendLastSegment ps dur p).dead
      (extendLastSegment ps dur p).direction
      (extendLastSegment ps dur p).segments := by
  cases hd : p.dead with
  | true =>
    have he : extendLastSegment ps dur p = p := by
      unfold extendLastSegment
      rw [if_pos hd]
    rw [he]
    exact h
  | false =>
    have hFalse : PlayerInvP false p.direction p.segments := by
      rw [hd] at h
      exact h
    cases hlast : p.segments.getLast? with
    | none =>
      have he : extendLastSegment ps dur p = p := by
        unfold extendLastSegment
        rw [if_neg (by simp [hd]), hlast]
      rw [he]
      exact h
    | some lastSeg =>
      have hkeep : ∀ sl : Q,
          if dirVert p.direction then
            Q.Eqv lastSeg.p2.x
              (lastSeg.p2.x + (directionToVector p.direction).1 * sl)
          else
            Q.Eqv lastSeg.p2.y
              (lastSeg.p2.y + (directionToVector p.direction).2 * sl) := by
        intro sl
        cases hpd : p.direction with
        | up =>
          rw [show dirVert Direction.up = true from rfl, if_pos rfl]
          exact qeqv_add_zero_mul _ _
        | down =>
          rw [show dirVert Direction.down = true from rfl, if_pos rfl]
          exact qeqv_add_zero_mul _ _
        | right =>
          rw [show dirVert Direction.right = false from rfl,
            if_neg Bool.false_ne_true]
          exact qeqv_add_zero_mul _ _
        | left =>
          rw [show dirVert Direction.left = false from rfl,
            if_neg Bool.false_ne_true]
          exact qeqv_add_zero_mul _ _
      unfold extendLastSegment
      rw [if_neg (by simp [hd]), hlast]
      dsimp only
      split
      · exact playerInv_dead_ext p.direction p.segments lastSeg _ hFalse hlast
      · exact playerInv_scan_ext ps p p.direction p.segments lastSeg _ _ _ _
          hFalse hlast (hkeep _)

/-- Writing a player that satisfies the per-player invariant back into an
invariant state keeps the state invariant. -/
theorem inv_set (g : Game) (i : ℕ) (q : Player)
    (hg : Inv g) (hq : PlayerInvP q.dead q.direction q.segments) :
    Inv { g with players := g.players.set i q } := by
  intro r hr
  rcases List.mem_or_eq_of_mem_set hr with h | h
  · exact hg r h
  · subst h
    exact hq

/-- The sub-tick player loop preserves the geometric invariant. -/
theorem subTickGo_inv (b e : Q) :
    ∀ (n i : ℕ) (g : Game) (alive : List String),
      Inv g → Inv (subTickGo b e n i g alive).1 := by
  intro n
  induction n with
  | zero => intro i g alive hg; exact hg
  | succ n ih =>
    intro i g alive hg
    unfold subTickGo
    cases hgp : g.players.get? i with
    | none => exact hg
    | some p =>
      dsimp only
      split
      · exact ih (i + 1) g alive hg
      · have hp : p ∈ g.players := List.get?_mem hgp
        have h1 : PlayerInvP (admitTurn b e p).dead (admitTurn b e p).direction
            (admitTurn b e p).segments := admitTurn_inv b e p (hg p hp)
        refine ih (i + 1) _ _ ?_
        exact inv_set _ i _ (inv_set g i _ hg h1)
          (extend_inv _ subTickMs _ h1)

/-- One sub-tick preserves the geometric invariant. -/
theorem processSubTick_inv (g : Game) (j : ℕ) (hg : Inv g) :
    Inv (processSubTick g j).1 := by
  unfold processSubTick
  exact subTickGo_inv _ _ _ _ g _ hg

/-- Winner accounting preserves the geometric invariant: it touches only
scores. -/
theorem awardWinners_inv :
    ∀ (ids : List String) (g : Game), Inv g → Inv (awardWinners g ids).1 := by
  intro ids
  induction ids with
  | nil => intro g hg; exact hg
  | cons id rest ih =>
    intro g hg
    unfold awardWinners
    cases playerById g id with
    | none => exact ih g hg
    | some p =>
      dsimp only
      apply ih
      intro r hr
      rcases List.mem_map.mp hr with ⟨q, hq, hfq⟩
      rw [← hfq]
      split
      · exact hg q hq
      · exact hg q hq

/-- The sub-tick loop with winner accounting preserves the geometric
invariant. -/
theorem tickLoop_inv :
    ∀ (f j : ℕ) (g : Game), Inv g → Inv (tickLoop f j g).1 := by
  intro f
  induction f with
  | zero => intro j g hg; exact hg
  | succ f ih =>
    intro j g hg
    unfold tickLoop
    dsimp only
    split
    · intro q hq
      refine awardWinners_inv _ _ ?_ q hq
      intro r hr
      exact processSubTick_inv g j hg r hr
    · exact ih (j + 1) _ (fun q hq => processSubTick_inv g j hg q hq)

/-- The send loop preserves the geometric invariant: it touches only
pendingRedraw and the watermarks. -/
theorem sendGo_inv :
    ∀ (n i : ℕ) (g : Game) (evs : List Ev),
      Inv g → Inv (sendGo n i g evs).1 := by
  intro n
  induction n with
  | zero => intro i g evs hg; exact hg
  | succ n ih =>
    intro i g evs hg
    unfold sendGo
    cases hgp : g.players.get? i with
    | none => exact hg
    | some p =>
      dsimp only
      have hp : p ∈ g.players := List.get?_mem hgp
      have h0 : PlayerInvP p.dead p.direction p.segments := hg p hp
      apply ih
      exact inv_set
        { g with players := g.players.set i { p with pendingRedraw := false } }
        i
        (sendGameState (g.players.set i { p with pendingRedraw := false })
          { p with pendingRedraw := false }).1
        (inv_set g i { p with pendingRedraw := false } hg h0) h0

/-- The idle-tick loop preserves the geometric invariant. -/
theorem idleGo_inv :
    ∀ (n i : ℕ) (g : Game) (evs : List Ev),
      Inv g → Inv (idleGo n i g evs).1 := by
  intro n
  induction n with
  | zero => intro i g evs hg; exact hg
  | succ n ih =>
    intro i g evs hg
    unfold idleGo
    cases hgp : g.players.get? i with
    | none => exact hg
    | some p =>
      dsimp only
      split
      · have hp : p ∈ g.players := List.get?_mem hgp
        have h0 : PlayerInvP p.dead p.direction p.segments := hg p hp
        apply ih
        exact inv_set
          { g with players := g.players.set i { p with pendingRedraw := false } }
          i
          (sendGameState (g.players.set i { p with pendingRedraw := false })
            { p with pendingRedraw := false }).1
          (inv_set g i { p with pendingRedraw := false } hg h0) h0
      · exact ih (i + 1) g evs hg

/-- A full scheduler tick preserves the geometric invariant. -/
theorem gameLoop_inv (g : Game) (now : Q) (hg : Inv g) :
    Inv (gameLoop g now).1 := by
  unfold gameLoop
  split
  · exact idleGo_inv _ _ g _ hg
  · intro q hq
    exact sendGo_inv _ _ _ _ (tickLoop_inv _ _ _ hg) q hq

/-- The degenerate seed segment of a respawn satisfies the per-player
invariant in any direction. -/
theorem playerInv_spawn (d : Direction) (pt : Pt) :
    PlayerInvP false d [⟨pt, pt⟩] := by
  have hal : alignedDir d (⟨pt, pt⟩ : Seg) := by
    unfold alignedDir
    cases hdv : dirVert d with
    | false =>
      rw [if_neg Bool.false_ne_true]
      exact qeqv_refl _
    | true =>
      rw [if_pos rfl]
      exact qeqv_refl _
  refine ⟨fun _ => by simp, ?_, ?_, ?_, ?_, ?_, ?_, ?_⟩
  · intro _ s hs
    simp only [List.getLast?_singleton, Option.some.injEq] at hs
    rw [← hs]
    exact hal
  · intro s hs
    simp at hs
  · intro _ s hs
    have hsn := List.mem_singleton.mp hs
    subst hsn
    exact Or.inl (qeqv_refl _)
  · exact List.chain'_singleton _
  · simp
  · intro _
    exact List.chain'_singleton _
  · intro _ a ha
    simp at ha

/-- A freshly created (dead, empty) player satisfies the per-player
invariant. -/
theorem playerInv_new : PlayerInvP true .up [] := by
  refine ⟨?_, ?_, ?_, ?_, ?_, ?_, ?_, ?_⟩
  · intro hc; exact absurd hc (by simp)
  · intro hc; exact absurd hc (by simp)
  · intro s hs; simp at hs
  · intro hc; exact absurd hc (by simp)
  · simp
  · simp
  · intro hc; exact absurd hc (by simp)
  · intro hc; exact absurd hc (by simp)

/-- Starting a round preserves the geometric invariant: every player is
respawned with a degenerate seed segment. -/
theorem startRound_inv (g : Game) (spawn : String → Pt × Direction)
    (hg : Inv g) : Inv (startRound g spawn).1 := by
  unfold startRound
  split
  · exact hg
  · intro q hq
    dsimp only at hq
    rcases List.mem_map.mp hq with ⟨p, hp, hfp⟩
    rw [← hfp]
    exact playerInv_spawn _ _

/-- A redraw request preserves the geometric invariant: it touches only the
watermarks and pendingRedraw. -/
theorem redraw_inv (g : Game) (id : String) (hg : Inv g) :
    Inv (redraw g id) := by
  unfold redraw
  split
  · exact hg
  · intro q hq
    dsimp only at hq
    rcases List.mem_map.mp hq with ⟨p, hp, hfp⟩
    rw [← hfp]
    split
    · exact hg p hp
    · exact hg p hp

/-- The join handshake preserves the geometric invariant: it touches only
the joiner's watermarks. -/
theorem handshake_inv (g : Game) (id : String) (hg : Inv g) :
    Inv (handshake g id).1 := by
  intro q hq
  unfold handshake at hq
  dsimp only at hq
  rcases List.mem_map.mp hq with ⟨p, hp, hfp⟩
  rw [← hfp]
  split
  · exact hg p hp
  · exact hg p hp

/-- Joining preserves the geometric invariant: a new player starts dead and
empty, and a rejoin only redraws. -/
theorem addPlayer_inv (g : Game) (id name : String) (color : Q × Q × Q)
    (hg : Inv g) : Inv (addPlayer g id name color).1 := by
  unfold addPlayer
  split
  · intro q hq
    refine handshake_inv _ id ?_ q hq
    intro r hr
    rcases List.mem_append.mp hr with h | h
    · exact hg r h
    · have hrn := List.mem_singleton.mp h
      subst hrn
      exact playerInv_new
  · exact handshake_inv _ id (redraw_inv g id hg)

/-- Leaving preserves the geometric invariant: the player list only
shrinks. -/
theorem removePlayer_inv (g : Game) (id : String) (hg : Inv g) :
    Inv (removePlayer g id).1 := by
  unfold removePlayer
  split
  · exact hg
  · intro q hq
    exact hg q (List.mem_of_mem_filter hq)

/-- Processing an input preserves the geometric invariant: it touches only
the input queue. -/
theorem processInput_inv (g : Game) (id : String) (d : Direction) (now : Q)
    (hg : Inv g) : Inv (processInput g id d now) := by
  unfold processInput
  cases playerById g id with
  | none => exact hg
  | some p =>
    dsimp only
    split
    · exact hg
    · split
      · exact hg
      · intro q hq
        rcases List.mem_map.mp hq with ⟨r, hr, hfr⟩
        rw [← hfr]
        split
        · exact hg r hr
        · exact hg r hr

/-- Every environment step preserves the geometric invariant. -/
theorem step_inv {g g2 : Game} (h : Step g g2) (hg : Inv g) : Inv g2 := by
  obtain ⟨op, hv, he⟩ := h
  subst he
  cases op with
  | tick now => exact gameLoop_inv g now hg
  | input id d now => exact processInput_inv g id d now hg
  | redrawReq id => exact redraw_inv g id hg
  | start spawn => exact startRound_inv g spawn hg
  | join id name color => exact addPlayer_inv g id name color hg
  | leave id => exact removePlayer_inv g id hg

/-- Every reachable engine state satisfies the geometric invariant. -/
theorem reachable_inv {g : Game} (h : Reachable g) : Inv g := by
  unfold Reachable at h
  induction h with
  | refl => intro p hp; simp [initGame] at hp
  | tail hab hbc ih => exact step_inv hbc ih

/-! Counterexample theorems. -/

/-- C3, counterexample: in the reachable state c3g4 (two players joined, a
round started with A at (0, 0.05) heading right, A turned up during the
first sub-tick of the first tick), A's two consecutive segments do not
share an endpoint: the new head starts at the old end shifted by the corner
nub (-lineWidth, +lineWidth).  This refutes the claimed invariant that
consecutive segments of one player always meet at a shared endpoint. -/
theorem C3_counterexample :
    Reachable c3g4 ∧
    ¬ ∀ p ∈ c3g4.players, List.Chain' pairShared p.segments :=
  ⟨c3g4_reachable, of_decide_eq_true (by rfl)⟩

/-- C5, counterexample: in the reachable state c5g3, player A is dead and
its only segment runs from (0, 0.05) to (0.0015, 0.052) — not axis-aligned.
During one sub-tick extension A's travel slice was first snapped onto the
fat edge of B's vertical trail, which happened to pass exactly through the
slice's start point, making the slice degenerate; the degenerate slice is
classified as vertical by lineToLineCollision, so the second snap (onto C's
horizontal trail) moved the head's y-coordinate, breaking axis-alignment.
This refutes the claimed global invariant that every segment of every
player is axis-aligned at every reachable state. -/
theorem C5_counterexample :
    Reachable c5g3 ∧
    ¬ ∀ p ∈ c5g3.players, ∀ s ∈ p.segments, axisAligned s :=
  ⟨c5g3_reachable, of_decide_eq_true (by rfl)⟩

/-- C2, counterexample: in the reachable run c2g1, both players are alive
at the start of every sub-tick of the first tick and A dies during
sub-tick 9 (after sub-ticks 0..8 both are still alive), so that sub-tick
leaves exactly one player alive; yet the round does not stop in that tick
(playing stays true and no score changes), because the loop checks the
count of players alive at the start of a sub-tick.  The round ends only in
the next tick, and no round_over event is emitted in either tick — the
engine never emits round_over at all.  This refutes the claim that whenever
a sub-tick leaves at most one player alive the round stops and round_over
is emitted.  Moreover the winner accounting itself can crash: in the
reachable state c2crash the winner B left after the dying tick while
prevAlive still names it, so the round-end tick's winner loop reaches
players.get("B")!.score++ with B absent and throws (the fallible tick
returns none), where the claim asserts a completed score increment. -/
theorem C2_counterexample :
    Reachable c2t1.1 ∧
    ((((List.range 9).foldl (fun g j => (processSubTick g j).1) c2g1).players.map
      fun p => p.dead) = [false, false] ∧
     (c2t1.1.players.filter fun p => p.dead = false).length = 1 ∧
     c2t1.1.playing = true ∧
     (c2t1.1.players.map fun p => p.score) = [0, 0] ∧
     Ev.roundOver ∉ c2t1.2 ∧
     c2t2.1.playing = false ∧
     (c2t2.1.players.map fun p => p.score) = [0, 1] ∧
     Ev.roundOver ∉ c2t2.2) ∧
    Reachable c2crash ∧
    (c2crash.playing = true ∧
     (c2crash.players.map fun p => p.id) = ["A"] ∧
     "B" ∈ c2crash.prevAlive ∧
     (tickLoopE subTickRateN 0 c2crash).isNone = true) :=
  ⟨c2t1_reachable, of_decide_eq_true (by rfl), c2crash_reachable,
    of_decide_eq_true (by rfl)⟩

/-- C4, counterexample: in the reachable state c4g2 a round has just ended
and A's stored watermark for B is 1; the environment then starts a new
round and runs one tick (no redraw happens anywhere in between), after
which A's watermark for B is 0 — a strict decrease across two successive
ticks not caused by redraw, because startRound resets every watermark to 0.
This refutes the claimed monotonicity of watermarks with redraw as the only
exception. -/
theorem C4_counterexample :
    Reachable c4g2 ∧ Reachable c4g4 ∧
    c4g3 = (applyOp c4g2 (.start c4spawnB)).1 ∧
    c4g4 = (applyOp c4g3 (.tick (.ofInt 150))).1 ∧
    ((playerById c4g2 "A").map fun p => wmGet? p.lastSentSegmentIndices "B") =
      some (some 1) ∧
    ((playerById c4g4 "A").map fun p => wmGet? p.lastSentSegmentIndices "B") =
      some (some 0) ∧
    (0 : ℤ) < 1 :=
  ⟨c4g2_reachable, c4g4_reachable, rfl, rfl, of_decide_eq_true (by rfl)⟩

/-- C6, counterexample: in the reachable state c6g2 player A died by
leaving the field: its 67th sub-tick extension moved the head from
(1.4989, 0.05) to (1.5004, 0.05).  The travel slice of that extension
touches cells 59 and 60 of the spatial partition, but extendLastSegment
returns immediately after marking the player dead, before the index
update, so cell 60 (which the head had never visited before) does not
contain the head index 0.  This refutes the claim that the head index is
inserted into every touched cell also when the player dies by leaving the
field. -/
theorem C6_counterexample :
    Reachable c6g2 ∧
    ((playerById c6g2 "A").map fun p => p.dead) = some true ∧
    ((playerById c6g2 "A").map fun p => p.segments.length) = some 1 ∧
    ((playerById c6g2 "A").map fun p => decide (∀ s ∈ p.segments,
       Q.Eqv s.p1.x ⟨13999, 10000, by decide⟩ ∧ Q.Eqv s.p1.y ⟨1, 20, by decide⟩ ∧
       Q.Eqv s.p2.x ⟨15004, 10000, by decide⟩ ∧ Q.Eqv s.p2.y ⟨1, 20, by decide⟩ ∧
       outOfField s.p2)) = some true ∧
    segmentToPartitions ⟨⟨⟨14989, 10000, by decide⟩, ⟨1, 20, by decide⟩⟩,
      ⟨⟨15004, 10000, by decide⟩, ⟨1, 20, by decide⟩⟩⟩ = [59, 60] ∧
    ((playerById c6g2 "A").map fun p => partGet p.fieldPartitions 60) = some [] :=
  ⟨c6g2_reachable, of_decide_eq_true (by rfl)⟩

/-- C8, counterexample: in the reachable state c8g3 the engine has run two
full ticks; all eleven same-direction inputs queued at t = 1 are timestamped
before the start of the second tick (whose windows begin at the recorded
tick end 50), none was consumed (they never match the admission predicate,
their direction equalling the current one) and none was dropped; so more
than SUB_TICK_RATE = 10 stale entries remain after a tick.  This refutes the
claimed bound of at most SUB_TICK_RATE stale queue entries per player. -/
theorem C8_counterexample :
    Reachable c8g3 ∧
    ((playerById c8g3 "A").map fun p => p.pendingDirectionInputs.length) = some 11 ∧
    ((playerById c8g3 "A").map fun p =>
      decide (∀ inp ∈ p.pendingDirectionInputs,
        Q.Lt inp.receivedTimestamp (.ofInt 50))) = some true ∧
    Q.Eqv c8g3.lastTickEndTimestamp (.ofInt 100) ∧
    c8g3.playing = true ∧
    subTickRateN < 11 :=
  ⟨c8g3_reachable, of_decide_eq_true (by rfl)⟩

/-- C7: evaluation of the disconnect handler on the concrete two-player
game c7game with P1's session bound to user u1.  The handler emits
remove("u1") immediately and deletes the player (its segments and score are
discarded), before any reconnect can happen, so in the
disconnect-then-reconnect-within-grace scenario a remove event for P1 is
emitted after all, refuting the claim. -/
theorem C7_counterexample :
    Reachable c7game ∧
    (playerById c7game "u1").isSome = true ∧
    (onDisconnect c7game c7sessions "s1").2 = [.removeEv "u1"] ∧
    playerById (onDisconnect c7game c7sessions "s1").1.1 "u1" = none ∧
    ((onDisconnect c7game c7sessions "s1").1.2.map fun s => s.pendingDeletion) =
      [true] :=
  ⟨c7game_reachable, of_decide_eq_true (by rfl)⟩


/-- C3, amended: at every reachable state, for each pair of consecutive
segments of one player, the later segment starts at the end of the earlier
one shifted by exactly lineWidth in each coordinate (the corner nub of Add
Segment) — not at the shared endpoint of the claim; the two segments never
lie on one axis, with the single exception that a collision snap of a dying
player's head may degenerate or re-align the head, so the perpendicularity
of the final pair is guaranteed only while the player is alive. -/
theorem C3_amended (g : Game) (hg : Reachable g) :
    ∀ p ∈ g.players,
      List.Chain' pairNub p.segments ∧
      List.Chain' pairPerp p.segments.dropLast ∧
      (p.dead = false → List.Chain' pairPerp p.segments) := by
  intro p hp
  obtain ⟨h1, h2, h3, h4, h5, h6, h7, h8⟩ := reachable_inv hg p hp
  exact ⟨h5, h6, h7⟩

/-- C3 witness: the amended chain invariant applied to the reachable state
c3g4, in which player A has two segments joined by the corner nub. -/
theorem C3_amended_witness :
    Reachable c3g4 ∧
    c3g4.players.length = 2 ∧
    ∀ p ∈ c3g4.players,
      List.Chain' pairNub p.segments ∧
      List.Chain' pairPerp p.segments.dropLast ∧
      (p.dead = false → List.Chain' pairPerp p.segments) :=
  ⟨c3g4_reachable, rfl, C3_amended c3g4 c3g4_reachable⟩

/-- C5, amended: at every reachable state, every segment of every player
except possibly a dead player's final head segment is axis-aligned; the
snap of a dying head to a collision start point can leave that final
segment off-axis, so the claimed global invariant holds in full only for
live players. -/
theorem C5_amended (g : Game) (hg : Reachable g) :
    ∀ p ∈ g.players,
      (∀ s ∈ p.segments.dropLast, axisAligned s) ∧
      (p.dead = false → ∀ s ∈ p.segments, axisAligned s) := by
  intro p hp
  obtain ⟨h1, h2, h3, h4, h5, h6, h7, h8⟩ := reachable_inv hg p hp
  exact ⟨h3, h4⟩

/-- C5 witness: the amended axis-alignment invariant applied to the
reachable state c5g3, which holds a dead player with an off-axis head and
two live players with aligned segments. -/
theorem C5_amended_witness :
    Reachable c5g3 ∧
    c5g3.players.length = 3 ∧
    ∀ p ∈ c5g3.players,
      (∀ s ∈ p.segments.dropLast, axisAligned s) ∧
      (p.dead = false → ∀ s ∈ p.segments, axisAligned s) :=
  ⟨c5g3_reachable, rfl, C5_amended c5g3 c5g3_reachable⟩

end SLC
